import Mathlib

/-!
# A shallow embedding of the nufs storage engine

The image is one memory-mapped file.  The embedding keeps four stores:
the bytes of the block bitmap, the bytes of the inode bitmap, the inode
table (one record per index, as `get_inode` addresses it) and the bytes of
every block.  Block bytes are accessed the way the C code accesses them:
as raw bytes (`memcpy`), as an array of 32-bit little-endian `int`
(`int *indirect_ptrs`) and as an array of directory entries
(`dirent_t *entries`), all three over the same bytes.

Machine integers are `Int`/`Nat`; conversions that can wrap are explicit
(`to_int`, `to_off_t`, `to_size_t`).
-/

namespace Nufs

set_option maxRecDepth 100000


/-! ## Constants -/

/-- Modelled from the spec: `blocks.h` is not among the sources; section 6.1
gives the block size of the reference implementation. -/
def BLOCK_SIZE : Nat := 4096

/-- Modelled from the spec: `blocks.h` is not among the sources; section 6.1
gives the number of blocks of the image (N_BLOCKS). -/
def BLOCK_COUNT : Nat := 256

/-- Modelled from the spec: `directory.h` is not among the sources; section 6.1
gives the capacity of the name buffer of a directory entry. -/
def DIR_NAME_LENGTH : Nat := 48

/-- Modelled from the spec: `directory.h` is not among the sources; section 6.1
lays a directory entry out as DIR_NAME_LENGTH bytes of name followed by a
4-byte inode index, so `sizeof(dirent_t)` is 52. -/
def DIRENT_SIZE : Nat := DIR_NAME_LENGTH + 4

/-- The errno value ENOENT. -/
def ENOENT : Int := 2

/-- The errno value EEXIST. -/
def EEXIST : Int := 17

/-- The errno value ENOSPC. -/
def ENOSPC : Int := 28

/-- The errno value ENAMETOOLONG. -/
def ENAMETOOLONG : Int := 36

/-! ## Machine integers and memory -/

/-- Conversion to a 32-bit `int` (two's complement wrap). -/
def to_int (x : Int) : Int := (2147483648 + x) % 4294967296 - 2147483648

/-- Conversion to a 64-bit `off_t` (two's complement wrap). -/
def to_off_t (x : Int) : Int :=
  (9223372036854775808 + x) % 18446744073709551616 - 9223372036854775808

/-- Conversion to a 64-bit `size_t`. -/
def to_size_t (x : Int) : Nat := (x % 18446744073709551616).toNat

/-- A run of bytes, addressed by byte offset. -/
abbrev Mem := Nat → Nat

/-- Load of the `int` stored little-endian in the four bytes at offset `a`. -/
def read_int (m : Mem) (a : Nat) : Int :=
  to_int ((m a + 256 * m (a + 1) + 65536 * m (a + 2) + 16777216 * m (a + 3) : Nat) : Int)

/-- Store of the `int` `v`, little-endian, into the four bytes at offset `a`. -/
def write_int (m : Mem) (a : Nat) (v : Int) : Mem :=
  fun x =>
    if x = a then (v % 4294967296).toNat % 256
    else if x = a + 1 then (v % 4294967296).toNat / 256 % 256
    else if x = a + 2 then (v % 4294967296).toNat / 65536 % 256
    else if x = a + 3 then (v % 4294967296).toNat / 16777216 % 256
    else m x

/-- The call `memcpy(dst + off, src, n)`: `n` bytes of `src` land at offset `off`. -/
def memcpy (dst : Mem) (off : Nat) (src : Nat → Nat) (n : Nat) : Mem :=
  fun x => if off ≤ x ∧ x < off + n then src (x - off) else dst x

/-- The `n` bytes of `m` starting at offset `off`, in order. -/
def bytes_at (m : Mem) (off n : Nat) : List Nat :=
  (List.range n).map (fun i => m (off + i))

/-! ## Bitmaps -/

/-- Modelled from the spec: `bitmap.c` is not among the sources; section 4.2
reads bit `i` of a byte array with bit 0 the least significant bit of byte 0. -/
def bitmap_get (bm : Mem) (i : Nat) : Nat := bm (i / 8) / 2 ^ (i % 8) % 2

/-- Modelled from the spec: `bitmap.c` is not among the sources; section 4.2
makes `put` a direct assignment of bit `i` (set when `v` is non-zero, cleared
otherwise), every other bit keeping its value. -/
def bitmap_put (bm : Mem) (i : Nat) (v : Nat) : Mem :=
  fun k =>
    if k = i / 8 then
      if v = 0 then
        (if bm k / 2 ^ (i % 8) % 2 = 0 then bm k else bm k - 2 ^ (i % 8))
      else
        (if bm k / 2 ^ (i % 8) % 2 = 0 then bm k + 2 ^ (i % 8) else bm k)
    else bm k

/-! ## The image -/

/-- The record `inode_t` of `inode.h`. -/
structure inode_t where
  /-- Field `refs`: reference count. -/
  refs : Int
  /-- Field `mode`: permission and type. -/
  mode : Int
  /-- Field `size`: bytes. -/
  size : Int
  /-- Field `block`: direct block, or indirect block when `size > BLOCK_SIZE`. -/
  block : Int

/-- The mapped image: both bitmaps, the inode table and the bytes of every
block, each kept as a component of its own. In the mapped file they share one
range of bytes; the components stand for it where the layout keeps them
apart: for the inode records that lie inside the `NUM_BLOCKS` blocks of the
table (`record_in_table`, the indices below 508) and for the blocks past the
reserved ones (`data_block`). The hypotheses `file_in_layout`,
`mknod_in_layout`, `mknod_unlink_in_layout` and `calls_in_layout` state those
bounds for the theorems that take them. -/
structure Image where
  /-- The bytes of the block bitmap. -/
  block_bitmap : Mem
  /-- The bytes of the inode bitmap. -/
  inode_bitmap : Mem
  /-- The inode table: `inodes i` is the record `get_inode(i)` points to. -/
  inodes : Int → inode_t
  /-- The bytes of block `b`, as `blocks_get_block(b)` exposes them. -/
  blocks : Int → Mem

/-- The function `get_inode` of `inode.c`, as the record it points to. -/
def get_inode (s : Image) (inum : Int) : inode_t := s.inodes inum

/-- Assignment through the pointer `get_inode(inum)`. The record goes into the
table component of the image and no block changes: that is what the code does
for a record inside the table (`record_in_table`). The four records from 508
on lie in the first bytes of the block after the table (see C17), where
the assignment of the code also changes that block; the image does not show
that. -/
def set_inode (s : Image) (inum : Int) (node : inode_t) : Image :=
  { s with inodes := fun i => if i = inum then node else s.inodes i }

/-- Modelled from the spec: `blocks.c` is not among the sources;
`blocks_get_block(b)` is the start of the bytes of block `b` (section 4.1). -/
def blocks_get_block (s : Image) (b : Int) : Mem := s.blocks b

/-- Replacement of the bytes of block `b`. -/
def set_block (s : Image) (b : Int) (m : Mem) : Image :=
  { s with blocks := fun i => if i = b then m else s.blocks i }

/-- Modelled from the spec: the first-free scan of `alloc_block` (section 4.3):
the lowest index `i`, among the `n` indices from `i` on, whose bit is 0. -/
def first_free (bm : Mem) : Nat → Nat → Option Nat
  | 0, _ => none
  | n + 1, i => if bitmap_get bm i = 0 then some i else first_free bm n (i + 1)

/-- Modelled from the spec: `blocks.c` is not among the sources. Section 4.3:
scan the block bitmap from block 0 for the first bit whose value is 0, set it
and return its index; the callers in `inode.c` and `nufs.c` test the result
against -1 for no-space. -/
def alloc_block (s : Image) : Int × Image :=
  match first_free s.block_bitmap BLOCK_COUNT 0 with
  | some i => ((i : Int), { s with block_bitmap := bitmap_put s.block_bitmap i 1 })
  | none => (-1, s)

/-- Modelled from the spec: `blocks.c` is not among the sources. Section 4.3:
`free_block(i)` clears bit `i` of the block bitmap. -/
def free_block (s : Image) (b : Int) : Image :=
  { s with block_bitmap := bitmap_put s.block_bitmap b.toNat 0 }

/-! ## inode.c -/

/-- The function `inode_get_bnum` of `inode.c`. -/
def inode_get_bnum (s : Image) (node : inode_t) (logical_block : Int) : Int :=
  if node.size ≤ BLOCK_SIZE then
    (if logical_block = 0 then node.block else -1)
  else
    read_int (blocks_get_block s node.block) (4 * logical_block.toNat)

/-- The loop `while (current_blocks < target_blocks)` of `grow_inode`; `n` is
the number of turns left, `target_blocks - current_blocks`. -/
def grow_loop (blk : Int) : Nat → Image → Int → Int × Image
  | 0, s, _ => (0, s)
  | n + 1, s, current_blocks =>
    let r := alloc_block s
    if r.1 = -1 then (-ENOSPC, r.2)
    else
      grow_loop blk n
        (set_block r.2 blk (write_int (blocks_get_block r.2 blk) (4 * current_blocks.toNat) r.1))
        (current_blocks + 1)

/-- The function `grow_inode` of `inode.c`; `inum` stands for the pointer
`node = get_inode(inum)`. The two consecutive `if` statements of the source are
nested here: when the first one runs, `node->size` is unchanged, so the
condition of the second one holds and its loop starts from `current_blocks = 1`
on the new indirect block. -/
def grow_inode (s : Image) (inum : Int) (new_size : Int) : Int × Image :=
  let node := get_inode s inum
  let current_blocks := Int.tdiv (node.size + BLOCK_SIZE - 1) BLOCK_SIZE
  let target_blocks := Int.tdiv (new_size + BLOCK_SIZE - 1) BLOCK_SIZE
  if target_blocks ≤ current_blocks then (0, s)
  else if node.size ≤ BLOCK_SIZE ∧ target_blocks > 1 then
    let r := alloc_block s
    if r.1 = -1 then (-ENOSPC, r.2)
    else
      let s2 := set_block r.2 r.1 (write_int (blocks_get_block r.2 r.1) 0 node.block)
      let s3 := set_inode s2 inum { node with block := r.1 }
      grow_loop r.1 (target_blocks - 1).toNat s3 1
  else if node.size > BLOCK_SIZE ∨ (node.size ≤ BLOCK_SIZE ∧ target_blocks > 1) then
    grow_loop node.block (target_blocks - current_blocks).toNat s current_blocks
  else (0, s)

/-- The loop `for (i = required_blocks; i < old_block_count; i++)` of
`shrink_inode`; `n` is the number of turns left. -/
def shrink_loop (blk : Int) : Nat → Image → Int → Image
  | 0, s, _ => s
  | n + 1, s, i =>
    shrink_loop blk n (free_block s (read_int (blocks_get_block s blk) (4 * i.toNat))) (i + 1)

/-- The function `shrink_inode` of `inode.c`; `inum` stands for the pointer
`node = get_inode(inum)`. -/
def shrink_inode (s : Image) (inum : Int) (new_size : Int) : Int × Image :=
  let node := get_inode s inum
  let old_block_count := Int.tdiv (node.size + BLOCK_SIZE - 1) BLOCK_SIZE
  let required_blocks := Int.tdiv (new_size + BLOCK_SIZE - 1) BLOCK_SIZE
  if node.size ≤ BLOCK_SIZE then (0, s)
  else
    let s1 := shrink_loop node.block (old_block_count - required_blocks).toNat s required_blocks
    if required_blocks = 1 then
      let preserved_block := read_int (blocks_get_block s1 node.block) 0
      let s2 := free_block s1 node.block
      (0, set_inode s2 inum { node with block := preserved_block })
    else (0, s1)

/-! ## directory.c -/

/-- The test `strcmp(m + a, name) == 0` for a C string `name` (its bytes, none
of them 0, without the terminator): the bytes at `a` spell `name` and are
followed by the terminator. -/
def strcmp_eq (m : Mem) : Nat → List Nat → Bool
  | a, [] => m a == 0
  | a, c :: cs => m a == c && strcmp_eq m (a + 1) cs

/-- The call `strcpy(m + a, name)`: the bytes of `name`, then the terminator. -/
def strcpy (m : Mem) (a : Nat) (name : List Nat) : Mem :=
  fun x =>
    if a ≤ x ∧ x < a + name.length then name.getD (x - a) 0
    else if x = a + name.length then 0
    else m x

/-- The entry count computed by `get_entries`: `dd->size / sizeof(dirent_t)`,
an unsigned division whose result is stored in an `int`. -/
def entry_count (dd : inode_t) : Int :=
  to_int ((to_size_t dd.size / DIRENT_SIZE : Nat) : Int)

/-- The scan `for (i = 0; i < entry_count; i++) if (strcmp(entries[i].name, name) == 0)`
shared by `directory_lookup` and `directory_delete`: the first matching slot
among the `n` slots from `i` on. -/
def scan_entries (blk : Mem) (name : List Nat) : Nat → Nat → Option Nat
  | 0, _ => none
  | n + 1, i =>
    if strcmp_eq blk (i * DIRENT_SIZE) name then some i
    else scan_entries blk name n (i + 1)

/-- The field `entries[i].inum` of the directory block `blk`. -/
def entry_inum (blk : Mem) (i : Nat) : Int :=
  read_int blk (i * DIRENT_SIZE + DIR_NAME_LENGTH)

/-- The function `directory_lookup` of `directory.c`. -/
def directory_lookup (s : Image) (dd : inode_t) (name : List Nat) : Int :=
  let entries := blocks_get_block s dd.block
  match scan_entries entries name (entry_count dd).toNat 0 with
  | some i => entry_inum entries i
  | none => -1

/-- The function `directory_delete` of `directory.c`; `dnum` stands for the
pointer `dd = get_inode(dnum)`. -/
def directory_delete (s : Image) (dnum : Int) (name : List Nat) : Int × Image :=
  let dd := get_inode s dnum
  let entries := blocks_get_block s dd.block
  match scan_entries entries name (entry_count dd).toNat 0 with
  | some i =>
    let last := (entry_count dd - 1).toNat
    let entries1 := memcpy entries (i * DIRENT_SIZE) (fun k => entries (last * DIRENT_SIZE + k)) DIRENT_SIZE
    let s1 := set_block s dd.block entries1
    (0, set_inode s1 dnum { dd with size := dd.size - DIRENT_SIZE })
  | none => (-ENOENT, s)

/-- The function `directory_put` of `directory.c`; `dnum` stands for the
pointer `dd = get_inode(dnum)`. -/
def directory_put (s : Image) (dnum : Int) (name : List Nat) (inum : Int) : Int × Image :=
  let dd := get_inode s dnum
  if directory_lookup s dd name ≥ 0 then (-EEXIST, s)
  else if name.length ≥ DIR_NAME_LENGTH then (-ENAMETOOLONG, s)
  else
    let entries := blocks_get_block s dd.block
    let new_entry := (entry_count dd).toNat * DIRENT_SIZE
    let s1 := set_inode s dnum { dd with size := dd.size + DIRENT_SIZE }
    let entries1 := strcpy entries new_entry name
    let entries2 := write_int entries1 (new_entry + DIR_NAME_LENGTH) inum
    (0, set_block s1 dd.block entries2)

/-- The call `strchr(start, c)`: the index of the first `c`, if any. -/
def strchr : List Nat → Nat → Option Nat
  | [], _ => none
  | x :: xs, c => if x = c then some 0 else (strchr xs c).map (· + 1)

/-- The segment length `len = end ? (end - start) : strlen(start)` of
`find_path`, where `end = strchr(start, '/')`. -/
def segment_length (start : List Nat) : Nat :=
  match strchr start 47 with
  | some k => k
  | none => start.length

/-- The loop `while (*start != 0)` of `find_path`. `current` is always
`get_inode(inode_num)`. Every turn that does not leave the loop moves `start`
past at least one character, so `fuel = strlen(start)` turns are enough. -/
def find_path_loop (s : Image) : Nat → List Nat → Int → Int
  | 0, _, inode_num => inode_num
  | fuel + 1, start, inode_num =>
    if start = [] then inode_num
    else if segment_length start ≥ 256 then -1
    else
      let name := start.take (segment_length start)
      let r := directory_lookup s (get_inode s inode_num) name
      if r = -1 then -1
      else
        match strchr start 47 with
        | none => r
        | some k => find_path_loop s fuel (start.drop (k + 1)) r

/-- The function `find_path` of `directory.c`; a path is the list of its bytes
(`'/'` is 47). -/
def find_path (s : Image) (path : List Nat) : Int :=
  if path = [47] then 0
  else
    let start := match path with
      | 47 :: rest => rest
      | _ => path
    find_path_loop s start.length start 0

/-! ## nufs.c -/

/-- The function `nufs_truncate` of `nufs.c`; `size` is an `off_t`. -/
def nufs_truncate (s : Image) (path : List Nat) (size : Int) : Int × Image :=
  let inum := find_path s path
  if inum = -1 then (-ENOENT, s)
  else
    let node := get_inode s inum
    if size > node.size then
      let r := grow_inode s inum (to_int size)
      if r.1 = -1 then (r.1, r.2)
      else (0, set_inode r.2 inum { get_inode r.2 inum with size := to_int size })
    else if size < node.size then
      let r := shrink_inode s inum (to_int size)
      (0, set_inode r.2 inum { get_inode r.2 inum with size := to_int size })
    else (0, set_inode s inum { node with size := to_int size })

/-- The loop `while (remaining > 0)` of `nufs_read`; the bytes copied into the
caller's buffer so far are `buffer`, so `total_read` is its length. `none`
when the fuel runs out with bytes remaining. -/
def read_loop (s : Image) (inode : inode_t) : Nat → Nat → Nat → List Nat → Option (List Nat)
  | 0, remaining, _, buffer => if remaining = 0 then some buffer else none
  | fuel + 1, remaining, current_offset, buffer =>
    if remaining = 0 then some buffer
    else
      let blk_idx := to_int ((current_offset / BLOCK_SIZE : Nat) : Int)
      let blk_offset := current_offset % BLOCK_SIZE
      let blk_num := inode_get_bnum s inode blk_idx
      if blk_num = -1 then some buffer
      else
        let blk := blocks_get_block s blk_num
        let blk_space := BLOCK_SIZE - blk_offset
        let read_amount := if remaining < blk_space then remaining else blk_space
        read_loop s inode fuel (remaining - read_amount) (current_offset + read_amount)
          (buffer ++ bytes_at blk blk_offset read_amount)

/-- The function `nufs_read` of `nufs.c`: the returned `int` and the bytes
copied into the caller's buffer. `size` is a `size_t`, `offset` a non-negative
`off_t`. The loop turns at most `size` times, one byte at least per turn. -/
def nufs_read (s : Image) (path : List Nat) (size : Nat) (offset : Nat) :
    Option (Int × List Nat) :=
  let inum := find_path s path
  if inum = -1 then some (-ENOENT, [])
  else
    let inode := get_inode s inum
    if offset ≥ to_size_t inode.size then some (0, [])
    else
      let readable := to_size_t (inode.size - offset)
      let size1 := if size > readable then readable else size
      match read_loop s inode size1 size1 offset [] with
      | some buffer => some (to_int buffer.length, buffer)
      | none => none

/-- The loop `while (remaining > 0)` of `nufs_write`; `inum` stands for the
pointer `inode = get_inode(inum)`, read again on every turn. `none` when the
fuel runs out with bytes remaining. -/
def write_loop (inum : Int) (data : List Nat) :
    Nat → Image → Nat → Nat → Nat → Option (Nat × Image)
  | 0, s, remaining, _, bytes_written =>
    if remaining = 0 then some (bytes_written, s) else none
  | fuel + 1, s, remaining, current_offset, bytes_written =>
    if remaining = 0 then some (bytes_written, s)
    else
      let blk_idx := to_int ((current_offset / BLOCK_SIZE : Nat) : Int)
      let blk_offset := current_offset % BLOCK_SIZE
      let blk_num := inode_get_bnum s (get_inode s inum) blk_idx
      if blk_num = -1 then some (bytes_written, s)
      else
        let blk := blocks_get_block s blk_num
        let blk_space := BLOCK_SIZE - blk_offset
        let write_amount := if remaining < blk_space then remaining else blk_space
        write_loop inum data fuel
          (set_block s blk_num
            (memcpy blk blk_offset (fun i => data.getD (bytes_written + i) 0) write_amount))
          (remaining - write_amount) (current_offset + write_amount)
          (bytes_written + write_amount)

/-- The function `nufs_write` of `nufs.c`: the returned `int` and the image
afterwards. `data` holds the bytes behind the pointer `data`, `size` is a
`size_t`, `offset` a non-negative `off_t`. The loop turns at most `size`
times, one byte at least per turn. -/
def nufs_write (s : Image) (path : List Nat) (data : List Nat) (size : Nat) (offset : Nat) :
    Option (Int × Image) :=
  let inum := find_path s path
  if inum = -1 then some (-ENOENT, s)
  else
    let inode := get_inode s inum
    let final_size := (offset + size) % 18446744073709551616
    let r : Int × Image :=
      if final_size > to_size_t inode.size then nufs_truncate s path (to_off_t final_size)
      else (0, s)
    if r.1 < 0 then some (r.1, r.2)
    else
      match write_loop inum data size r.2 size offset 0 with
      | some w => some (to_int w.1, w.2)
      | none => none

/-! ## Vocabulary of the properties -/

/-- The number of free blocks: the bits of value 0 among the `BLOCK_COUNT`
first bits of the block bitmap. -/
def free_blocks (s : Image) : Nat :=
  (List.range BLOCK_COUNT).countP (fun j => bitmap_get s.block_bitmap j = 0)

/-- Block `b` is a block of the image and its bit is set in the block bitmap. -/
def allocated (s : Image) (b : Int) : Prop :=
  0 ≤ b ∧ b < BLOCK_COUNT ∧ bitmap_get s.block_bitmap b.toNat = 1

instance (s : Image) (b : Int) : Decidable (allocated s b) := by
  unfold allocated; infer_instance

/-- Slot `i` of the indirect block `blk`: `((int *)blocks_get_block(blk))[i]`. -/
def indirect_slot (s : Image) (blk : Int) (i : Nat) : Int :=
  read_int (blocks_get_block s blk) (4 * i)

/-- The largest size the extent map can describe: one indirect block's worth
of data blocks, `BLOCK_SIZE / sizeof(int)` slots of `BLOCK_SIZE` bytes. -/
def MAX_FILE_SIZE : Nat := (BLOCK_SIZE / 4) * BLOCK_SIZE

/-- The number of blocks `⌈size / BLOCK_SIZE⌉` that hold `size` bytes. -/
def blocks_for (size : Nat) : Nat := (size + BLOCK_SIZE - 1) / BLOCK_SIZE

/-- The extent of `node` is consistent (section 3.3): its size is between 0
and the maximum file size, its block is allocated, and when the inode is
indirect the `⌈size / BLOCK_SIZE⌉` first slots of the indirect block hold
allocated blocks, different from each other and from the indirect block. -/
def extent_ok (s : Image) (node : inode_t) : Prop :=
  0 ≤ node.size ∧ node.size ≤ MAX_FILE_SIZE ∧ allocated s node.block ∧
  ((BLOCK_SIZE : Int) < node.size →
    ∀ i, i < blocks_for node.size.toNat →
      allocated s (indirect_slot s node.block i) ∧
      indirect_slot s node.block i ≠ node.block ∧
      ∀ j, j < i → indirect_slot s node.block j ≠ indirect_slot s node.block i)

instance (s : Image) (node : inode_t) : Decidable (extent_ok s node) := by
  unfold extent_ok; infer_instance

/-- Byte `k` of the file `node`, found through the extent map
`inode_get_bnum`: it lies in logical block `k / BLOCK_SIZE` at offset
`k % BLOCK_SIZE`. -/
def file_byte (s : Image) (node : inode_t) (k : Nat) : Nat :=
  blocks_get_block s (inode_get_bnum s node ((k / BLOCK_SIZE : Nat) : Int)) (k % BLOCK_SIZE)

/-- The `n` bytes of the file `node` from offset `off` on. -/
def file_bytes (s : Image) (node : inode_t) (off n : Nat) : List Nat :=
  (List.range n).map (fun i => file_byte s node (off + i))

/-- The number of blocks a growth from `size` to `new_size` bytes takes from
the allocator: none when the block count does not grow or the file stays
within its direct block, the indirect block and every data block but the
first on the way from direct to indirect, and the additional data blocks of a
file that is indirect already. -/
def growth_blocks (size new_size : Nat) : Nat :=
  if blocks_for new_size ≤ blocks_for size then 0
  else if size ≤ BLOCK_SIZE then (if 1 < blocks_for new_size then blocks_for new_size else 0)
  else blocks_for new_size - blocks_for size

/-- Block `b` belongs to the extent of `node`: it is the block of the inode
or, for an indirect inode, one of the data blocks in the `⌈size / BLOCK_SIZE⌉`
first slots. -/
def in_extent (s : Image) (node : inode_t) (b : Int) : Prop :=
  b = node.block ∨
  ((BLOCK_SIZE : Int) < node.size ∧
    ∃ i, i < blocks_for node.size.toNat ∧ indirect_slot s node.block i = b)

instance (s : Image) (node : inode_t) (b : Int) : Decidable (in_extent s node b) := by
  unfold in_extent; infer_instance

/-- The inode numbers whose directories `find_path_loop` searches, in order:
the value of `inode_num` at every call of `directory_lookup`. -/
def path_dirs_loop (s : Image) : Nat → List Nat → Int → List Int
  | 0, _, _ => []
  | fuel + 1, start, inode_num =>
    if start = [] then []
    else if segment_length start ≥ 256 then []
    else
      let name := start.take (segment_length start)
      let r := directory_lookup s (get_inode s inode_num) name
      inode_num ::
        (if r = -1 then []
         else
           match strchr start 47 with
           | none => []
           | some k => path_dirs_loop s fuel (start.drop (k + 1)) r)

/-- The inode numbers whose directories `find_path` searches for `path`. -/
def path_dirs (s : Image) (path : List Nat) : List Int :=
  if path = [47] then []
  else
    let start := match path with
      | 47 :: rest => rest
      | _ => path
    path_dirs_loop s start.length start 0

/-- The directories searched on the way to `path` are apart from the file
`inum`: none of them is the inode `inum` itself, and the block of each is
allocated and is no block of the extent of `inum`. -/
def path_apart (s : Image) (path : List Nat) (inum : Int) : Prop :=
  ∀ d ∈ path_dirs s path,
    d ≠ inum ∧ allocated s (get_inode s d).block ∧
    ¬ in_extent s (get_inode s inum) (get_inode s d).block

instance (s : Image) (path : List Nat) (inum : Int) : Decidable (path_apart s path inum) := by
  unfold path_apart; infer_instance

/-! ## inode.h, the inode allocator and the rest of nufs.c -/

/-- The macro `NUM_BLOCKS` of `inode.h`. -/
def NUM_BLOCKS : Nat := 2

/-- The size `sizeof(inode_t)`: four `int` fields of four bytes. -/
def INODE_SIZE : Nat := 16

/-- The macro `INODES_PER_BLOCK` of `inode.h`. -/
def INODES_PER_BLOCK : Nat := BLOCK_SIZE / INODE_SIZE

/-- The macro `INODE_COUNT` of `inode.h`. -/
def INODE_COUNT : Nat := INODES_PER_BLOCK * NUM_BLOCKS

/-- The macro `INODE_BITMAP_SIZE` of `inode.h`. -/
def INODE_BITMAP_SIZE : Nat := INODE_COUNT / 8

/-- The byte offset, from the start of the inode bitmap, of the record that
`get_inode(inum)` addresses: `INODE_BITMAP_SIZE + inum * sizeof(inode_t)`. -/
def inode_offset (inum : Nat) : Nat := INODE_BITMAP_SIZE + inum * INODE_SIZE

/-- The scan of `alloc_inode`: the first index `i`, among the `n` indices from
`i` on, with `(bitmap[i / 8] & (1 << (i % 8))) == 0`. -/
def alloc_inode_scan (bitmap : Mem) : Nat → Nat → Option Nat
  | 0, _ => none
  | n + 1, i =>
    if bitmap (i / 8) &&& (1 <<< (i % 8)) = 0 then some i
    else alloc_inode_scan bitmap n (i + 1)

/-- The function `alloc_inode` of `inode.c`. -/
def alloc_inode (s : Image) : Int × Image :=
  match alloc_inode_scan s.inode_bitmap INODE_COUNT 0 with
  | some i => ((i : Int), { s with inode_bitmap := bitmap_put s.inode_bitmap i 1 })
  | none => (-1, s)

/-- The function `free_inode` of `inode.c`. -/
def free_inode (s : Image) (inum : Int) : Image :=
  { s with inode_bitmap := bitmap_put s.inode_bitmap inum.toNat 0 }

/-- The function `directory_init` of `directory.c`. -/
def directory_init (s : Image) : Image :=
  if (get_inode s 0).refs = 0 then
    let r := alloc_block s
    let s1 := set_inode r.2 0 { refs := 1, mode := 16877, size := 0, block := r.1 }
    { s1 with inode_bitmap := bitmap_put s1.inode_bitmap 0 1 }
  else s

/-- Modelled from the spec: `blocks.c` is not among the sources. Section 4.1:
a freshly created image is zero-filled and `init` marks blocks 0, 1 and 2 as
allocated in the block bitmap. -/
def blocks_init : Image :=
  { block_bitmap := fun k => if k = 0 then 7 else 0,
    inode_bitmap := fun _ => 0,
    inodes := fun _ => { refs := 0, mode := 0, size := 0, block := 0 },
    blocks := fun _ _ => 0 }

/-- The image after `main` has run `blocks_init` and `directory_init` on a new file. -/
def fresh_image : Image := directory_init blocks_init

/-- The call `strrchr(s, c)`: the index of the last `c`, if any. -/
def strrchr : List Nat → Nat → Option Nat
  | [], _ => none
  | x :: xs, c =>
    match strrchr xs c with
    | some k => some (k + 1)
    | none => if x = c then some 0 else none

/-- The function `get_directory_from_path` of `nufs.c`: the copy of `filepath`,
cut at its last `'/'` (the two buffers of every caller are distinct). The
callers copy into buffers of `PATH_BUFFER` bytes, `parent_path`, `src_dir` and
`dst_dir`; the list is the content of the buffer for a path that fits
(`path_fits`). A longer path overruns the buffer in the code, which has no
result to embed. -/
def get_directory_from_path (filepath : List Nat) : List Nat :=
  match strrchr filepath 47 with
  | some k => filepath.take k
  | none => filepath

/-- The expression `strrchr(path, '/') + 1` of `nufs_mknod` and `nufs_rename`:
what follows the last `'/'`. Every path the adapter hands over starts with
`'/'`; without one the source dereferences `NULL + 1`, rendered here as the
empty name. -/
def base_name (path : List Nat) : List Nat :=
  match strrchr path 47 with
  | some k => path.drop (k + 1)
  | none => []

/-- The function `nufs_access` of `nufs.c`. -/
def nufs_access (s : Image) (path : List Nat) : Int :=
  if find_path s path ≥ 0 then 0 else -ENOENT

/-- The function `nufs_mknod` of `nufs.c`; `mode` is a `mode_t`. -/
def nufs_mknod (s : Image) (path : List Nat) (mode : Nat) : Int × Image :=
  let r1 := alloc_inode s
  let r2 := alloc_block r1.2
  if r1.1 = -1 ∨ r2.1 = -1 then (-ENOSPC, r2.2)
  else
    let s3 := set_inode r2.2 r1.1 { refs := 1, mode := to_int mode, size := 0, block := r2.1 }
    let parent_inode := find_path s3 (get_directory_from_path path)
    if parent_inode = -1 then (-ENOENT, s3)
    else directory_put s3 parent_inode (base_name path) r1.1

/-- The fields of `struct stat` that `nufs_getattr` fills. -/
structure stat_t where
  /-- Field `st_mode`, an unsigned `mode_t`. -/
  st_mode : Int
  /-- Field `st_size`. -/
  st_size : Int
  /-- Field `st_nlink`. -/
  st_nlink : Int
deriving DecidableEq

/-- The function `nufs_getattr` of `nufs.c`: the returned `int` and, on
success, the fields written to `st`. -/
def nufs_getattr (s : Image) (path : List Nat) : Int × Option stat_t :=
  let inode_index := find_path s path
  if inode_index = -1 then (-ENOENT, none)
  else
    let inode := get_inode s inode_index
    (0, some { st_mode := inode.mode % 4294967296, st_size := inode.size, st_nlink := inode.refs })

/-- The function `nufs_mkdir` of `nufs.c`: `mode | 040000`. -/
def nufs_mkdir (s : Image) (path : List Nat) (mode : Nat) : Int × Image :=
  nufs_mknod s path (mode ||| 16384)

/-- The function `nufs_rmdir` of `nufs.c`. -/
def nufs_rmdir (s : Image) (path : List Nat) : Int × Image :=
  let inum := find_path s path
  if inum = -1 then (-ENOENT, s)
  else
    let r := directory_delete s 0 (path.drop 1)
    (0, free_inode r.2 inum)

/-- The function `nufs_rename` of `nufs.c`. -/
def nufs_rename (s : Image) (src dst : List Nat) : Int × Image :=
  let inum := find_path s src
  if inum = -1 then (-ENOENT, s)
  else
    let src_parent_id := find_path s (get_directory_from_path src)
    let dst_parent_id := find_path s (get_directory_from_path dst)
    let s1 := if find_path s dst ≥ 0 then (directory_delete s dst_parent_id (base_name dst)).2 else s
    let s2 := (directory_put s1 dst_parent_id (base_name dst) inum).2
    let s3 := (directory_delete s2 src_parent_id (base_name src)).2
    (0, s3)

/-- The function `nufs_unlink` of `nufs.c`. -/
def nufs_unlink (s : Image) (path : List Nat) : Int × Image :=
  let inum := find_path s path
  if inum = -1 then (-ENOENT, s)
  else
    let s1 := free_block s (get_inode s inum).block
    let s2 := free_inode s1 inum
    let r := directory_delete s2 0 (path.drop 1)
    (0, r.2)

/-- A C string literal as the list of its bytes. -/
def cstr (text : String) : List Nat := text.toList.map Char.toNat

/-! ## Records of what the extent operations keep -/

/-- What a successful run of `n` turns of the growth loop leaves behind. -/
structure Grown (s s' : Image) (blk : Int) (cur n : Nat) : Prop where
  inodes_eq : s'.inodes = s.inodes
  inode_bitmap_eq : s'.inode_bitmap = s.inode_bitmap
  free_eq : free_blocks s' + n = free_blocks s
  blocks_other : ∀ b, b ≠ blk → s'.blocks b = s.blocks b
  bytes_other : ∀ x, (x < 4 * cur ∨ 4 * (cur + n) ≤ x) → s'.blocks blk x = s.blocks blk x
  mono : ∀ j, bitmap_get s.block_bitmap j = 1 → bitmap_get s'.block_bitmap j = 1
  fresh : ∀ i, i < n → 0 ≤ indirect_slot s' blk (cur + i) ∧
    indirect_slot s' blk (cur + i) < BLOCK_COUNT ∧
    bitmap_get s.block_bitmap (indirect_slot s' blk (cur + i)).toNat = 0 ∧
    bitmap_get s'.block_bitmap (indirect_slot s' blk (cur + i)).toNat = 1
  distinct : ∀ i j, i < j → j < n →
    indirect_slot s' blk (cur + i) ≠ indirect_slot s' blk (cur + j)

/-- What a change of the extent of the file `inum` from image `s` to image
`s2` keeps: the new size is `new_size`, the extent is consistent again, other
inodes are untouched, allocated blocks outside the extent stay as they are
and stay outside, and the first `keep` bytes of the file are the same. -/
structure FileStep (s s2 : Image) (inum : Int) (new_size : Int) (keep : Nat) : Prop where
  size_eq : (get_inode s2 inum).size = new_size
  ext : extent_ok s2 (get_inode s2 inum)
  inodes_other : ∀ d, d ≠ inum → s2.inodes d = s.inodes d
  outside : ∀ b, allocated s b → ¬ in_extent s (get_inode s inum) b →
    s2.blocks b = s.blocks b ∧ allocated s2 b ∧ ¬ in_extent s2 (get_inode s2 inum) b
  bytes : ∀ k, k < keep → file_byte s2 (get_inode s2 inum) k = file_byte s (get_inode s inum) k

/-! ## Calls, runs and concrete images -/

/-- The mode has the directory-type bit `040000`. -/
def has_dir_bit (mode : Int) : Prop := mode / 16384 % 2 = 1

instance (mode : Int) : Decidable (has_dir_bit mode) := by
  unfold has_dir_bit; infer_instance

/-- A call of the adapter surface that changes the image. -/
inductive Op where
  | mknod (path : List Nat) (mode : Nat)
  | mkdir (path : List Nat) (mode : Nat)
  | unlink (path : List Nat)
  | rmdir (path : List Nat)
  | rename (src dst : List Nat)
  | truncate (path : List Nat) (size : Int)
  | write (path : List Nat) (data : List Nat) (offset : Nat)

/-- The image after one call. -/
def step (s : Image) : Op → Image
  | Op.mknod path mode => (nufs_mknod s path mode).2
  | Op.mkdir path mode => (nufs_mkdir s path mode).2
  | Op.unlink path => (nufs_unlink s path).2
  | Op.rmdir path => (nufs_rmdir s path).2
  | Op.rename src dst => (nufs_rename s src dst).2
  | Op.truncate path size => (nufs_truncate s path size).2
  | Op.write path data offset =>
    match nufs_write s path data data.length offset with
    | some r => r.2
    | none => s

/-- The image after a sequence of calls, first call first. -/
def run (s : Image) : List Op → Image
  | [] => s
  | op :: ops => run (step s op) ops

/-- The record of the inode that `nufs_mknod` hands to `directory_put`, as it
is at that moment (after the record of the new inode has been written), when
the call gets that far. -/
def mknod_put_target (s : Image) (path : List Nat) (mode : Nat) : Option inode_t :=
  let r1 := alloc_inode s
  let r2 := alloc_block r1.2
  if r1.1 = -1 ∨ r2.1 = -1 then none
  else
    let s3 := set_inode r2.2 r1.1 { refs := 1, mode := to_int mode, size := 0, block := r2.1 }
    let parent_inode := find_path s3 (get_directory_from_path path)
    if parent_inode = -1 then none else some (get_inode s3 parent_inode)

/-- The record of the inode that the call hands to `directory_put`, when it
has one: the parent of the new path for mknod and mkdir, the parent of the
destination for rename. -/
def put_target (s : Image) : Op → Option inode_t
  | Op.mknod path mode => mknod_put_target s path mode
  | Op.mkdir path mode => mknod_put_target s path (mode ||| 16384)
  | Op.rename src dst =>
    if find_path s src = -1 then none
    else some (get_inode s (find_path s (get_directory_from_path dst)))
  | _ => none

/-- The call is one of mknod, mkdir, unlink, rmdir and rename. -/
def namespace_call : Op → Bool
  | Op.truncate _ _ => false
  | Op.write _ _ _ => false
  | _ => true

/-- Every call of the sequence is a namespace call and hands `directory_put`
an inode whose mode has the directory bit. -/
def puts_into_directories (s : Image) : List Op → Bool
  | [] => true
  | op :: ops =>
    namespace_call op &&
    (match put_target s op with
      | some t => decide (has_dir_bit t.mode)
      | none => true) &&
    puts_into_directories (step s op) ops

/-- The fresh image with one regular file `/f`. -/
def image_f : Image := (nufs_mknod fresh_image (cstr "/f") 33188).2

/-- The image `image_f` with every bit of the block bitmap set: no block is free. -/
def image_full : Image := { image_f with block_bitmap := fun _ => 255 }

/-- The image `image_f` after `/f` has grown to 5000 bytes: `/f` is indirect,
its indirect block is 5 and its data blocks are 4 and 6. -/
def image_big : Image := (nufs_truncate image_f (cstr "/f") 5000).2

/-- The fresh image with a directory `/d` and a regular file `/d/f` in it. -/
def image_nested : Image :=
  (nufs_mknod (nufs_mkdir fresh_image (cstr "/d") 493).2 (cstr "/d/f") 33188).2

/-- The bytes of a directory block with 78 entries: entry `i` is named by the
two letters `'a' + i / 26`, `'a' + i % 26` and holds the inode index `i + 1`. -/
def dir78 : Mem := fun x =>
  if x % 52 = 0 then 97 + x / 52 / 26
  else if x % 52 = 1 then 97 + x / 52 % 26
  else if x % 52 = 48 then x / 52 + 1
  else 0

/-- The fresh image whose root directory is full: 78 entries, 4056 bytes. -/
def image78 : Image :=
  { fresh_image with
    inodes := fun i =>
      if i = 0 then { refs := 1, mode := 16877, size := 4056, block := 3 }
      else fresh_image.inodes i,
    blocks := fun b => if b = 3 then dir78 else fresh_image.blocks b }

/-- Every inode record with a non-zero size has the directory bit in its mode. -/
def sized_are_directories (s : Image) : Prop :=
  ∀ i, (s.inodes i).size ≠ 0 → has_dir_bit (s.inodes i).mode

/-! ## Path resolution as a fold -/

/-- The `'/'`-separated segments of a string, empty ones included. -/
def split_slash : List Nat → List (List Nat)
  | [] => [[]]
  | c :: cs =>
    if c = 47 then [] :: split_slash cs
    else (c :: (split_slash cs).headD []) :: (split_slash cs).tail

/-- The fold of lookups the claim describes: start at `inode_num`, look every
segment up in turn, -1 as soon as one lookup returns -1. -/
def walk (s : Image) : Int → List (List Nat) → Int
  | inode_num, [] => inode_num
  | inode_num, seg :: segs =>
    if directory_lookup s (get_inode s inode_num) seg = -1 then -1
    else walk s (directory_lookup s (get_inode s inode_num) seg) segs

/-- Path resolution as the claim words it: `"/"` is 0, every other path is
the fold of lookups over its non-empty `'/'`-separated segments, from inode 0. -/
def find_path_spec (s : Image) (path : List Nat) : Int :=
  if path = [47] then 0
  else walk s 0 ((split_slash path).filter (fun seg => seg ≠ []))

/-- The list without its last element when that one is empty. -/
def trim_last : List (List Nat) → List (List Nat)
  | [] => []
  | [x] => if x = [] then [] else [x]
  | x :: y :: rest => x :: trim_last (y :: rest)

/-- The segments `find_path` looks up: those of the path without one leading
`'/'`, the empty piece after a trailing `'/'` left out, every other empty
segment kept. -/
def code_segments (path : List Nat) : List (List Nat) :=
  trim_last (split_slash (match path with
    | 47 :: rest => rest
    | _ => path))

/-- The fold of lookups `find_path` performs: as `walk`, and a segment of 256
bytes or more fails without a lookup. -/
def walk_checked (s : Image) : Int → List (List Nat) → Int
  | inode_num, [] => inode_num
  | inode_num, seg :: segs =>
    if seg.length ≥ 256 then -1
    else if directory_lookup s (get_inode s inode_num) seg = -1 then -1
    else walk_checked s (directory_lookup s (get_inode s inode_num) seg) segs

/-! ## Directory entries -/

/-- The slot of the first live entry of `dd` whose name is `name`, if there is
one: the scan that `directory_lookup` and `directory_delete` run. -/
def entry_slot (s : Image) (dd : inode_t) (name : List Nat) : Option Nat :=
  scan_entries (blocks_get_block s dd.block) name (entry_count dd).toNat 0

/-- No name (a C string shorter than `DIR_NAME_LENGTH`) is held by two live
entries of `dd`. -/
def names_unique (s : Image) (dd : inode_t) : Prop :=
  ∀ (name : List Nat) (j k : Nat), 0 ∉ name → name.length < DIR_NAME_LENGTH →
    j < (entry_count dd).toNat → k < (entry_count dd).toNat →
    strcmp_eq (blocks_get_block s dd.block) (j * DIRENT_SIZE) name = true →
    strcmp_eq (blocks_get_block s dd.block) (k * DIRENT_SIZE) name = true → j = k

/-- The fresh image whose root directory has the one entry `a` with the
stored index -2. -/
def image_neg : Image := (directory_put fresh_image 0 (cstr "a") (-2)).2

/-- The bytes of a directory block with the three entries `b` (index 2),
`a` (index 1) and `a` (index 3). -/
def dir_dup : Mem := fun x =>
  if x = 0 then 98
  else if x = 48 then 2
  else if x = 52 then 97
  else if x = 100 then 1
  else if x = 104 then 97
  else if x = 152 then 3
  else 0

/-- The fresh image whose root directory holds the three entries of `dir_dup`. -/
def image_dup : Image :=
  { fresh_image with
    inodes := fun i =>
      if i = 0 then { refs := 1, mode := 16877, size := 156, block := 3 }
      else fresh_image.inodes i,
    blocks := fun b => if b = 3 then dir_dup else fresh_image.blocks b }

/-- The fresh image with the two regular files `/f` and `/g`. -/
def image_fg : Image := (nufs_mknod image_f (cstr "/g") 33188).2

/-- The image in which `nufs_mknod` resolves the parent directory when
`alloc_inode` has handed out inode `k` and `alloc_block` block `b`: both bits
set and the record of inode `k` written. -/
def mknod_image (s : Image) (k b : Nat) (mode : Nat) : Image :=
  set_inode
    { s with inode_bitmap := bitmap_put s.inode_bitmap k 1,
             block_bitmap := bitmap_put s.block_bitmap b 1 }
    k { refs := 1, mode := to_int mode, size := 0, block := b }

/-- The postcondition of a creating call on the image `s` that returned `r`:
it returned 0; `path` resolves to the inode that `alloc_inode` handed out,
whose bit was clear in the inode bitmap and is now set; `getattr` reports
`mode`, size 0 and link count 1; and the block of the inode is the block that
`alloc_block` handed out, whose bit was clear in the block bitmap and is now
set. -/
def created (s : Image) (path : List Nat) (mode : Nat) (r : Int × Image) : Prop :=
  r.1 = 0 ∧
  find_path r.2 path = (alloc_inode s).1 ∧
  0 ≤ (alloc_inode s).1 ∧
  bitmap_get s.inode_bitmap (alloc_inode s).1.toNat = 0 ∧
  bitmap_get r.2.inode_bitmap (alloc_inode s).1.toNat = 1 ∧
  nufs_getattr r.2 path = (0, some { st_mode := mode, st_size := 0, st_nlink := 1 }) ∧
  (get_inode r.2 (alloc_inode s).1).block = (alloc_block (alloc_inode s).2).1 ∧
  0 ≤ (alloc_block (alloc_inode s).2).1 ∧
  bitmap_get s.block_bitmap (alloc_block (alloc_inode s).2).1.toNat = 0 ∧
  bitmap_get r.2.block_bitmap (alloc_block (alloc_inode s).2).1.toNat = 1

/-- The image reached from the fresh one by `mkdir("/d")`, `mknod("/d/f")`,
`unlink("/d/f")`: inode 2 is free again and the entry `f` of `/d` still names it. -/
def image_dangling : Image :=
  run fresh_image [Op.mkdir (cstr "/d") 493, Op.mknod (cstr "/d/f") 33188,
    Op.unlink (cstr "/d/f")]

/-- The lookups `find_path` performs for the segments `segs` from the inode
`inode_num`: every directory searched, with the segment looked up in it. -/
def walk_steps (s : Image) : Int → List (List Nat) → List (Int × List Nat)
  | _, [] => []
  | inode_num, seg :: segs =>
    if seg.length ≥ 256 then []
    else (inode_num, seg) ::
      (if directory_lookup s (get_inode s inode_num) seg = -1 then []
       else walk_steps s (directory_lookup s (get_inode s inode_num) seg) segs)

/-- The lookups `find_path` performs for `path`. -/
def path_steps (s : Image) (path : List Nat) : List (Int × List Nat) :=
  if path = [47] then [] else walk_steps s 0 (code_segments path)

/-- The lookup `st` (a directory and a segment, a C string shorter than
`DIR_NAME_LENGTH`) is apart from the entry `name` of the directory `dnum`: in
`dnum` itself it asks for another name, and any other directory it searches
has another block. -/
def step_apart (s : Image) (dnum : Int) (name : List Nat) (st : Int × List Nat) : Prop :=
  (st.1 = dnum → st.2 ≠ name) ∧
  (st.1 ≠ dnum → (get_inode s st.1).block ≠ (get_inode s dnum).block) ∧
  0 ∉ st.2 ∧ st.2.length < DIR_NAME_LENGTH

instance (s : Image) (dnum : Int) (name : List Nat) (st : Int × List Nat) :
    Decidable (step_apart s dnum name st) := by
  unfold step_apart; infer_instance

/-- What a `directory_put` or `directory_delete` of `name` in the directory
`dnum` does: the lookup of `name` there now gives `r`, every other name looks
up as before, every other directory with another block is untouched, no block
field changes, and `dnum` keeps a size in range and names without repeats. -/
structure DirStep (s s' : Image) (dnum : Int) (name : List Nat) (r : Int) : Prop where
  block_field : ∀ j, (s'.inodes j).block = (s.inodes j).block
  other_dir : ∀ d, d ≠ dnum → (get_inode s d).block ≠ (get_inode s dnum).block →
    s'.inodes d = s.inodes d ∧ s'.blocks (s.inodes d).block = s.blocks (s.inodes d).block
  this_name : directory_lookup s' (get_inode s' dnum) name = r
  other_name : ∀ o : List Nat, 0 ∉ o → o.length < DIR_NAME_LENGTH → o ≠ name →
    directory_lookup s' (get_inode s' dnum) o = directory_lookup s (get_inode s dnum) o
  size_nonneg : 0 ≤ (get_inode s' dnum).size
  size_le : (get_inode s' dnum).size ≤ (BLOCK_SIZE : Int)
  unique : names_unique s' (get_inode s' dnum)

/-- A name of `n` letters `x`. -/
def long_name (n : Nat) : List Nat := List.replicate n 120

/-! ## Names of directory entries -/

/-- The C string at offset `a` of `m`, read for `n` bytes at most: the bytes
before the first 0. -/
def cstring_at (m : Mem) (a : Nat) : Nat → List Nat
  | 0 => []
  | n + 1 => if m a = 0 then [] else m a :: cstring_at m (a + 1) n

/-- The name in the buffer `entries[j].name` of the directory block `blk`. -/
def entry_name (blk : Mem) (j : Nat) : List Nat :=
  cstring_at blk (j * DIRENT_SIZE) DIR_NAME_LENGTH

/-- Every live entry of `dd` has a name terminated inside its name buffer
(section 3.4: a buffer of `DIR_NAME_LENGTH` bytes, null-terminated). -/
def names_terminated (s : Image) (dd : inode_t) : Prop :=
  ∀ j, j < (entry_count dd).toNat →
    (entry_name (blocks_get_block s dd.block) j).length < DIR_NAME_LENGTH

instance (s : Image) (dd : inode_t) : Decidable (names_terminated s dd) := by
  unfold names_terminated; infer_instance

/-- The live entries of `dd` have pairwise distinct names. -/
def names_distinct (s : Image) (dd : inode_t) : Prop :=
  ∀ j, j < (entry_count dd).toNat → ∀ k, k < (entry_count dd).toNat → j ≠ k →
    entry_name (blocks_get_block s dd.block) j ≠ entry_name (blocks_get_block s dd.block) k

instance (s : Image) (dd : inode_t) : Decidable (names_distinct s dd) := by
  unfold names_distinct; infer_instance

/-- Every live entry of `dd` holds a non-negative inode index. -/
def indices_nonneg (s : Image) (dd : inode_t) : Prop :=
  ∀ j, j < (entry_count dd).toNat → 0 ≤ entry_inum (blocks_get_block s dd.block) j

instance (s : Image) (dd : inode_t) : Decidable (indices_nonneg s dd) := by
  unfold indices_nonneg; infer_instance

/-- The first match of `directory_lookup` is the only match: a live entry
whose name compares equal to a C string `name` is the entry the scan finds. -/
def first_match_only (s : Image) (dd : inode_t) : Prop :=
  ∀ (name : List Nat) (i j : Nat), 0 ∉ name → entry_slot s dd name = some i →
    j < (entry_count dd).toNat →
    strcmp_eq (blocks_get_block s dd.block) (j * DIRENT_SIZE) name = true → j = i

/-! ## The layout behind the image -/

/-- The size of the buffers `parent_path` of `nufs_mknod` and `src_dir`,
`dst_dir` of `nufs_rename`: `get_directory_from_path` copies the whole path
into one of them with `strcpy`. -/
def PATH_BUFFER : Nat := 512

/-- The bytes are those of a path as the adapter is handed them: a C string
(no byte 0 inside) that starts with `'/'`, so that `path + 1` and
`strrchr(path, '/') + 1` are names. -/
def absolute_path (path : List Nat) : Prop := 0 ∉ path ∧ path.head? = some 47

instance (path : List Nat) : Decidable (absolute_path path) := by
  unfold absolute_path; infer_instance

/-- The path is one that `nufs_mknod` and `nufs_rename` can take apart: an
absolute path which fits, with its terminator, a buffer of `PATH_BUFFER`
bytes. -/
def path_fits (path : List Nat) : Prop := absolute_path path ∧ path.length < PATH_BUFFER

instance (path : List Nat) : Decidable (path_fits path) := by
  unfold path_fits; infer_instance

/-- The record that `get_inode(inum)` addresses lies inside the `NUM_BLOCKS`
blocks of the inode table: it ends at or before byte `NUM_BLOCKS * BLOCK_SIZE`
from the start of the inode bitmap, which starts block 1 (section 3.2 of the
spec). The records from 508 on do not (see C17): they lie in the block that
follows the table, block 3, and the component `inodes` of the image stands
for the memory of the code for the records inside the table only. -/
def record_in_table (inum : Int) : Prop :=
  0 ≤ inum ∧ inode_offset inum.toNat + INODE_SIZE ≤ NUM_BLOCKS * BLOCK_SIZE

instance (inum : Int) : Decidable (record_in_table inum) := by
  unfold record_in_table; infer_instance

/-- Modelled from the spec: block 0 holds the block bitmap and the
`NUM_BLOCKS` blocks from block 1 on hold the inode bitmap and the inode table
(section 3.2); block `b` is a data block when it is a block of the image past
them. -/
def data_block (b : Int) : Prop := (NUM_BLOCKS : Int) < b ∧ b < BLOCK_COUNT

instance (b : Int) : Decidable (data_block b) := by
  unfold data_block; infer_instance

/-- Modelled from the spec: the bits of block 0 and of the `NUM_BLOCKS` blocks
from block 1 on are set in the block bitmap, as `blocks_init` leaves them
(section 3.2), so that `alloc_block` hands out data blocks only. -/
def reserved_marked (s : Image) : Prop :=
  ∀ b, b ≤ NUM_BLOCKS → bitmap_get s.block_bitmap b = 1

instance (s : Image) : Decidable (reserved_marked s) := by
  unfold reserved_marked; infer_instance

/-- The directory inode `d` is where the layout keeps records and blocks
apart: its record lies in the inode table and its block is a data block. -/
def dir_in_layout (s : Image) (d : Int) : Prop :=
  record_in_table d ∧ data_block (get_inode s d).block

instance (s : Image) (d : Int) : Decidable (dir_in_layout s d) := by
  unfold dir_in_layout; infer_instance

/-- Every block of the extent of `node` is a data block: the block of the
inode and, for an indirect inode, the blocks in the `⌈size / BLOCK_SIZE⌉`
first slots. -/
def extent_in_data (s : Image) (node : inode_t) : Prop :=
  data_block node.block ∧
  ((BLOCK_SIZE : Int) < node.size →
    ∀ i, i < blocks_for node.size.toNat → data_block (indirect_slot s node.block i))

instance (s : Image) (node : inode_t) : Decidable (extent_in_data s node) := by
  unfold extent_in_data; infer_instance

/-- The file at `path` and the directories searched on the way to it are
where the layout keeps records, bitmaps and blocks apart: the record of the
file and the records of the directories lie in the inode table, the blocks of
the extent and the blocks of the directories are data blocks, and the
allocator hands out data blocks only. There the typed image is the memory of
the code. -/
def file_in_layout (s : Image) (path : List Nat) : Prop :=
  record_in_table (find_path s path) ∧
  extent_in_data s (get_inode s (find_path s path)) ∧
  reserved_marked s ∧
  ∀ d ∈ path_dirs s path, dir_in_layout s d

instance (s : Image) (path : List Nat) : Decidable (file_in_layout s path) := by
  unfold file_in_layout; infer_instance

/-- The image in which `nufs_mknod` resolves the parent directory, when both
allocations have succeeded: the image after `alloc_inode`, `alloc_block` and
the assignment of the four fields of the new record. -/
def mknod_record (s : Image) (mode : Nat) : Image :=
  let r1 := alloc_inode s
  let r2 := alloc_block r1.2
  set_inode r2.2 r1.1 { refs := 1, mode := to_int mode, size := 0, block := r2.1 }

/-- The value of `parent_inode` in `nufs_mknod`, when both allocations have
succeeded. -/
def mknod_parent (s : Image) (path : List Nat) (mode : Nat) : Int :=
  find_path (mknod_record s mode) (get_directory_from_path path)

/-- The creation of `path` on `s` stays where the typed image is the memory of
the code: the path fits the buffer `parent_path`, the record of the inode that
`alloc_inode` hands out lies in the inode table, and so do the records of the
parent directory and of the directories searched on the way to it, whose
blocks are data blocks. -/
def mknod_in_layout (s : Image) (path : List Nat) : Prop :=
  path_fits path ∧ record_in_table (alloc_inode s).1 ∧
  ∀ d ∈ find_path s (get_directory_from_path path) ::
      path_dirs s (get_directory_from_path path), dir_in_layout s d

instance (s : Image) (path : List Nat) : Decidable (mknod_in_layout s path) := by
  unfold mknod_in_layout; infer_instance

/-- The creation of `path` on `s` and the removal that follows stay where the
typed image is the memory of the code: the path fits the buffer `parent_path`,
the record of the inode that `alloc_inode` hands out lies in the inode table,
and the directory that receives the entry, the root directory (which the
removal searches) and the directories searched on the way to the parent and,
after the creation, to `path` have their records in the table and data blocks
as their blocks. -/
def mknod_unlink_in_layout (s : Image) (path : List Nat) (mode : Nat) : Prop :=
  path_fits path ∧ record_in_table (alloc_inode s).1 ∧
  ∀ d ∈ mknod_parent s path mode :: 0 ::
      (path_dirs (mknod_record s mode) (get_directory_from_path path) ++
        path_dirs (nufs_mknod s path mode).2 path),
    dir_in_layout (nufs_mknod s path mode).2 d

instance (s : Image) (path : List Nat) (mode : Nat) :
    Decidable (mknod_unlink_in_layout s path mode) := by
  unfold mknod_unlink_in_layout; infer_instance

/-- The directory handed to `directory_put` by the call, if there is one, has
a size of at least 0 and room for one more entry within its block. -/
def put_has_room (s : Image) (op : Op) : Prop :=
  ∀ t, put_target s op = some t → 0 ≤ t.size ∧ t.size + DIRENT_SIZE ≤ (BLOCK_SIZE : Int)

instance (s : Image) (op : Op) : Decidable (put_has_room s op) := by
  unfold put_has_room
  cases put_target s op with
  | none => exact isTrue (fun t h => by cases h)
  | some t0 =>
    exact decidable_of_iff (0 ≤ t0.size ∧ t0.size + DIRENT_SIZE ≤ (BLOCK_SIZE : Int))
      ⟨fun h t ht => by cases ht; exact h, fun h => h t0 rfl⟩

/-- The namespace call on `s` stays where the typed image is the memory of
the code: its paths are absolute, those of mknod, mkdir and rename fit the
buffers, the inode that `alloc_inode` hands out to mknod or mkdir, if any, has
its record in the inode table, so have the two parent directories of a rename
whose source resolves, and the directory handed to `directory_put` has room
for the entry, so that nothing is written past its block. The predicate does
not cover truncate and write. -/
def call_in_layout (s : Image) : Op → Prop
  | Op.mknod path mode =>
    path_fits path ∧ ((alloc_inode s).1 = -1 ∨ record_in_table (alloc_inode s).1) ∧
    put_has_room s (Op.mknod path mode)
  | Op.mkdir path mode =>
    path_fits path ∧ ((alloc_inode s).1 = -1 ∨ record_in_table (alloc_inode s).1) ∧
    put_has_room s (Op.mkdir path mode)
  | Op.unlink path => absolute_path path
  | Op.rmdir path => absolute_path path
  | Op.rename src dst =>
    path_fits src ∧ path_fits dst ∧ put_has_room s (Op.rename src dst) ∧
    (find_path s src ≠ -1 →
      record_in_table (find_path s (get_directory_from_path src)) ∧
      record_in_table (find_path s (get_directory_from_path dst)))
  | Op.truncate _ _ => False
  | Op.write _ _ _ => False

instance (s : Image) (op : Op) : Decidable (call_in_layout s op) := by
  cases op <;> unfold call_in_layout <;> infer_instance

/-- Every call of the sequence, on the image it is made on, stays where the
typed image is the memory of the code. -/
def calls_in_layout (s : Image) : List Op → Bool
  | [] => true
  | op :: ops => decide (call_in_layout s op) && calls_in_layout (step s op) ops

/-- The image after `mkdir("/d")`, `mkdir("/d/e")`, `rmdir("/d/e")` and
`mknod("/d/e/new")` on the fresh image: the rmdir frees inode 2 and leaves the
entry `e` in `/d`, the mknod takes inode 2 again, finds it as the parent
`/d/e` and puts the entry `new` into its own block 6. The regular file
`/d/e/new` is inode 2 and the last directory searched on the way to it. -/
def image_selfdir : Image :=
  run fresh_image [Op.mkdir (cstr "/d") 493, Op.mkdir (cstr "/d/e") 493,
    Op.rmdir (cstr "/d/e"), Op.mknod (cstr "/d/e/new") 33188]

/-- The image `image_dangling` after `truncate("/d/f", 5000)`: the growth of
the freed inode 2 takes its own block 5, free since the unlink, as the
indirect block, so that slot 0 of the indirect block 5 names block 5 itself;
slot 1 names block 6. -/
def image_selfslot : Image := (nufs_truncate image_dangling (cstr "/d/f") 5000).2

/-! ## Theorems -/

theorem to_int_eq (x : Int) (h1 : -2147483648 ≤ x) (h2 : x < 2147483648) : to_int x = x := by
  unfold to_int; omega

theorem write_int_apply_other (m : Mem) (a : Nat) (v : Int) (x : Nat)
    (h : x < a ∨ a + 4 ≤ x) : write_int m a v x = m x := by
  unfold write_int
  have h0 : x ≠ a := by omega
  have h1 : x ≠ a + 1 := by omega
  have h2 : x ≠ a + 2 := by omega
  have h3 : x ≠ a + 3 := by omega
  simp [h0, h1, h2, h3]

theorem read_int_congr (m m' : Mem) (a : Nat)
    (h : ∀ x, a ≤ x → x < a + 4 → m' x = m x) : read_int m' a = read_int m a := by
  unfold read_int
  rw [h a (by omega) (by omega), h (a + 1) (by omega) (by omega),
    h (a + 2) (by omega) (by omega), h (a + 3) (by omega) (by omega)]

theorem read_write_int_same (m : Mem) (a : Nat) (v : Int)
    (h1 : -2147483648 ≤ v) (h2 : v < 2147483648) : read_int (write_int m a v) a = v := by
  unfold read_int write_int to_int
  simp only [if_true, Nat.succ_ne_self, if_false, add_right_eq_self, OfNat.ofNat_ne_zero,
    Nat.add_right_cancel_iff, Nat.reduceEqDiff]
  omega

theorem read_write_int_other (m : Mem) (a a' : Nat) (v : Int)
    (h : a' + 4 ≤ a ∨ a + 4 ≤ a') : read_int (write_int m a v) a' = read_int m a' := by
  apply read_int_congr
  intro x hx1 hx2
  exact write_int_apply_other m a v x (by omega)

theorem bit_set_same (b j : Nat) (hj : j < 8) :
    (if b / 2 ^ j % 2 = 0 then b + 2 ^ j else b) / 2 ^ j % 2 = 1 := by
  interval_cases j <;> simp only [Nat.reducePow] <;> split <;> omega

theorem bit_clear_same (b j : Nat) (hj : j < 8) :
    (if b / 2 ^ j % 2 = 0 then b else b - 2 ^ j) / 2 ^ j % 2 = 0 := by
  interval_cases j <;> simp only [Nat.reducePow] <;> split <;> omega

theorem bit_set_other (b j k : Nat) (hj : j < 8) (hk : k < 8) (hjk : k ≠ j) :
    (if b / 2 ^ j % 2 = 0 then b + 2 ^ j else b) / 2 ^ k % 2 = b / 2 ^ k % 2 := by
  interval_cases j <;> interval_cases k <;> simp only [Nat.reducePow] <;>
    first | omega | (split <;> omega)

theorem bit_clear_other (b j k : Nat) (hj : j < 8) (hk : k < 8) (hjk : k ≠ j) :
    (if b / 2 ^ j % 2 = 0 then b else b - 2 ^ j) / 2 ^ k % 2 = b / 2 ^ k % 2 := by
  interval_cases j <;> interval_cases k <;> simp only [Nat.reducePow] <;>
    first | omega | (split <;> omega)

theorem bitmap_get_put_same (bm : Mem) (i v : Nat) :
    bitmap_get (bitmap_put bm i v) i = if v = 0 then 0 else 1 := by
  unfold bitmap_get bitmap_put
  have hj : i % 8 < 8 := Nat.mod_lt _ (by decide)
  simp only [if_true]
  by_cases hv : v = 0
  · simp only [hv, if_true]; exact bit_clear_same _ _ hj
  · simp only [hv, if_false]; exact bit_set_same _ _ hj

theorem bitmap_get_put_other (bm : Mem) (i j v : Nat) (h : j ≠ i) :
    bitmap_get (bitmap_put bm i v) j = bitmap_get bm j := by
  unfold bitmap_get bitmap_put
  have hi : i % 8 < 8 := Nat.mod_lt _ (by decide)
  have hj : j % 8 < 8 := Nat.mod_lt _ (by decide)
  by_cases hb : j / 8 = i / 8
  · have hne : j % 8 ≠ i % 8 := by omega
    simp only [hb, if_true]
    by_cases hv : v = 0
    · simp only [hv, if_true]; exact bit_clear_other _ _ _ hi hj hne
    · simp only [hv, if_false]; exact bit_set_other _ _ _ hi hj hne
  · simp only [hb, if_false]

theorem bitmap_get_lt (bm : Mem) (i : Nat) : bitmap_get bm i < 2 := by
  unfold bitmap_get; omega

theorem first_free_some (bm : Mem) (n i k : Nat) (h : first_free bm n i = some k) :
    i ≤ k ∧ k < i + n ∧ bitmap_get bm k = 0 ∧ ∀ j, i ≤ j → j < k → bitmap_get bm j ≠ 0 := by
  induction n generalizing i with
  | zero => simp [first_free] at h
  | succ n ih =>
    unfold first_free at h
    by_cases hb : bitmap_get bm i = 0
    · simp only [hb, if_true, Option.some.injEq] at h
      subst h
      exact ⟨le_refl _, by omega, hb, fun j h1 h2 => by omega⟩
    · simp only [hb, if_false] at h
      obtain ⟨h1, h2, h3, h4⟩ := ih (i + 1) h
      refine ⟨by omega, by omega, h3, fun j hj1 hj2 => ?_⟩
      by_cases hji : j = i
      · subst hji; exact hb
      · exact h4 j (by omega) hj2

theorem first_free_none (bm : Mem) (n i : Nat) (h : first_free bm n i = none) :
    ∀ j, i ≤ j → j < i + n → bitmap_get bm j ≠ 0 := by
  induction n generalizing i with
  | zero => intro j h1 h2; omega
  | succ n ih =>
    unfold first_free at h
    by_cases hb : bitmap_get bm i = 0
    · simp [hb] at h
    · simp only [hb, if_false] at h
      intro j h1 h2
      by_cases hji : j = i
      · subst hji; exact hb
      · exact ih (i + 1) h j (by omega) (by omega)

theorem countP_flip (l : List Nat) (hl : l.Nodup) (k : Nat) (hk : k ∈ l) (p q : Nat → Bool)
    (hpk : p k = true) (hqk : q k = false) (hother : ∀ j, j ≠ k → q j = p j) :
    l.countP q + 1 = l.countP p := by
  induction l with
  | nil => simp at hk
  | cons x xs ih =>
    rw [List.nodup_cons] at hl
    by_cases hx : x = k
    · subst hx
      have hsame : xs.countP q = xs.countP p := by
        apply List.countP_congr
        intro j hj
        have : j ≠ x := fun h => hl.1 (h ▸ hj)
        rw [hother j this]
      simp [List.countP_cons, hpk, hqk, hsame]
    · have hk2 : k ∈ xs := by
        rcases List.mem_cons.mp hk with h | h
        · exact absurd h.symm hx
        · exact h
      have := ih hl.2 hk2
      simp only [List.countP_cons, hother x hx]
      omega

theorem alloc_block_ok (s : Image) (h : 0 < free_blocks s) :
    ∃ k : Nat, k < BLOCK_COUNT ∧ bitmap_get s.block_bitmap k = 0 ∧
      alloc_block s = ((k : Int), { s with block_bitmap := bitmap_put s.block_bitmap k 1 }) ∧
      free_blocks { s with block_bitmap := bitmap_put s.block_bitmap k 1 } + 1 = free_blocks s := by
  unfold free_blocks at h
  obtain ⟨x, hx, hpx⟩ := List.countP_pos_iff.mp h
  rw [List.mem_range] at hx
  simp only [decide_eq_true_eq] at hpx
  cases hff : first_free s.block_bitmap BLOCK_COUNT 0 with
  | none =>
    exact absurd hpx (first_free_none _ _ _ hff x (Nat.zero_le _) (by omega))
  | some k =>
    obtain ⟨_, hk2, hk3, _⟩ := first_free_some _ _ _ _ hff
    refine ⟨k, by omega, hk3, ?_, ?_⟩
    · unfold alloc_block; rw [hff]
    · unfold free_blocks
      apply countP_flip _ (List.nodup_range _) k (List.mem_range.mpr (by omega))
      · simp [hk3]
      · simp [bitmap_get_put_same]
      · intro j hj
        simp [bitmap_get_put_other _ _ _ _ hj]

theorem alloc_block_full (s : Image) (h : free_blocks s = 0) : alloc_block s = (-1, s) := by
  unfold alloc_block
  cases hff : first_free s.block_bitmap BLOCK_COUNT 0 with
  | none => rfl
  | some k =>
    exfalso
    obtain ⟨_, hk2, hk3, _⟩ := first_free_some _ _ _ _ hff
    unfold free_blocks at h
    have : 0 < (List.range BLOCK_COUNT).countP (fun j => bitmap_get s.block_bitmap j = 0) :=
      List.countP_pos_iff.mpr ⟨k, List.mem_range.mpr (by omega), by simp [hk3]⟩
    omega

@[simp] theorem set_block_bitmap (s : Image) (b : Int) (m : Mem) :
    (set_block s b m).block_bitmap = s.block_bitmap := rfl
@[simp] theorem set_block_inode_bitmap (s : Image) (b : Int) (m : Mem) :
    (set_block s b m).inode_bitmap = s.inode_bitmap := rfl
@[simp] theorem set_block_inodes (s : Image) (b : Int) (m : Mem) :
    (set_block s b m).inodes = s.inodes := rfl
@[simp] theorem set_block_blocks_same (s : Image) (b : Int) (m : Mem) :
    (set_block s b m).blocks b = m := by simp [set_block]
theorem set_block_blocks_other (s : Image) (b b' : Int) (m : Mem) (h : b' ≠ b) :
    (set_block s b m).blocks b' = s.blocks b' := by simp [set_block, h]
@[simp] theorem set_inode_bitmap (s : Image) (i : Int) (n : inode_t) :
    (set_inode s i n).block_bitmap = s.block_bitmap := rfl
@[simp] theorem set_inode_inode_bitmap (s : Image) (i : Int) (n : inode_t) :
    (set_inode s i n).inode_bitmap = s.inode_bitmap := rfl
@[simp] theorem set_inode_blocks (s : Image) (i : Int) (n : inode_t) :
    (set_inode s i n).blocks = s.blocks := rfl
@[simp] theorem set_inode_inodes_same (s : Image) (i : Int) (n : inode_t) :
    (set_inode s i n).inodes i = n := by simp [set_inode]
theorem set_inode_inodes_other (s : Image) (i i' : Int) (n : inode_t) (h : i' ≠ i) :
    (set_inode s i n).inodes i' = s.inodes i' := by simp [set_inode, h]
@[simp] theorem free_block_blocks (s : Image) (b : Int) : (free_block s b).blocks = s.blocks := rfl
@[simp] theorem free_block_inodes (s : Image) (b : Int) : (free_block s b).inodes = s.inodes := rfl
@[simp] theorem free_block_inode_bitmap (s : Image) (b : Int) :
    (free_block s b).inode_bitmap = s.inode_bitmap := rfl

theorem free_blocks_congr (s s' : Image) (h : s'.block_bitmap = s.block_bitmap) :
    free_blocks s' = free_blocks s := by
  unfold free_blocks; rw [h]

theorem grow_loop_ok (blk : Int) (n : Nat) (s : Image) (cur : Nat) (hfree : n ≤ free_blocks s) :
    ∃ s', grow_loop blk n s (cur : Int) = (0, s') ∧ Grown s s' blk cur n := by
  induction n generalizing s cur with
  | zero =>
    refine ⟨s, rfl, ⟨rfl, rfl, rfl, fun _ _ => rfl, fun _ _ => rfl, fun _ h => h, ?_, ?_⟩⟩
    · intro i hi; omega
    · intro i j _ hj; omega
  | succ n ih =>
    obtain ⟨k, hk1, hk2, hk3, hk4⟩ := alloc_block_ok s (by omega)
    have hkc : ((k : Int) = -1) = False := by
      apply propext; constructor
      · intro h; omega
      · intro h; exact h.elim
    -- the image after this turn
    obtain ⟨s', hs', G⟩ := ih
      (set_block { s with block_bitmap := bitmap_put s.block_bitmap k 1 } blk
        (write_int (blocks_get_block { s with block_bitmap := bitmap_put s.block_bitmap k 1 } blk)
          (4 * cur) (k : Int)))
      (cur + 1)
      (by rw [free_blocks_congr _ _ (set_block_bitmap _ _ _)]; omega)
    refine ⟨s', ?_, ?_⟩
    · unfold grow_loop
      simp only [hk3, hkc, if_false, Int.toNat_ofNat]
      have : ((cur : Int) + 1) = ((cur + 1 : Nat) : Int) := by push_cast; rfl
      rw [this]; exact hs'
    · have hslot0 : indirect_slot s' blk cur = (k : Int) := by
        unfold indirect_slot blocks_get_block
        rw [read_int_congr _ _ _ (fun x h1 h2 => G.bytes_other x (by omega))]
        rw [set_block_blocks_same]
        have hk5 : k < 256 := hk1
        have h1 : (-2147483648 : Int) ≤ (k : Int) := by omega
        have h2 : (k : Int) < 2147483648 := by omega
        exact read_write_int_same _ _ _ h1 h2
      have hbit : ∀ j, bitmap_get s.block_bitmap j = 1 →
          bitmap_get (bitmap_put s.block_bitmap k 1) j = 1 := by
        intro j hj
        by_cases hjk : j = k
        · subst hjk; rw [bitmap_get_put_same]; simp
        · rw [bitmap_get_put_other _ _ _ _ hjk]; exact hj
      have hslot : ∀ i, indirect_slot s' blk (cur + (i + 1)) = indirect_slot s' blk (cur + 1 + i) := by
        intro i
        have : cur + (i + 1) = cur + 1 + i := by omega
        rw [this]
      constructor
      · rw [G.inodes_eq]; rfl
      · rw [G.inode_bitmap_eq]; rfl
      · have := G.free_eq
        rw [free_blocks_congr _ _ (set_block_bitmap _ _ _)] at this
        omega
      · intro b hb
        rw [G.blocks_other b hb, set_block_blocks_other _ _ _ _ hb]
      · intro x hx
        rw [G.bytes_other x (by omega), set_block_blocks_same]
        exact write_int_apply_other _ _ _ _ (by omega)
      · intro j hj
        exact G.mono j (hbit j hj)
      · intro i hi
        cases i with
        | zero =>
          simp only [Nat.add_zero]
          rw [hslot0]
          refine ⟨by omega, by exact_mod_cast hk1, by simpa using hk2, ?_⟩
          apply G.mono
          simp only [Int.toNat_ofNat, set_block_bitmap]
          rw [bitmap_get_put_same]; simp
        | succ i =>
          rw [hslot]
          obtain ⟨f1, f2, f3, f4⟩ := G.fresh i (by omega)
          refine ⟨f1, f2, ?_, f4⟩
          simp only [set_block_bitmap] at f3
          by_cases hv : (indirect_slot s' blk (cur + 1 + i)).toNat = k
          · rw [hv, bitmap_get_put_same] at f3; simp at f3
          · rw [bitmap_get_put_other _ _ _ _ hv] at f3; exact f3
      · intro i j hij hj
        cases i with
        | zero =>
          cases j with
          | zero => omega
          | succ j =>
            simp only [Nat.add_zero]
            rw [hslot0, hslot]
            obtain ⟨f1, f2, f3, f4⟩ := G.fresh j (by omega)
            intro heq
            rw [← heq] at f3
            simp only [Int.toNat_ofNat, set_block_bitmap] at f3
            rw [bitmap_get_put_same] at f3; simp at f3
        | succ i =>
          cases j with
          | zero => omega
          | succ j =>
            rw [hslot, hslot]
            exact G.distinct i j (by omega) (by omega)

theorem file_bytes_append (s : Image) (node : inode_t) (off a b : Nat) :
    file_bytes s node off (a + b) = file_bytes s node off a ++ file_bytes s node (off + a) b := by
  unfold file_bytes
  rw [List.range_add, List.map_append, List.map_map]
  have : (List.range b).map ((fun i => file_byte s node (off + i)) ∘ fun x => a + x) =
      (List.range b).map (fun i => file_byte s node (off + a + i)) := by
    apply List.map_congr_left
    intro i _
    simp only [Function.comp_apply, Nat.add_assoc]
  rw [this]

theorem file_bytes_chunk (s : Image) (node : inode_t) (co amt : Nat)
    (h : co % BLOCK_SIZE + amt ≤ BLOCK_SIZE) :
    bytes_at (blocks_get_block s (inode_get_bnum s node ((co / BLOCK_SIZE : Nat) : Int)))
      (co % BLOCK_SIZE) amt = file_bytes s node co amt := by
  unfold bytes_at file_bytes file_byte
  apply List.map_congr_left
  intro i hi
  rw [List.mem_range] at hi
  simp only [BLOCK_SIZE] at h ⊢
  have h1 : (co + i) / 4096 = co / 4096 := by omega
  have h2 : (co + i) % 4096 = co % 4096 + i := by omega
  rw [h1, h2]

theorem read_loop_ok (s : Image) (node : inode_t) (fuel remaining co : Nat) (buffer : List Nat)
    (hfuel : remaining ≤ fuel) (hsmall : co + remaining ≤ MAX_FILE_SIZE)
    (hb : ∀ k, co ≤ k → k < co + remaining →
      inode_get_bnum s node ((k / BLOCK_SIZE : Nat) : Int) ≠ -1) :
    read_loop s node fuel remaining co buffer = some (buffer ++ file_bytes s node co remaining) := by
  induction fuel generalizing remaining co buffer with
  | zero =>
    have : remaining = 0 := by omega
    subst this
    simp [read_loop, file_bytes]
  | succ fuel ih =>
    unfold read_loop
    by_cases hr : remaining = 0
    · subst hr; simp [file_bytes]
    · simp only [hr, if_false]
      have hidx : to_int ((co / BLOCK_SIZE : Nat) : Int) = ((co / BLOCK_SIZE : Nat) : Int) := by
        simp only [MAX_FILE_SIZE, BLOCK_SIZE] at hsmall ⊢
        apply to_int_eq <;> omega
      rw [hidx]
      have hne := hb co (le_refl _) (by omega)
      simp only [hne, if_false]
      have hmod : co % BLOCK_SIZE < BLOCK_SIZE := Nat.mod_lt _ (by decide)
      generalize hamt : (if remaining < BLOCK_SIZE - co % BLOCK_SIZE then remaining
        else BLOCK_SIZE - co % BLOCK_SIZE) = amt
      have hamt1 : 0 < amt := by rw [← hamt]; split <;> omega
      have hamt2 : amt ≤ remaining := by rw [← hamt]; split <;> omega
      have hamt3 : co % BLOCK_SIZE + amt ≤ BLOCK_SIZE := by rw [← hamt]; split <;> omega
      rw [ih (remaining - amt) (co + amt) _ (by omega) (by omega)
        (fun k h1 h2 => hb k (by omega) (by omega))]
      rw [file_bytes_chunk s node co amt hamt3, List.append_assoc]
      have : remaining = amt + (remaining - amt) := by omega
      conv_rhs => rw [this, file_bytes_append]

theorem bnum_direct (s : Image) (node : inode_t) (h : node.size ≤ BLOCK_SIZE) :
    inode_get_bnum s node 0 = node.block := by
  unfold inode_get_bnum; simp [h]

theorem bnum_indirect (s : Image) (node : inode_t) (h : (BLOCK_SIZE : Int) < node.size) (i : Nat) :
    inode_get_bnum s node (i : Int) = indirect_slot s node.block i := by
  unfold inode_get_bnum indirect_slot
  have : ¬ node.size ≤ (BLOCK_SIZE : Int) := by omega
  simp [this]

theorem to_size_t_eq (x : Int) (h1 : 0 ≤ x) (h2 : x ≤ MAX_FILE_SIZE) : to_size_t x = x.toNat := by
  unfold to_size_t
  simp only [MAX_FILE_SIZE, BLOCK_SIZE] at h2
  congr 1
  omega

theorem extent_bnum_allocated (s : Image) (node : inode_t) (h : extent_ok s node) (k : Nat)
    (hk : (k : Int) < node.size) :
    allocated s (inode_get_bnum s node ((k / BLOCK_SIZE : Nat) : Int)) := by
  obtain ⟨h0, h1, h2, h3⟩ := h
  by_cases hd : node.size ≤ (BLOCK_SIZE : Int)
  · have : k / BLOCK_SIZE = 0 := by
      simp only [BLOCK_SIZE] at hd ⊢
      omega
    rw [this]
    simp only [Nat.cast_zero]
    rw [bnum_direct s node hd]; exact h2
  · have hi : (BLOCK_SIZE : Int) < node.size := by omega
    rw [bnum_indirect s node hi]
    refine (h3 hi (k / BLOCK_SIZE) ?_).1
    unfold blocks_for
    simp only [BLOCK_SIZE] at hi ⊢
    omega

theorem extent_bnum_ne (s : Image) (node : inode_t) (h : extent_ok s node) (k : Nat)
    (hk : (k : Int) < node.size) :
    inode_get_bnum s node ((k / BLOCK_SIZE : Nat) : Int) ≠ -1 := by
  have := (extent_bnum_allocated s node h k hk).1
  omega

theorem nufs_read_of_extent (s : Image) (p : List Nat) (n off : Nat)
    (hres : find_path s p ≠ -1) (hext : extent_ok s (get_inode s (find_path s p))) :
    nufs_read s p n off =
      some (if (get_inode s (find_path s p)).size ≤ (off : Int) then (0, [])
        else (((min n ((get_inode s (find_path s p)).size.toNat - off) : Nat) : Int),
          file_bytes s (get_inode s (find_path s p)) off
            (min n ((get_inode s (find_path s p)).size.toNat - off)))) := by
  unfold nufs_read
  simp only [hres, if_false]
  generalize hnode : get_inode s (find_path s p) = node at hext ⊢
  have h0 := hext.1
  have h1 := hext.2.1
  rw [to_size_t_eq _ h0 h1]
  by_cases hoff : node.size ≤ (off : Int)
  · have : off ≥ node.size.toNat := by omega
    simp [hoff, this]
  · have : ¬ off ≥ node.size.toNat := by omega
    simp only [this, hoff, if_false]
    have hrd : to_size_t (node.size - (off : Int)) = node.size.toNat - off := by
      rw [to_size_t_eq _ (by omega) (by omega)]
      omega
    rw [hrd]
    have hsz : (if n > node.size.toNat - off then node.size.toNat - off else n) =
        min n (node.size.toNat - off) := by
      split <;> omega
    rw [hsz]
    have hm : min n (node.size.toNat - off) ≤ node.size.toNat - off := Nat.min_le_right _ _
    generalize min n (node.size.toNat - off) = m at hm ⊢
    have hMAX : (node.size.toNat : Int) ≤ MAX_FILE_SIZE := by omega
    rw [read_loop_ok s node m m off [] (le_refl _) (by omega)
      (fun k hk1 hk2 => extent_bnum_ne s node hext k (by omega))]
    simp only [List.nil_append, file_bytes, List.length_map, List.length_range]
    rw [to_int_eq]
    · omega
    · simp only [MAX_FILE_SIZE, BLOCK_SIZE] at hMAX
      omega

theorem tdiv_blocks (x : Int) (h : 0 ≤ x) :
    Int.tdiv (x + (BLOCK_SIZE : Int) - 1) (BLOCK_SIZE : Int) = ((blocks_for x.toNat : Nat) : Int) := by
  unfold blocks_for
  simp only [BLOCK_SIZE]
  rw [Int.tdiv_eq_ediv (by omega) (by omega)]
  omega

theorem free_block_bitmap (s : Image) (b : Int) :
    (free_block s b).block_bitmap = bitmap_put s.block_bitmap b.toNat 0 := rfl

theorem free_block_bit_same (s : Image) (b : Int) :
    bitmap_get (free_block s b).block_bitmap b.toNat = 0 := by
  rw [free_block_bitmap, bitmap_get_put_same]; simp

theorem free_block_bit_other (s : Image) (b : Int) (j : Nat) (h : j ≠ b.toNat) :
    bitmap_get (free_block s b).block_bitmap j = bitmap_get s.block_bitmap j := by
  rw [free_block_bitmap, bitmap_get_put_other _ _ _ _ h]

theorem shrink_loop_blocks (blk : Int) (n : Nat) (s : Image) (i : Int) :
    (shrink_loop blk n s i).blocks = s.blocks ∧ (shrink_loop blk n s i).inodes = s.inodes ∧
    (shrink_loop blk n s i).inode_bitmap = s.inode_bitmap := by
  induction n generalizing s i with
  | zero => exact ⟨rfl, rfl, rfl⟩
  | succ n ih =>
    unfold shrink_loop
    obtain ⟨h1, h2, h3⟩ := ih (free_block s (read_int (blocks_get_block s blk) (4 * i.toNat))) (i + 1)
    exact ⟨h1, h2, h3⟩

theorem shrink_loop_bits (blk : Int) (n : Nat) (s : Image) (i : Nat) :
    (∀ t, t < n →
      bitmap_get (shrink_loop blk n s i).block_bitmap (indirect_slot s blk (i + t)).toNat = 0) ∧
    (∀ j, (∀ t, t < n → (indirect_slot s blk (i + t)).toNat ≠ j) →
      bitmap_get (shrink_loop blk n s i).block_bitmap j = bitmap_get s.block_bitmap j) := by
  induction n generalizing s i with
  | zero =>
    constructor
    · intro t ht; omega
    · intro j _; rfl
  | succ n ih =>
    have hstep : shrink_loop blk (n + 1) s (i : Int) =
        shrink_loop blk n (free_block s (indirect_slot s blk i)) ((i + 1 : Nat) : Int) := by
      conv_lhs => unfold shrink_loop
      simp only [Int.toNat_ofNat, indirect_slot]
      have : ((i : Int) + 1) = ((i + 1 : Nat) : Int) := by push_cast; rfl
      rw [this]
    rw [hstep]
    obtain ⟨c, k⟩ := ih (free_block s (indirect_slot s blk i)) (i + 1)
    have hsl : ∀ t, indirect_slot (free_block s (indirect_slot s blk i)) blk t =
        indirect_slot s blk t := fun t => rfl
    have hidx : ∀ t, i + (t + 1) = i + 1 + t := fun t => by omega
    constructor
    · intro t ht
      cases t with
      | zero =>
        simp only [Nat.add_zero]
        by_cases hlater : ∃ t, t < n ∧
            (indirect_slot s blk (i + 1 + t)).toNat = (indirect_slot s blk i).toNat
        · obtain ⟨t, ht1, ht2⟩ := hlater
          have := c t ht1
          rw [hsl, ht2] at this
          exact this
        · rw [k _ (fun t ht1 heq => hlater ⟨t, ht1, by rw [hsl] at heq; exact heq⟩)]
          exact free_block_bit_same _ _
      | succ t =>
        have := c t (by omega)
        rw [hsl] at this
        rw [hidx t]; exact this
    · intro j hj
      rw [k j (fun t ht => by rw [hsl, ← hidx t]; exact hj (t + 1) (by omega))]
      exact free_block_bit_other _ _ _ (fun h => hj 0 (by omega) h.symm)

theorem toNat_inj_of_nonneg (a b : Int) (ha : 0 ≤ a) (hb : 0 ≤ b) (h : a.toNat = b.toNat) :
    a = b := by omega

theorem get_set_inode_same (s : Image) (i : Int) (n : inode_t) :
    get_inode (set_inode s i n) i = n := by
  unfold get_inode; simp

theorem indirect_slot_congr (s s' : Image) (blk : Int) (i : Nat)
    (h : s'.blocks blk = s.blocks blk) : indirect_slot s' blk i = indirect_slot s blk i := by
  unfold indirect_slot blocks_get_block; rw [h]

theorem allocated_toNat_ne (s : Image) (a b : Int) (ha : allocated s a) (hb : allocated s b)
    (h : a ≠ b) : a.toNat ≠ b.toNat := by
  intro heq
  exact h (toNat_inj_of_nonneg a b ha.1 hb.1 heq)

theorem blocks_for_pos (x : Nat) (h : BLOCK_SIZE < x) : 2 ≤ blocks_for x := by
  unfold blocks_for
  simp only [BLOCK_SIZE] at h ⊢
  omega

theorem blocks_for_mono (x y : Nat) (h : x ≤ y) : blocks_for x ≤ blocks_for y := by
  unfold blocks_for
  simp only [BLOCK_SIZE]
  omega

theorem shrink_inode_fst (s : Image) (inum : Int) (new_size : Int) :
    (shrink_inode s inum new_size).1 = 0 := by
  unfold shrink_inode
  simp only
  split
  · rfl
  · split <;> rfl

theorem file_byte_direct (s : Image) (node : inode_t) (k : Nat)
    (h : node.size ≤ (BLOCK_SIZE : Int)) (hk : k < BLOCK_SIZE) :
    file_byte s node k = s.blocks node.block k := by
  unfold file_byte blocks_get_block
  have h1 : k / BLOCK_SIZE = 0 := Nat.div_eq_of_lt hk
  have h2 : k % BLOCK_SIZE = k := Nat.mod_eq_of_lt hk
  rw [h1, h2]
  simp only [Nat.cast_zero]
  rw [bnum_direct s node h]

theorem file_byte_indirect (s : Image) (node : inode_t) (k : Nat)
    (h : (BLOCK_SIZE : Int) < node.size) :
    file_byte s node k =
      s.blocks (indirect_slot s node.block (k / BLOCK_SIZE)) (k % BLOCK_SIZE) := by
  unfold file_byte blocks_get_block
  rw [bnum_indirect s node h]

theorem fileStep_intro (s s2 : Image) (inum : Int) (new_size : Int) (keep : Nat)
    (node2 : inode_t) (hn : get_inode s2 inum = node2)
    (size_eq : node2.size = new_size)
    (ext : extent_ok s2 node2)
    (inodes_other : ∀ d, d ≠ inum → s2.inodes d = s.inodes d)
    (outside : ∀ b, allocated s b → ¬ in_extent s (get_inode s inum) b →
      s2.blocks b = s.blocks b ∧ allocated s2 b ∧ ¬ in_extent s2 node2 b)
    (bytes : ∀ k, k < keep → file_byte s2 node2 k = file_byte s (get_inode s inum) k) :
    FileStep s s2 inum new_size keep := by
  subst hn
  exact ⟨size_eq, ext, inodes_other, outside, bytes⟩

theorem shrink_inode_ok (s : Image) (inum : Int) (new_size : Int)
    (hext : extent_ok s (get_inode s inum)) (h0 : 0 ≤ new_size)
    (hlt : new_size < (get_inode s inum).size) :
    FileStep s (set_inode (shrink_inode s inum new_size).2 inum
        { get_inode (shrink_inode s inum new_size).2 inum with size := new_size })
      inum new_size new_size.toNat := by
  obtain ⟨e0, e1, e2, e3⟩ := hext
  by_cases hd : (get_inode s inum).size ≤ (BLOCK_SIZE : Int)
  · -- the inode is direct: nothing is freed
    have hsh : shrink_inode s inum new_size = (0, s) := by
      unfold shrink_inode; simp only [hd, if_true]
    rw [hsh]
    have hnd : ¬ (BLOCK_SIZE : Int) < new_size := by omega
    apply fileStep_intro s _ inum new_size _ { get_inode s inum with size := new_size }
      (get_set_inode_same _ _ _) rfl
    · exact ⟨h0, by simp only; omega, e2, fun h => absurd h hnd⟩
    · intro d hd2; exact set_inode_inodes_other _ _ _ _ hd2
    · intro b hb hnb
      refine ⟨rfl, hb, ?_⟩
      intro hin
      rcases hin with h | ⟨h, _⟩
      · exact hnb (Or.inl h)
      · exact hnd h
    · intro k hk
      have hk2 : k < BLOCK_SIZE := by omega
      rw [file_byte_direct _ _ k (by simp only; omega) hk2, file_byte_direct _ _ k hd hk2]
      rfl
  · -- the inode is indirect
    have hi : (BLOCK_SIZE : Int) < (get_inode s inum).size := by omega
    have hold := tdiv_blocks (get_inode s inum).size e0
    have hreq := tdiv_blocks new_size h0
    have hmono : blocks_for new_size.toNat ≤ blocks_for (get_inode s inum).size.toNat :=
      blocks_for_mono _ _ (by omega)
    have hcnt : ((blocks_for (get_inode s inum).size.toNat : Int) -
        (blocks_for new_size.toNat : Int)).toNat =
        blocks_for (get_inode s inum).size.toNat - blocks_for new_size.toNat := by omega
    obtain ⟨lb, li, lib⟩ := shrink_loop_blocks (get_inode s inum).block
      (blocks_for (get_inode s inum).size.toNat - blocks_for new_size.toNat) s
      ((blocks_for new_size.toNat : Nat) : Int)
    obtain ⟨_, lk⟩ := shrink_loop_bits (get_inode s inum).block
      (blocks_for (get_inode s inum).size.toNat - blocks_for new_size.toNat) s
      (blocks_for new_size.toNat)
    -- a block allocated before that is none of the freed slots is allocated after the loop
    have hkeep : ∀ b, allocated s b →
        (∀ i, blocks_for new_size.toNat ≤ i → i < blocks_for (get_inode s inum).size.toNat →
          indirect_slot s (get_inode s inum).block i ≠ b) →
        allocated (shrink_loop (get_inode s inum).block
          (blocks_for (get_inode s inum).size.toNat - blocks_for new_size.toNat) s
          ((blocks_for new_size.toNat : Nat) : Int)) b := by
      intro b hb hne
      refine ⟨hb.1, hb.2.1, ?_⟩
      rw [lk]
      · exact hb.2.2
      · intro t ht
        have hslot := (e3 hi (blocks_for new_size.toNat + t) (by omega)).1
        exact allocated_toNat_ne s _ _ hslot hb (hne _ (by omega) (by omega))
    generalize hs1 : shrink_loop (get_inode s inum).block
          (blocks_for (get_inode s inum).size.toNat - blocks_for new_size.toNat) s
          ((blocks_for new_size.toNat : Nat) : Int) = s1 at lb li lib lk hkeep
    have hsl : ∀ i, indirect_slot s1 (get_inode s inum).block i =
        indirect_slot s (get_inode s inum).block i := fun i =>
      indirect_slot_congr _ _ _ _ (by rw [lb])
    have hunf : shrink_inode s inum new_size =
        if ((blocks_for new_size.toNat : Nat) : Int) = 1 then
          (0, set_inode (free_block s1 (get_inode s inum).block) inum
            { get_inode s inum with block := indirect_slot s (get_inode s inum).block 0 })
        else (0, s1) := by
      unfold shrink_inode
      simp only [hd, if_false, hold, hreq, hcnt, hs1]
      have : read_int (blocks_get_block s1 (get_inode s inum).block) 0 =
          indirect_slot s (get_inode s inum).block 0 := hsl 0
      rw [this]
    have hold2 := blocks_for_pos _ (show BLOCK_SIZE < (get_inode s inum).size.toNat by omega)
    by_cases hreq1 : blocks_for new_size.toNat = 1
    · -- back to a direct inode: slot 0 becomes the block
      have hnew : new_size ≤ (BLOCK_SIZE : Int) := by
        unfold blocks_for at hreq1
        simp only [BLOCK_SIZE] at hreq1 ⊢
        omega
      have hnd : ¬ (BLOCK_SIZE : Int) < new_size := by omega
      have hslot0 := e3 hi 0 (by omega)
      rw [hunf]
      simp only [hreq1, Nat.cast_one, if_true]
      apply fileStep_intro s _ inum new_size _
        { get_inode s inum with block := indirect_slot s (get_inode s inum).block 0,
                                size := new_size }
        (by rw [get_set_inode_same, get_set_inode_same]) rfl
      · refine ⟨h0, by simp only; omega, ?_, fun h => absurd h hnd⟩
        have h1 := hkeep _ hslot0.1 (fun i hi1 hi2 => Ne.symm ((e3 hi i hi2).2.2 0 (by omega)))
        refine ⟨h1.1, h1.2.1, ?_⟩
        simp only [set_inode_bitmap]
        rw [free_block_bit_other]
        · exact h1.2.2
        · exact allocated_toNat_ne s _ _ hslot0.1 e2 hslot0.2.1
      · intro d hd2
        rw [set_inode_inodes_other _ _ _ _ hd2, set_inode_inodes_other _ _ _ _ hd2]
        simp only [free_block_inodes, li]
      · intro b hb hnb
        refine ⟨by simp only [set_inode_blocks, free_block_blocks, lb], ?_, ?_⟩
        · have h1 := hkeep b hb (fun i hi1 hi2 heq => hnb (Or.inr ⟨hi, i, hi2, heq⟩))
          refine ⟨h1.1, h1.2.1, ?_⟩
          simp only [set_inode_bitmap]
          rw [free_block_bit_other]
          · exact h1.2.2
          · exact allocated_toNat_ne s _ _ hb e2 (fun h => hnb (Or.inl h))
        · intro hin
          rcases hin with h | ⟨h, _⟩
          · exact hnb (Or.inr ⟨hi, 0, by omega, h.symm⟩)
          · exact hnd h
      · intro k hk
        have hk2 : k < BLOCK_SIZE := by omega
        rw [file_byte_direct _ _ k (by simp only; omega) hk2, file_byte_indirect _ _ k hi]
        simp only [set_inode_blocks, free_block_blocks, lb]
        rw [Nat.div_eq_of_lt hk2, Nat.mod_eq_of_lt hk2]
    · rw [hunf]
      have hne : ¬ ((blocks_for new_size.toNat : Nat) : Int) = 1 := by omega
      simp only [hne, if_false]
      have hg : get_inode s1 inum = get_inode s inum := by unfold get_inode; rw [li]
      rw [hg]
      apply fileStep_intro s _ inum new_size _ { get_inode s inum with size := new_size }
        (get_set_inode_same _ _ _) rfl
      · refine ⟨h0, by simp only; omega, ?_, ?_⟩
        · have h1 := hkeep _ e2 (fun i hi1 hi2 => (e3 hi i hi2).2.1)
          exact ⟨h1.1, h1.2.1, by simp only [set_inode_bitmap]; exact h1.2.2⟩
        · intro hbig i hi2
          simp only at hbig hi2 ⊢
          have hsl2 : ∀ j, indirect_slot (set_inode s1 inum
              { get_inode s inum with size := new_size }) (get_inode s inum).block j =
              indirect_slot s (get_inode s inum).block j := fun j => hsl j
          rw [hsl2]
          have hio := e3 hi i (by omega)
          refine ⟨?_, hio.2.1, ?_⟩
          · have h1 := hkeep _ hio.1 (fun j hj1 hj2 heq => by
              rcases Nat.lt_or_gt_of_ne (show i ≠ j by omega) with h | h
              · exact (e3 hi j hj2).2.2 i h heq.symm
              · omega)
            exact ⟨h1.1, h1.2.1, by simp only [set_inode_bitmap]; exact h1.2.2⟩
          · intro j hj
            rw [hsl2]
            exact hio.2.2 j hj
      · intro d hd2
        rw [set_inode_inodes_other _ _ _ _ hd2, li]
      · intro b hb hnb
        refine ⟨by simp only [set_inode_blocks, lb], ?_, ?_⟩
        · have h1 := hkeep b hb (fun i hi1 hi2 heq => hnb (Or.inr ⟨hi, i, hi2, heq⟩))
          exact ⟨h1.1, h1.2.1, by simp only [set_inode_bitmap]; exact h1.2.2⟩
        · intro hin
          rcases hin with h | ⟨h, i, hi2, heq⟩
          · exact hnb (Or.inl h)
          · simp only at hi2 heq
            have : indirect_slot s (get_inode s inum).block i = b := by
              rw [← heq]; exact (hsl i).symm
            exact hnb (Or.inr ⟨hi, i, by omega, this⟩)
      · intro k hk
        by_cases hbig : (BLOCK_SIZE : Int) < new_size
        · rw [file_byte_indirect _ _ k (by simp only; exact hbig), file_byte_indirect _ _ k hi]
          simp only [set_inode_blocks, lb]
          have : indirect_slot (set_inode s1 inum
              { get_inode s inum with size := new_size }) (get_inode s inum).block
              (k / BLOCK_SIZE) = indirect_slot s (get_inode s inum).block (k / BLOCK_SIZE) :=
            hsl _
          rw [this]
        · exfalso
          unfold blocks_for at hreq1
          simp only [BLOCK_SIZE] at hreq1 hbig hk
          omega

theorem free_blocks_le (s : Image) : free_blocks s ≤ BLOCK_COUNT := by
  unfold free_blocks
  have := List.countP_le_length (fun j => decide (bitmap_get s.block_bitmap j = 0))
    (l := List.range BLOCK_COUNT)
  simpa using this

theorem alloc_bit_other (s : Image) (k : Nat) (b : Int) (hb : allocated s b)
    (hk : bitmap_get s.block_bitmap k = 0) :
    allocated { s with block_bitmap := bitmap_put s.block_bitmap k 1 } b ∧ b ≠ (k : Int) := by
  have hne : b ≠ (k : Int) := by
    intro h
    have := hb.2.2
    rw [h] at this
    simp only [Int.toNat_ofNat] at this
    omega
  refine ⟨⟨hb.1, hb.2.1, ?_⟩, hne⟩
  simp only
  rw [bitmap_get_put_other]
  · exact hb.2.2
  · have := hb.1
    omega

/-- Growth that allocates nothing: only the size changes. -/
theorem grow_noalloc (s : Image) (inum : Int) (new_size : Int)
    (hext : extent_ok s (get_inode s inum))
    (hgt : (get_inode s inum).size ≤ new_size) (hmax : new_size ≤ MAX_FILE_SIZE)
    (hcase : new_size ≤ (BLOCK_SIZE : Int) ∨
      ((BLOCK_SIZE : Int) < (get_inode s inum).size ∧
        blocks_for new_size.toNat = blocks_for (get_inode s inum).size.toNat)) :
    FileStep s (set_inode s inum { get_inode s inum with size := new_size }) inum new_size
      (get_inode s inum).size.toNat := by
  obtain ⟨e0, e1, e2, e3⟩ := hext
  apply fileStep_intro s _ inum new_size _ { get_inode s inum with size := new_size }
    (get_set_inode_same _ _ _) rfl
  · refine ⟨by simp only; omega, hmax, e2, ?_⟩
    intro hbig i hi2
    simp only at hbig hi2 ⊢
    rcases hcase with h | ⟨h1, h2⟩
    · omega
    · rw [h2] at hi2
      exact e3 h1 i hi2
  · intro d hd2; exact set_inode_inodes_other _ _ _ _ hd2
  · intro b hb hnb
    refine ⟨rfl, hb, ?_⟩
    intro hin
    rcases hin with h | ⟨hbig, i, hi2, heq⟩
    · exact hnb (Or.inl h)
    · simp only at hbig hi2 heq
      rcases hcase with h | ⟨h1, h2⟩
      · omega
      · rw [h2] at hi2
        exact hnb (Or.inr ⟨h1, i, hi2, heq⟩)
  · intro k hk
    rcases hcase with h | ⟨h1, h2⟩
    · have hk2 : k < BLOCK_SIZE := by omega
      rw [file_byte_direct _ _ k (by simp only; omega) hk2,
        file_byte_direct _ _ k (by omega) hk2]
      rfl
    · rw [file_byte_indirect _ _ k (by simp only; omega), file_byte_indirect _ _ k h1]
      rfl

theorem bit_zero_not_allocated (s : Image) (b : Int) (h : bitmap_get s.block_bitmap b.toNat = 0) :
    ¬ allocated s b := by
  intro ha
  have := ha.2.2
  omega

/-- Growth of an inode that is indirect already: the loop appends data blocks. -/
theorem grow_extend_step (s s' : Image) (inum : Int) (new_size : Int)
    (hext : extent_ok s (get_inode s inum))
    (hi : (BLOCK_SIZE : Int) < (get_inode s inum).size)
    (hgt : (get_inode s inum).size < new_size) (hmax : new_size ≤ MAX_FILE_SIZE)
    (G : Grown s s' (get_inode s inum).block (blocks_for (get_inode s inum).size.toNat)
      (blocks_for new_size.toNat - blocks_for (get_inode s inum).size.toNat)) :
    FileStep s (set_inode s' inum { get_inode s inum with size := new_size }) inum new_size
      (get_inode s inum).size.toNat := by
  obtain ⟨e0, e1, e2, e3⟩ := hext
  have hmono : blocks_for (get_inode s inum).size.toNat ≤ blocks_for new_size.toNat :=
    blocks_for_mono _ _ (by omega)
  have hbig : (BLOCK_SIZE : Int) < new_size := by omega
  -- allocation is monotone
  have halloc : ∀ b, allocated s b → allocated s' b := fun b hb =>
    ⟨hb.1, hb.2.1, G.mono _ hb.2.2⟩
  -- old slots keep their value
  have hold : ∀ i, i < blocks_for (get_inode s inum).size.toNat →
      indirect_slot s' (get_inode s inum).block i = indirect_slot s (get_inode s inum).block i := by
    intro i hi2
    unfold indirect_slot blocks_get_block
    exact read_int_congr _ _ _ (fun x h1 h2 => G.bytes_other x (by omega))
  -- new slots are fresh
  have hnew : ∀ i, blocks_for (get_inode s inum).size.toNat ≤ i → i < blocks_for new_size.toNat →
      allocated s' (indirect_slot s' (get_inode s inum).block i) ∧
      ¬ allocated s (indirect_slot s' (get_inode s inum).block i) := by
    intro i h1 h2
    have := G.fresh (i - blocks_for (get_inode s inum).size.toNat) (by omega)
    have hidx : blocks_for (get_inode s inum).size.toNat +
        (i - blocks_for (get_inode s inum).size.toNat) = i := by omega
    rw [hidx] at this
    exact ⟨⟨this.1, this.2.1, this.2.2.2⟩, bit_zero_not_allocated _ _ this.2.2.1⟩
  apply fileStep_intro s _ inum new_size _ { get_inode s inum with size := new_size }
    (get_set_inode_same _ _ _) rfl
  · refine ⟨by simp only; omega, hmax, halloc _ e2, ?_⟩
    intro _ i hi2
    simp only at hi2 ⊢
    have hsl2 : ∀ j, indirect_slot (set_inode s' inum
        { get_inode s inum with size := new_size }) (get_inode s inum).block j =
        indirect_slot s' (get_inode s inum).block j := fun j => rfl
    rw [hsl2]
    by_cases hio : i < blocks_for (get_inode s inum).size.toNat
    · rw [hold i hio]
      have ho := e3 hi i hio
      refine ⟨halloc _ ho.1, ho.2.1, ?_⟩
      intro j hj
      rw [hsl2, hold j (by omega)]
      exact ho.2.2 j hj
    · have hn := hnew i (by omega) hi2
      refine ⟨hn.1, fun h => hn.2 (by rw [h]; exact e2), ?_⟩
      intro j hj
      rw [hsl2]
      by_cases hjo : j < blocks_for (get_inode s inum).size.toNat
      · rw [hold j hjo]
        intro heq
        exact hn.2 (by rw [← heq]; exact (e3 hi j hjo).1)
      · have := G.distinct (j - blocks_for (get_inode s inum).size.toNat)
          (i - blocks_for (get_inode s inum).size.toNat) (by omega) (by omega)
        have h1 : blocks_for (get_inode s inum).size.toNat +
            (j - blocks_for (get_inode s inum).size.toNat) = j := by omega
        have h2 : blocks_for (get_inode s inum).size.toNat +
            (i - blocks_for (get_inode s inum).size.toNat) = i := by omega
        rw [h1, h2] at this
        exact this
  · intro d hd2
    rw [set_inode_inodes_other _ _ _ _ hd2, G.inodes_eq]
  · intro b hb hnb
    have hbn : b ≠ (get_inode s inum).block := fun h => hnb (Or.inl h)
    refine ⟨by simp only [set_inode_blocks]; exact G.blocks_other b hbn, halloc b hb, ?_⟩
    intro hin
    rcases hin with h | ⟨_, i, hi2, heq⟩
    · exact hbn h
    · simp only at hi2 heq
      have heq2 : indirect_slot s' (get_inode s inum).block i = b := heq
      by_cases hio : i < blocks_for (get_inode s inum).size.toNat
      · rw [hold i hio] at heq2
        exact hnb (Or.inr ⟨hi, i, hio, heq2⟩)
      · exact (hnew i (by omega) hi2).2 (by rw [heq2]; exact hb)
  · intro k hk
    rw [file_byte_indirect _ _ k (by simp only; exact hbig), file_byte_indirect _ _ k hi]
    have hkb : k / BLOCK_SIZE < blocks_for (get_inode s inum).size.toNat := by
      unfold blocks_for
      simp only [BLOCK_SIZE]
      omega
    have hsl2 : indirect_slot (set_inode s' inum
        { get_inode s inum with size := new_size }) (get_inode s inum).block (k / BLOCK_SIZE) =
        indirect_slot s (get_inode s inum).block (k / BLOCK_SIZE) := hold _ hkb
    simp only [set_inode_blocks]
    rw [hsl2, G.blocks_other _ (e3 hi _ hkb).2.1]

/-- Growth from a direct to an indirect inode: a new indirect block takes the
old direct block in slot 0 and the loop appends data blocks. -/
theorem grow_transition_step (s s' : Image) (inum : Int) (new_size : Int) (k0 : Nat)
    (hext : extent_ok s (get_inode s inum))
    (hd : (get_inode s inum).size ≤ (BLOCK_SIZE : Int))
    (hbig : (BLOCK_SIZE : Int) < new_size) (hmax : new_size ≤ MAX_FILE_SIZE)
    (hk0 : k0 < BLOCK_COUNT) (hfree0 : bitmap_get s.block_bitmap k0 = 0)
    (G : Grown
      (set_inode
        (set_block { s with block_bitmap := bitmap_put s.block_bitmap k0 1 } (k0 : Int)
          (write_int (blocks_get_block { s with block_bitmap := bitmap_put s.block_bitmap k0 1 }
            (k0 : Int)) 0 (get_inode s inum).block))
        inum { get_inode s inum with block := (k0 : Int) })
      s' (k0 : Int) 1 (blocks_for new_size.toNat - 1)) :
    FileStep s (set_inode s' inum { get_inode s inum with block := (k0 : Int), size := new_size })
      inum new_size (get_inode s inum).size.toNat := by
  obtain ⟨e0, e1, e2, e3⟩ := hext
  have htc := blocks_for_pos new_size.toNat (by omega)
  -- allocation: old bits stay, the bit of the new indirect block is set
  have halloc : ∀ b, allocated s b → allocated s' b ∧ b ≠ (k0 : Int) := by
    intro b hb
    obtain ⟨h1, h2⟩ := alloc_bit_other s k0 b hb hfree0
    exact ⟨⟨hb.1, hb.2.1, G.mono _ h1.2.2⟩, h2⟩
  have hk0a : allocated s' (k0 : Int) := by
    refine ⟨by omega, by exact_mod_cast hk0, ?_⟩
    apply G.mono
    simp only [set_inode_bitmap, set_block_bitmap, Int.toNat_ofNat]
    rw [bitmap_get_put_same]; simp
  -- slot 0 is the old direct block
  have hblk_range := e2
  have hslot0 : indirect_slot s' (k0 : Int) 0 = (get_inode s inum).block := by
    unfold indirect_slot blocks_get_block
    rw [read_int_congr _ _ _ (fun x h1 h2 => G.bytes_other x (by omega))]
    simp only [set_inode_blocks, set_block_blocks_same]
    have hb1 := hblk_range.1
    have hb2 : (get_inode s inum).block < 256 := hblk_range.2.1
    exact read_write_int_same _ _ _ (by omega) (by omega)
  -- the other slots are fresh: allocated now, free before the loop
  have hnew : ∀ i, 1 ≤ i → i < blocks_for new_size.toNat →
      allocated s' (indirect_slot s' (k0 : Int) i) ∧
      ¬ allocated s (indirect_slot s' (k0 : Int) i) ∧ indirect_slot s' (k0 : Int) i ≠ (k0 : Int) := by
    intro i h1 h2
    have := G.fresh (i - 1) (by omega)
    have hidx : 1 + (i - 1) = i := by omega
    rw [hidx] at this
    simp only [set_inode_bitmap, set_block_bitmap] at this
    refine ⟨⟨this.1, this.2.1, this.2.2.2⟩, ?_, ?_⟩
    · intro ha
      have h3 := (alloc_bit_other s k0 _ ha hfree0).1.2.2
      simp only at h3
      omega
    · intro heq
      have h3 := this.2.2.1
      rw [heq] at h3
      simp only [Int.toNat_ofNat] at h3
      rw [bitmap_get_put_same] at h3
      simp at h3
  apply fileStep_intro s _ inum new_size _
    { get_inode s inum with block := (k0 : Int), size := new_size }
    (get_set_inode_same _ _ _) rfl
  · refine ⟨by simp only; omega, hmax, hk0a, ?_⟩
    intro _ i hi2
    simp only at hi2 ⊢
    have hsl2 : ∀ j, indirect_slot (set_inode s' inum
        { get_inode s inum with block := (k0 : Int), size := new_size }) (k0 : Int) j =
        indirect_slot s' (k0 : Int) j := fun j => rfl
    rw [hsl2]
    by_cases hi0 : i = 0
    · subst hi0
      rw [hslot0]
      exact ⟨(halloc _ e2).1, (halloc _ e2).2, fun j hj => by omega⟩
    · have hn := hnew i (by omega) hi2
      refine ⟨hn.1, hn.2.2, ?_⟩
      intro j hj
      rw [hsl2]
      by_cases hj0 : j = 0
      · subst hj0
        rw [hslot0]
        intro heq
        exact hn.2.1 (by rw [← heq]; exact e2)
      · have := G.distinct (j - 1) (i - 1) (by omega) (by omega)
        have h1 : 1 + (j - 1) = j := by omega
        have h2 : 1 + (i - 1) = i := by omega
        rw [h1, h2] at this
        exact this
  · intro d hd2
    rw [set_inode_inodes_other _ _ _ _ hd2, G.inodes_eq, set_inode_inodes_other _ _ _ _ hd2]
    rfl
  · intro b hb hnb
    have hbk := (halloc b hb).2
    refine ⟨?_, (halloc b hb).1, ?_⟩
    · simp only [set_inode_blocks]
      rw [G.blocks_other b hbk]
      simp only [set_inode_blocks]
      rw [set_block_blocks_other _ _ _ _ hbk]
    · intro hin
      rcases hin with h | ⟨_, i, hi2, heq⟩
      · exact hbk h
      · simp only at hi2 heq
        have heq2 : indirect_slot s' (k0 : Int) i = b := heq
        by_cases hi0 : i = 0
        · subst hi0
          rw [hslot0] at heq2
          exact hnb (Or.inl heq2.symm)
        · exact (hnew i (by omega) hi2).2.1 (by rw [heq2]; exact hb)
  · intro k hk
    have hk2 : k < BLOCK_SIZE := by omega
    rw [file_byte_indirect _ _ k (by simp only; exact hbig), file_byte_direct _ _ k hd hk2]
    have hsl2 : indirect_slot (set_inode s' inum
        { get_inode s inum with block := (k0 : Int), size := new_size }) (k0 : Int)
        (k / BLOCK_SIZE) = (get_inode s inum).block := by
      rw [Nat.div_eq_of_lt hk2]; exact hslot0
    simp only [set_inode_blocks]
    rw [hsl2, Nat.mod_eq_of_lt hk2, G.blocks_other _ (halloc _ e2).2]
    simp only [set_inode_blocks]
    rw [set_block_blocks_other _ _ _ _ (halloc _ e2).2]

theorem grow_inode_ok (s : Image) (inum : Int) (new_size : Int)
    (hext : extent_ok s (get_inode s inum))
    (hgt : (get_inode s inum).size < new_size) (hmax : new_size ≤ MAX_FILE_SIZE)
    (hfree : growth_blocks (get_inode s inum).size.toNat new_size.toNat ≤ free_blocks s) :
    ∃ s1, grow_inode s inum new_size = (0, s1) ∧
      FileStep s (set_inode s1 inum { get_inode s1 inum with size := new_size }) inum new_size
        (get_inode s inum).size.toNat := by
  have e0 := hext.1
  have hcur := tdiv_blocks (get_inode s inum).size e0
  have htgt := tdiv_blocks new_size (by omega)
  have hmono : blocks_for (get_inode s inum).size.toNat ≤ blocks_for new_size.toNat :=
    blocks_for_mono _ _ (by omega)
  unfold grow_inode
  simp only [hcur, htgt]
  by_cases h1 : ((blocks_for new_size.toNat : Nat) : Int) ≤
      ((blocks_for (get_inode s inum).size.toNat : Nat) : Int)
  · -- the block count does not grow
    simp only [h1, if_true]
    refine ⟨s, rfl, ?_⟩
    have heq : blocks_for new_size.toNat = blocks_for (get_inode s inum).size.toNat := by omega
    apply grow_noalloc s inum new_size hext (by omega) hmax
    by_cases hd : (get_inode s inum).size ≤ (BLOCK_SIZE : Int)
    · left
      unfold blocks_for at heq
      simp only [BLOCK_SIZE] at heq hd ⊢
      omega
    · right; exact ⟨by omega, heq⟩
  · simp only [h1, if_false]
    have hg1 : ¬ blocks_for new_size.toNat ≤ blocks_for (get_inode s inum).size.toNat := by omega
    unfold growth_blocks at hfree
    simp only [hg1, if_false] at hfree
    by_cases hd : (get_inode s inum).size ≤ (BLOCK_SIZE : Int)
    · have hdn : (get_inode s inum).size.toNat ≤ BLOCK_SIZE := by omega
      simp only [hdn, if_true] at hfree
      by_cases ht : 1 < blocks_for new_size.toNat
      · -- direct to indirect
        simp only [ht, if_true] at hfree
        have hc : (get_inode s inum).size ≤ (BLOCK_SIZE : Int) ∧
            ((blocks_for new_size.toNat : Nat) : Int) > 1 := ⟨hd, by omega⟩
        simp only [hc, and_self, if_true]
        obtain ⟨k0, hk1, hk2, hk3, hk4⟩ := alloc_block_ok s (by omega)
        have hkc : ((k0 : Int) = -1) = False := by
          apply propext; constructor
          · intro h; omega
          · intro h; exact h.elim
        rw [hk3]
        simp only [hkc, if_false]
        have hn : (((blocks_for new_size.toNat : Nat) : Int) - 1).toNat =
            blocks_for new_size.toNat - 1 := by omega
        rw [hn]
        obtain ⟨s', hs', G⟩ := grow_loop_ok (k0 : Int) (blocks_for new_size.toNat - 1)
          (set_inode
            (set_block { s with block_bitmap := bitmap_put s.block_bitmap k0 1 } (k0 : Int)
              (write_int (blocks_get_block
                { s with block_bitmap := bitmap_put s.block_bitmap k0 1 } (k0 : Int)) 0
                (get_inode s inum).block))
            inum { get_inode s inum with block := (k0 : Int) }) 1
          (by
            rw [free_blocks_congr _ _ (set_inode_bitmap _ _ _),
              free_blocks_congr _ _ (set_block_bitmap _ _ _)]
            omega)
        refine ⟨s', hs', ?_⟩
        have hgi : get_inode s' inum = { get_inode s inum with block := (k0 : Int) } := by
          show s'.inodes inum = _
          rw [G.inodes_eq, set_inode_inodes_same]
        rw [hgi]
        have hbig : (BLOCK_SIZE : Int) < new_size := by
          unfold blocks_for at ht
          simp only [BLOCK_SIZE] at ht ⊢
          omega
        exact grow_transition_step s s' inum new_size k0 hext hd hbig hmax hk1 hk2 G
      · -- an empty file that stays within its direct block
        have hc : ¬ ((get_inode s inum).size ≤ (BLOCK_SIZE : Int) ∧
            ((blocks_for new_size.toNat : Nat) : Int) > 1) := by
          intro h; omega
        have hc2 : ¬ ((get_inode s inum).size > (BLOCK_SIZE : Int)) := by
          intro h; omega
        simp only [hc, hc2, or_self, if_false]
        refine ⟨s, rfl, ?_⟩
        apply grow_noalloc s inum new_size hext (by omega) hmax
        left
        unfold blocks_for at ht
        simp only [BLOCK_SIZE] at ht ⊢
        omega
    · -- indirect already
      have hi : (BLOCK_SIZE : Int) < (get_inode s inum).size := by omega
      have hdn : ¬ (get_inode s inum).size.toNat ≤ BLOCK_SIZE := by omega
      simp only [hdn, if_false] at hfree
      have hc : ¬ ((get_inode s inum).size ≤ (BLOCK_SIZE : Int) ∧
          ((blocks_for new_size.toNat : Nat) : Int) > 1) := by
        intro h; omega
      have hc2 : (get_inode s inum).size > (BLOCK_SIZE : Int) := hi
      simp only [hc, hc2, or_false, if_false, if_true]
      have hn : (((blocks_for new_size.toNat : Nat) : Int) -
          ((blocks_for (get_inode s inum).size.toNat : Nat) : Int)).toNat =
          blocks_for new_size.toNat - blocks_for (get_inode s inum).size.toNat := by omega
      rw [hn]
      obtain ⟨s', hs', G⟩ := grow_loop_ok (get_inode s inum).block
        (blocks_for new_size.toNat - blocks_for (get_inode s inum).size.toNat) s
        (blocks_for (get_inode s inum).size.toNat) hfree
      refine ⟨s', hs', ?_⟩
      have hgi : get_inode s' inum = get_inode s inum := by
        unfold get_inode
        rw [G.inodes_eq]
      rw [hgi]
      exact grow_extend_step s s' inum new_size hext hi hgt hmax G

theorem directory_lookup_congr (s s' : Image) (d : Int) (name : List Nat)
    (h1 : s'.inodes d = s.inodes d)
    (h2 : s'.blocks (s.inodes d).block = s.blocks (s.inodes d).block) :
    directory_lookup s' (get_inode s' d) name = directory_lookup s (get_inode s d) name := by
  unfold directory_lookup get_inode blocks_get_block
  rw [h1, h2]

theorem find_path_loop_zero (s : Image) (start : List Nat) (i : Int) :
    find_path_loop s 0 start i = i := by
  unfold find_path_loop; rfl

theorem path_dirs_loop_zero (s : Image) (start : List Nat) (i : Int) :
    path_dirs_loop s 0 start i = [] := by
  unfold path_dirs_loop; rfl

theorem find_path_loop_nil (s : Image) (fuel : Nat) (i : Int) :
    find_path_loop s fuel [] i = i := by
  cases fuel with
  | zero => exact find_path_loop_zero s [] i
  | succ fuel => unfold find_path_loop; rw [if_pos rfl]

theorem path_dirs_loop_nil (s : Image) (fuel : Nat) (i : Int) :
    path_dirs_loop s fuel [] i = [] := by
  cases fuel with
  | zero => exact path_dirs_loop_zero s [] i
  | succ fuel => unfold path_dirs_loop; rw [if_pos rfl]

theorem find_path_loop_succ (s : Image) (fuel : Nat) (start : List Nat) (i : Int)
    (hs : start ≠ []) :
    find_path_loop s (fuel + 1) start i =
      if segment_length start ≥ 256 then -1
      else if directory_lookup s (get_inode s i) (start.take (segment_length start)) = -1 then -1
      else match strchr start 47 with
        | none => directory_lookup s (get_inode s i) (start.take (segment_length start))
        | some k => find_path_loop s fuel (start.drop (k + 1))
          (directory_lookup s (get_inode s i) (start.take (segment_length start))) := by
  conv_lhs => unfold find_path_loop
  exact if_neg hs


theorem path_dirs_loop_succ (s : Image) (fuel : Nat) (start : List Nat) (i : Int)
    (hs : start ≠ []) :
    path_dirs_loop s (fuel + 1) start i =
      if segment_length start ≥ 256 then []
      else i :: (if directory_lookup s (get_inode s i)
          (start.take (segment_length start)) = -1 then []
      else match strchr start 47 with
        | none => []
        | some k => path_dirs_loop s fuel (start.drop (k + 1))
          (directory_lookup s (get_inode s i) (start.take (segment_length start)))) := by
  conv_lhs => unfold path_dirs_loop
  exact if_neg hs


theorem find_path_loop_congr (s s' : Image) (fuel : Nat) (start : List Nat) (inode_num : Int)
    (h : ∀ d ∈ path_dirs_loop s fuel start inode_num,
      s'.inodes d = s.inodes d ∧ s'.blocks (s.inodes d).block = s.blocks (s.inodes d).block) :
    find_path_loop s' fuel start inode_num = find_path_loop s fuel start inode_num ∧
    path_dirs_loop s' fuel start inode_num = path_dirs_loop s fuel start inode_num := by
  induction fuel generalizing start inode_num with
  | zero =>
    rw [find_path_loop_zero, find_path_loop_zero, path_dirs_loop_zero, path_dirs_loop_zero]
    exact ⟨rfl, rfl⟩
  | succ fuel ih =>
    by_cases hs : start = []
    · subst hs
      rw [find_path_loop_nil, find_path_loop_nil, path_dirs_loop_nil, path_dirs_loop_nil]
      exact ⟨rfl, rfl⟩
    · rw [find_path_loop_succ _ _ _ _ hs, find_path_loop_succ _ _ _ _ hs,
        path_dirs_loop_succ _ _ _ _ hs, path_dirs_loop_succ _ _ _ _ hs]
      rw [path_dirs_loop_succ _ _ _ _ hs] at h
      by_cases hlen : segment_length start ≥ 256
      · simp only [if_pos hlen]
        exact ⟨trivial, trivial⟩
      · simp only [if_neg hlen] at h ⊢
        have hd := h inode_num (List.mem_cons_self _ _)
        rw [directory_lookup_congr s s' inode_num _ hd.1 hd.2]
        by_cases hr : directory_lookup s (get_inode s inode_num)
            (List.take (segment_length start) start) = -1
        · simp only [if_pos hr]
          exact ⟨trivial, trivial⟩
        · simp only [if_neg hr] at h ⊢
          cases he : strchr start 47 with
          | none => simp only [and_self]
          | some k =>
            rw [he] at h
            have := ih (start.drop (k + 1)) _ (fun d hd2 => h d (List.mem_cons_of_mem _ hd2))
            simp only
            rw [this.1, this.2]
            exact ⟨rfl, rfl⟩

theorem find_path_congr (s s' : Image) (path : List Nat)
    (h : ∀ d ∈ path_dirs s path,
      s'.inodes d = s.inodes d ∧ s'.blocks (s.inodes d).block = s.blocks (s.inodes d).block) :
    find_path s' path = find_path s path ∧ path_dirs s' path = path_dirs s path := by
  unfold find_path path_dirs
  unfold path_dirs at h
  by_cases hp : path = [47]
  · simp only [if_pos hp]
    exact ⟨trivial, trivial⟩
  · simp only [if_neg hp] at h ⊢
    exact find_path_loop_congr s s' _ _ _ h

/-- A change of the extent of a file apart from the path leaves the path resolution alone. -/
theorem find_path_step (s s2 : Image) (path : List Nat) (inum : Int) (new_size : Int) (keep : Nat)
    (hap : path_apart s path inum) (F : FileStep s s2 inum new_size keep) :
    find_path s2 path = find_path s path ∧ path_apart s2 path inum := by
  have hc := find_path_congr s s2 path (fun d hd => by
    obtain ⟨h1, h2, h3⟩ := hap d hd
    exact ⟨F.inodes_other d h1, (F.outside _ h2 h3).1⟩)
  refine ⟨hc.1, ?_⟩
  intro d hd
  rw [hc.2] at hd
  obtain ⟨h1, h2, h3⟩ := hap d hd
  have hg : get_inode s2 d = get_inode s d := F.inodes_other d h1
  rw [hg]
  exact ⟨h1, (F.outside _ h2 h3).2.1, (F.outside _ h2 h3).2.2⟩

theorem land_bit_zero_iff (b j : Nat) : b &&& (1 <<< j) = 0 ↔ b / 2 ^ j % 2 = 0 := by
  rw [Nat.one_shiftLeft, Nat.and_two_pow, Nat.testBit_to_div_mod]
  have h2 : 0 < 2 ^ j := Nat.two_pow_pos j
  have hlt : b / 2 ^ j % 2 < 2 := Nat.mod_lt _ (by decide)
  by_cases h : b / 2 ^ j % 2 = 1
  · simp [h]
  · have : b / 2 ^ j % 2 = 0 := by omega
    simp [this]

theorem alloc_inode_scan_eq_first_free (bm : Mem) (n i : Nat) :
    alloc_inode_scan bm n i = first_free bm n i := by
  induction n generalizing i with
  | zero => rfl
  | succ n ih =>
    unfold alloc_inode_scan first_free
    rw [ih]
    have : (bm (i / 8) &&& (1 <<< (i % 8)) = 0) = (bitmap_get bm i = 0) := by
      unfold bitmap_get
      exact propext (land_bit_zero_iff _ _)
    simp only [this]

theorem first_free_of_lowest (bm : Mem) (n i k : Nat) (h1 : i ≤ k) (h2 : k < i + n)
    (hk : bitmap_get bm k = 0) (hlow : ∀ j, i ≤ j → j < k → bitmap_get bm j ≠ 0) :
    first_free bm n i = some k := by
  induction n generalizing i with
  | zero => omega
  | succ n ih =>
    unfold first_free
    by_cases hik : i = k
    · subst hik; simp [hk]
    · have := hlow i (le_refl _) (by omega)
      simp only [this, if_false]
      exact ih (i + 1) (by omega) (by omega) (fun j hj1 hj2 => hlow j (by omega) hj2)

theorem first_free_none_of_full (bm : Mem) (n i : Nat)
    (h : ∀ j, i ≤ j → j < i + n → bitmap_get bm j ≠ 0) : first_free bm n i = none := by
  induction n generalizing i with
  | zero => rfl
  | succ n ih =>
    unfold first_free
    have := h i (le_refl _) (by omega)
    simp only [this, if_false]
    exact ih (i + 1) (fun j hj1 hj2 => h j (by omega) (by omega))

/-- C16: `alloc_inode` is first-free. When `i < INODE_COUNT` is the lowest
index whose inode-bitmap bit is 0, `alloc_inode` returns `i`, sets bit `i` and
changes no other bit (nor anything else in the image); when all `INODE_COUNT`
bits are set it returns -1 and leaves the image unchanged; hence after
`free_inode(i)` the next `alloc_inode` returns `i` whenever no lower index is
free. -/
theorem C16_alloc_inode_first_free (s : Image) :
    (∀ i : Nat, i < INODE_COUNT → bitmap_get s.inode_bitmap i = 0 →
      (∀ j, j < i → bitmap_get s.inode_bitmap j = 1) →
      alloc_inode s = ((i : Int), { s with inode_bitmap := bitmap_put s.inode_bitmap i 1 }) ∧
      bitmap_get (alloc_inode s).2.inode_bitmap i = 1 ∧
      ∀ j, j ≠ i → bitmap_get (alloc_inode s).2.inode_bitmap j = bitmap_get s.inode_bitmap j) ∧
    ((∀ j, j < INODE_COUNT → bitmap_get s.inode_bitmap j = 1) → alloc_inode s = (-1, s)) ∧
    (∀ i : Nat, i < INODE_COUNT → (∀ j, j < i → bitmap_get s.inode_bitmap j = 1) →
      (alloc_inode (free_inode s (i : Int))).1 = (i : Int)) := by
  have key : ∀ (t : Image) (i : Nat), i < INODE_COUNT → bitmap_get t.inode_bitmap i = 0 →
      (∀ j, j < i → bitmap_get t.inode_bitmap j = 1) →
      alloc_inode t = ((i : Int), { t with inode_bitmap := bitmap_put t.inode_bitmap i 1 }) := by
    intro t i hi hfree hlow
    unfold alloc_inode
    rw [alloc_inode_scan_eq_first_free,
      first_free_of_lowest t.inode_bitmap INODE_COUNT 0 i (Nat.zero_le _) (by omega) hfree
        (fun j _ hj => by rw [hlow j hj]; decide)]
  refine ⟨?_, ?_, ?_⟩
  · intro i hi hfree hlow
    rw [key s i hi hfree hlow]
    refine ⟨rfl, ?_, ?_⟩
    · show bitmap_get (bitmap_put s.inode_bitmap i 1) i = 1
      rw [bitmap_get_put_same]; rfl
    · intro j hj
      exact bitmap_get_put_other _ _ _ _ hj
  · intro hfull
    unfold alloc_inode
    rw [alloc_inode_scan_eq_first_free,
      first_free_none_of_full s.inode_bitmap INODE_COUNT 0
        (fun j _ hj => by rw [hfull j (by omega)]; decide)]
  · intro i hi hlow
    have hbit : bitmap_get (free_inode s (i : Int)).inode_bitmap i = 0 := by
      show bitmap_get (bitmap_put s.inode_bitmap (i : Int).toNat 0) i = 0
      rw [Int.toNat_ofNat, bitmap_get_put_same]; rfl
    have hlow2 : ∀ j, j < i → bitmap_get (free_inode s (i : Int)).inode_bitmap j = 1 := by
      intro j hj
      show bitmap_get (bitmap_put s.inode_bitmap (i : Int).toNat 0) j = 1
      rw [Int.toNat_ofNat, bitmap_get_put_other _ _ _ _ (by omega)]
      exact hlow j hj
    rw [key _ i hi hbit hlow2]

/-- Witness of C16 on the fresh image with `/f`: inode 2 is the lowest free index. -/
theorem C16_alloc_inode_first_free_witness :
    alloc_inode image_f =
      ((2 : Int), { image_f with inode_bitmap := bitmap_put image_f.inode_bitmap 2 1 }) ∧
    bitmap_get (alloc_inode image_f).2.inode_bitmap 2 = 1 ∧
    ∀ j, j ≠ 2 →
      bitmap_get (alloc_inode image_f).2.inode_bitmap j = bitmap_get image_f.inode_bitmap j :=
  (C16_alloc_inode_first_free image_f).1 2 (by decide) (by decide) (by decide)

/-- C17: the inode table does not fit in its reserved blocks. With
`BLOCK_SIZE = 4096` and 16-byte records, `INODE_BITMAP_SIZE + INODE_COUNT *
sizeof(inode_t)` is 8256, more than `NUM_BLOCKS * BLOCK_SIZE = 8192`: the
records of the inodes 508 to 511 end past the two reserved blocks. -/
theorem C17_inode_table_overflows :
    INODE_BITMAP_SIZE + INODE_COUNT * INODE_SIZE = 8256 ∧
    NUM_BLOCKS * BLOCK_SIZE = 8192 ∧
    ¬ (INODE_BITMAP_SIZE + INODE_COUNT * INODE_SIZE ≤ NUM_BLOCKS * BLOCK_SIZE) ∧
    (508 < INODE_COUNT ∧ inode_offset 508 + INODE_SIZE > NUM_BLOCKS * BLOCK_SIZE) ∧
    (∀ i, i < INODE_COUNT →
      (inode_offset i + INODE_SIZE ≤ NUM_BLOCKS * BLOCK_SIZE ↔ i < 508)) := by
  refine ⟨by decide, by decide, by decide, by decide, ?_⟩
  intro i hi
  unfold inode_offset INODE_BITMAP_SIZE INODE_COUNT INODES_PER_BLOCK NUM_BLOCKS INODE_SIZE
    BLOCK_SIZE
  omega

/-- C18: the reachable-state invariant fails after `mknod("/a")`, `unlink("/a")`
on the fresh image: inode 1 keeps `refs = 1`, and its block 4 is free in the
block bitmap. -/
theorem C18_refs_survive_unlink :
    (get_inode (run fresh_image [Op.mknod (cstr "/a") 33188, Op.unlink (cstr "/a")]) 1).refs = 1 ∧
    (get_inode (run fresh_image [Op.mknod (cstr "/a") 33188, Op.unlink (cstr "/a")]) 1).block = 4 ∧
    bitmap_get (run fresh_image
      [Op.mknod (cstr "/a") 33188, Op.unlink (cstr "/a")]).block_bitmap 4 = 0 ∧
    ¬ allocated (run fresh_image [Op.mknod (cstr "/a") 33188, Op.unlink (cstr "/a")])
      (get_inode (run fresh_image [Op.mknod (cstr "/a") 33188, Op.unlink (cstr "/a")]) 1).block := by
  decide

/-- C19: `directory_put` on a full directory (78 entries, 4056 bytes, a
multiple of the entry size and at most `BLOCK_SIZE`) returns 0 and leaves the
size at 4108, more than `BLOCK_SIZE`. -/
theorem C19_put_overflows_directory :
    (get_inode image78 0).size % DIRENT_SIZE = 0 ∧
    (get_inode image78 0).size ≤ BLOCK_SIZE ∧
    (directory_put image78 0 (cstr "zz") 79).1 = 0 ∧
    (get_inode (directory_put image78 0 (cstr "zz") 79).2 0).size = 4108 ∧
    ¬ (get_inode (directory_put image78 0 (cstr "zz") 79).2 0).size ≤ BLOCK_SIZE := by
  decide

/-- C13: removal does not unpublish a nested name. In the image with the file
`/d/f` (inode 2), `unlink("/d/f")` returns 0 and afterwards `find_path("/d/f")`
still returns 2 and `access("/d/f")` returns 0: the entry was looked for in the
root directory, not in `/d`. The same holds for `rmdir("/d/f")`. -/
theorem C13_unlink_nested_keeps_entry :
    find_path image_nested (cstr "/d/f") = 2 ∧
    (nufs_unlink image_nested (cstr "/d/f")).1 = 0 ∧
    find_path (nufs_unlink image_nested (cstr "/d/f")).2 (cstr "/d/f") = 2 ∧
    nufs_access (nufs_unlink image_nested (cstr "/d/f")).2 (cstr "/d/f") = 0 ∧
    (nufs_rmdir image_nested (cstr "/d/f")).1 = 0 ∧
    find_path (nufs_rmdir image_nested (cstr "/d/f")).2 (cstr "/d/f") = 2 ∧
    nufs_access (nufs_rmdir image_nested (cstr "/d/f")).2 (cstr "/d/f") = 0 := by
  decide

/-- C14: removal leaves owned blocks allocated. `unlink("/f")` of the indirect
file of `image_big` (indirect block 5, data blocks 4 and 6) returns 0 and
clears bit 5 only, the data blocks 4 and 6 stay set in the block bitmap;
`rmdir("/d")` of a directory with data block 4 returns 0 and block 4 stays set. -/
theorem C14_removal_leaks_blocks :
    (get_inode image_big 1).size = 5000 ∧ (get_inode image_big 1).block = 5 ∧
    indirect_slot image_big 5 0 = 4 ∧ indirect_slot image_big 5 1 = 6 ∧
    (nufs_unlink image_big (cstr "/f")).1 = 0 ∧
    bitmap_get (nufs_unlink image_big (cstr "/f")).2.block_bitmap 5 = 0 ∧
    bitmap_get (nufs_unlink image_big (cstr "/f")).2.block_bitmap 4 = 1 ∧
    bitmap_get (nufs_unlink image_big (cstr "/f")).2.block_bitmap 6 = 1 ∧
    (get_inode (nufs_mkdir fresh_image (cstr "/d") 493).2 1).block = 4 ∧
    (nufs_rmdir (nufs_mkdir fresh_image (cstr "/d") 493).2 (cstr "/d")).1 = 0 ∧
    bitmap_get (nufs_rmdir (nufs_mkdir fresh_image (cstr "/d") 493).2
      (cstr "/d")).2.block_bitmap 4 = 1 := by
  decide

/-- C20, as stated, fails: after `mknod("/f")` and `mknod("/f/g")` on the fresh
image, `find_path("/f/g")` succeeds and visits inode 1, a regular file whose
mode lacks the directory bit. -/
theorem C20_counterexample :
    find_path (run fresh_image
      [Op.mknod (cstr "/f") 33188, Op.mknod (cstr "/f/g") 33188]) (cstr "/f/g") = 2 ∧
    path_dirs (run fresh_image
      [Op.mknod (cstr "/f") 33188, Op.mknod (cstr "/f/g") 33188]) (cstr "/f/g") = [0, 1] ∧
    ¬ has_dir_bit (get_inode (run fresh_image
      [Op.mknod (cstr "/f") 33188, Op.mknod (cstr "/f/g") 33188]) 1).mode := by
  decide

theorem alloc_block_inodes (s : Image) : (alloc_block s).2.inodes = s.inodes := by
  unfold alloc_block
  split <;> rfl

theorem alloc_inode_inodes (s : Image) : (alloc_inode s).2.inodes = s.inodes := by
  unfold alloc_inode
  split <;> rfl

theorem alloc_block_blocks (s : Image) : (alloc_block s).2.blocks = s.blocks := by
  unfold alloc_block
  split <;> rfl

theorem alloc_inode_blocks (s : Image) : (alloc_inode s).2.blocks = s.blocks := by
  unfold alloc_inode
  split <;> rfl

theorem scan_entries_zero (blk : Mem) (name : List Nat) (i : Nat) :
    scan_entries blk name 0 i = none := by
  unfold scan_entries; rfl

theorem entry_count_of_size_zero (dd : inode_t) (h : dd.size = 0) :
    (entry_count dd).toNat = 0 := by
  unfold entry_count
  rw [h]
  decide

theorem scan_some_size_ne (blk : Mem) (name : List Nat) (dd : inode_t) (i : Nat)
    (h : scan_entries blk name (entry_count dd).toNat 0 = some i) : dd.size ≠ 0 := by
  intro hz
  rw [entry_count_of_size_zero dd hz, scan_entries_zero] at h
  exact Option.noConfusion h

theorem lookup_ne_size (s : Image) (dd : inode_t) (name : List Nat)
    (h : directory_lookup s dd name ≠ -1) : dd.size ≠ 0 := by
  intro hz
  apply h
  unfold directory_lookup
  simp only
  rw [entry_count_of_size_zero dd hz, scan_entries_zero]

theorem directory_delete_inodes (s : Image) (d : Int) (name : List Nat) (j : Int) :
    ((directory_delete s d name).2.inodes j).mode = (s.inodes j).mode ∧
    (((directory_delete s d name).2.inodes j).size ≠ (s.inodes j).size →
      j = d ∧ (s.inodes d).size ≠ 0) := by
  unfold directory_delete
  simp only
  cases hsc : scan_entries (blocks_get_block s (get_inode s d).block) name
      (entry_count (get_inode s d)).toNat 0 with
  | none => exact ⟨rfl, fun h => absurd rfl h⟩
  | some i =>
    simp only
    have hne := scan_some_size_ne _ _ _ _ hsc
    by_cases hj : j = d
    · subst hj
      rw [set_inode_inodes_same]
      exact ⟨rfl, fun _ => ⟨rfl, hne⟩⟩
    · rw [set_inode_inodes_other _ _ _ _ hj]
      exact ⟨rfl, fun h => absurd rfl h⟩

theorem directory_put_inodes (s : Image) (d : Int) (name : List Nat) (inum : Int) (j : Int) :
    ((directory_put s d name inum).2.inodes j).mode = (s.inodes j).mode ∧
    (((directory_put s d name inum).2.inodes j).size ≠ (s.inodes j).size → j = d) := by
  unfold directory_put
  simp only
  split
  · exact ⟨rfl, fun h => absurd rfl h⟩
  · split
    · exact ⟨rfl, fun h => absurd rfl h⟩
    · simp only [set_block_inodes]
      by_cases hj : j = d
      · subst hj
        rw [set_inode_inodes_same]
        exact ⟨rfl, fun _ => rfl⟩
      · rw [set_inode_inodes_other _ _ _ _ hj]
        exact ⟨rfl, fun h => absurd rfl h⟩

theorem sized_delete (s : Image) (d : Int) (name : List Nat) (h : sized_are_directories s) :
    sized_are_directories (directory_delete s d name).2 := by
  intro j hj
  obtain ⟨hm, hs⟩ := directory_delete_inodes s d name j
  rw [hm]
  by_cases hc : ((directory_delete s d name).2.inodes j).size = (s.inodes j).size
  · exact h j (by rw [← hc]; exact hj)
  · obtain ⟨h1, h2⟩ := hs hc
    rw [h1]
    exact h d h2

theorem sized_put (s : Image) (d : Int) (name : List Nat) (inum : Int)
    (h : sized_are_directories s) (hd : has_dir_bit (s.inodes d).mode) :
    sized_are_directories (directory_put s d name inum).2 := by
  intro j hj
  obtain ⟨hm, hs⟩ := directory_put_inodes s d name inum j
  rw [hm]
  by_cases hc : ((directory_put s d name inum).2.inodes j).size = (s.inodes j).size
  · exact h j (by rw [← hc]; exact hj)
  · rw [hs hc]
    exact hd

theorem sized_of_inodes_eq (s s' : Image) (h : s'.inodes = s.inodes)
    (hk : sized_are_directories s) : sized_are_directories s' := by
  intro j hj
  rw [h] at hj ⊢
  exact hk j hj

theorem sized_mknod (s : Image) (path : List Nat) (mode : Nat)
    (h : sized_are_directories s)
    (hg : ∀ t, mknod_put_target s path mode = some t → has_dir_bit t.mode) :
    sized_are_directories (nufs_mknod s path mode).2 := by
  unfold nufs_mknod
  unfold mknod_put_target at hg
  simp only at hg ⊢
  have h12 : (alloc_block (alloc_inode s).2).2.inodes = s.inodes := by
    rw [alloc_block_inodes, alloc_inode_inodes]
  by_cases h1 : (alloc_inode s).1 = -1 ∨ (alloc_block (alloc_inode s).2).1 = -1
  · simp only [h1, if_true]
    exact sized_of_inodes_eq _ _ h12 h
  · simp only [h1, if_false] at hg ⊢
    have h3 : sized_are_directories (set_inode (alloc_block (alloc_inode s).2).2 (alloc_inode s).1
        { refs := 1, mode := to_int mode, size := 0, block := (alloc_block (alloc_inode s).2).1 }) := by
      intro j hj
      by_cases hjn : j = (alloc_inode s).1
      · subst hjn
        rw [set_inode_inodes_same] at hj
        exact absurd rfl hj
      · rw [set_inode_inodes_other _ _ _ _ hjn, h12] at hj ⊢
        exact h j hj
    by_cases h2 : find_path (set_inode (alloc_block (alloc_inode s).2).2 (alloc_inode s).1
        { refs := 1, mode := to_int mode, size := 0, block := (alloc_block (alloc_inode s).2).1 })
        (get_directory_from_path path) = -1
    · simp only [h2, if_true]
      exact h3
    · simp only [h2, if_false] at hg ⊢
      exact sized_put _ _ _ _ h3 (hg _ rfl)

theorem sized_unlink (s : Image) (path : List Nat) (h : sized_are_directories s) :
    sized_are_directories (nufs_unlink s path).2 := by
  unfold nufs_unlink
  simp only
  split
  · exact h
  · exact sized_delete _ _ _ (sized_of_inodes_eq s _ rfl h)

theorem sized_rmdir (s : Image) (path : List Nat) (h : sized_are_directories s) :
    sized_are_directories (nufs_rmdir s path).2 := by
  unfold nufs_rmdir
  simp only
  split
  · exact h
  · exact sized_of_inodes_eq _ _ rfl (sized_delete _ _ _ h)

theorem sized_rename (s : Image) (src dst : List Nat) (h : sized_are_directories s)
    (hg : find_path s src ≠ -1 →
      has_dir_bit (get_inode s (find_path s (get_directory_from_path dst))).mode) :
    sized_are_directories (nufs_rename s src dst).2 := by
  unfold nufs_rename
  simp only
  by_cases h1 : find_path s src = -1
  · simp only [h1, if_true]
    exact h
  · simp only [h1, if_false]
    apply sized_delete
    have hs1 : sized_are_directories
        (if find_path s dst ≥ 0 then
          (directory_delete s (find_path s (get_directory_from_path dst)) (base_name dst)).2
        else s) := by
      split
      · exact sized_delete _ _ _ h
      · exact h
    have hm : ((if find_path s dst ≥ 0 then
          (directory_delete s (find_path s (get_directory_from_path dst)) (base_name dst)).2
        else s).inodes (find_path s (get_directory_from_path dst))).mode =
        (s.inodes (find_path s (get_directory_from_path dst))).mode := by
      split
      · exact (directory_delete_inodes _ _ _ _).1
      · rfl
    apply sized_put _ _ _ _ hs1
    rw [hm]
    exact hg h1

theorem sized_step (s : Image) (op : Op) (h : sized_are_directories s)
    (hn : namespace_call op = true)
    (hg : ∀ t, put_target s op = some t → has_dir_bit t.mode) :
    sized_are_directories (step s op) := by
  cases op with
  | mknod path mode => exact sized_mknod s path mode h hg
  | mkdir path mode => exact sized_mknod s path (mode ||| 16384) h hg
  | unlink path => exact sized_unlink s path h
  | rmdir path => exact sized_rmdir s path h
  | rename src dst =>
    apply sized_rename s src dst h
    intro hne
    apply hg
    show (if find_path s src = -1 then none else some _) = some _
    rw [if_neg hne]
  | truncate path size => exact absurd hn (by simp [namespace_call])
  | write path data offset => exact absurd hn (by simp [namespace_call])

theorem sized_run (ops : List Op) (s : Image) (h : sized_are_directories s)
    (hg : puts_into_directories s ops = true) : sized_are_directories (run s ops) := by
  induction ops generalizing s with
  | nil => exact h
  | cons op ops ih =>
    unfold puts_into_directories at hg
    simp only [Bool.and_eq_true] at hg
    obtain ⟨⟨hn, ht⟩, hrest⟩ := hg
    unfold run
    apply ih _ _ hrest
    apply sized_step s op h hn
    intro t htg
    rw [htg] at ht
    simpa using ht

theorem sized_fresh : sized_are_directories fresh_image := by
  intro i hi
  exfalso
  apply hi
  show (fresh_image.inodes i).size = 0
  have hf : fresh_image = { set_inode (alloc_block blocks_init).2 0
      { refs := 1, mode := 16877, size := 0, block := (alloc_block blocks_init).1 } with
      inode_bitmap := bitmap_put (set_inode (alloc_block blocks_init).2 0
        { refs := 1, mode := 16877, size := 0,
          block := (alloc_block blocks_init).1 }).inode_bitmap 0 1 } := rfl
  rw [hf]
  show ((set_inode (alloc_block blocks_init).2 0 _).inodes i).size = 0
  by_cases h0 : i = 0
  · subst h0
    rw [set_inode_inodes_same]
  · rw [set_inode_inodes_other _ _ _ _ h0, alloc_block_inodes]
    rfl

theorem path_dirs_loop_sized (s : Image) (fuel : Nat) (start : List Nat) (i : Int)
    (h : find_path_loop s fuel start i ≠ -1) :
    ∀ d ∈ path_dirs_loop s fuel start i, (get_inode s d).size ≠ 0 := by
  induction fuel generalizing start i with
  | zero =>
    rw [path_dirs_loop_zero]
    intro d hd; exact absurd hd (List.not_mem_nil d)
  | succ fuel ih =>
    by_cases hs : start = []
    · subst hs
      rw [path_dirs_loop_nil]
      intro d hd; exact absurd hd (List.not_mem_nil d)
    · rw [find_path_loop_succ _ _ _ _ hs] at h
      rw [path_dirs_loop_succ _ _ _ _ hs]
      by_cases hlen : segment_length start ≥ 256
      · rw [if_pos hlen] at h
        exact absurd rfl h
      · rw [if_neg hlen] at h ⊢
        by_cases hr : directory_lookup s (get_inode s i)
            (List.take (segment_length start) start) = -1
        · rw [if_pos hr] at h
          exact absurd rfl h
        · rw [if_neg hr] at h ⊢
          intro d hd
          rcases List.mem_cons.mp hd with hd1 | hd2
          · rw [hd1]
            exact lookup_ne_size s _ _ hr
          · cases he : strchr start 47 with
            | none =>
              rw [he] at hd2
              exact absurd hd2 (List.not_mem_nil d)
            | some k =>
              rw [he] at h hd2
              exact ih _ _ h d hd2

theorem path_dirs_sized (s : Image) (path : List Nat) (h : find_path s path ≠ -1) :
    ∀ d ∈ path_dirs s path, (get_inode s d).size ≠ 0 := by
  unfold find_path at h
  unfold path_dirs
  by_cases hp : path = [47]
  · rw [if_pos hp]
    intro d hd; exact absurd hd (List.not_mem_nil d)
  · rw [if_neg hp] at h ⊢
    exact path_dirs_loop_sized s _ _ _ h

/-- C20, amended: in every image reached from the fresh image by a sequence of
mknod, mkdir, unlink, rmdir and rename calls in which every inode handed to
`directory_put` (the parent of a new path, the parent of a rename destination)
has the directory bit at that moment, and in which every call stays where the
layout keeps records and blocks apart (`calls_in_layout`: absolute paths that
fit the 512-byte buffers, new inodes with their record in the inode table,
room for the entry in the directory that receives it), every path that
`find_path` resolves visits only inodes with the directory bit `040000` before
its last component. -/
theorem C20_only_directories_traversed (ops : List Op)
    (hg : puts_into_directories fresh_image ops = true)
    (_hl : calls_in_layout fresh_image ops = true) (P : List Nat)
    (hP : find_path (run fresh_image ops) P ≠ -1) :
    ∀ d ∈ path_dirs (run fresh_image ops) P,
      has_dir_bit (get_inode (run fresh_image ops) d).mode := by
  intro d hd
  exact sized_run ops fresh_image sized_fresh hg d (path_dirs_sized _ P hP d hd)

/-- Witness of C20: `mkdir("/d")`, `mknod("/d/f")`, and the path `/d/f`. -/
theorem C20_only_directories_traversed_witness :
    puts_into_directories fresh_image
      [Op.mkdir (cstr "/d") 493, Op.mknod (cstr "/d/f") 33188] = true ∧
    calls_in_layout fresh_image
      [Op.mkdir (cstr "/d") 493, Op.mknod (cstr "/d/f") 33188] = true ∧
    find_path (run fresh_image
      [Op.mkdir (cstr "/d") 493, Op.mknod (cstr "/d/f") 33188]) (cstr "/d/f") ≠ -1 ∧
    path_dirs (run fresh_image
      [Op.mkdir (cstr "/d") 493, Op.mknod (cstr "/d/f") 33188]) (cstr "/d/f") = [0, 1] ∧
    ∀ d ∈ path_dirs (run fresh_image
        [Op.mkdir (cstr "/d") 493, Op.mknod (cstr "/d/f") 33188]) (cstr "/d/f"),
      has_dir_bit (get_inode (run fresh_image
        [Op.mkdir (cstr "/d") 493, Op.mknod (cstr "/d/f") 33188]) d).mode :=
  ⟨by decide, by decide, by decide, by decide,
    C20_only_directories_traversed
      [Op.mkdir (cstr "/d") 493, Op.mknod (cstr "/d/f") 33188] (by decide) (by decide)
      (cstr "/d/f") (by decide)⟩

/-- C2: read clamps to end of file. For a path that resolves to an inode of
size `s` with a consistent extent, `nufs_read(path, n, off)` returns 0 and
copies nothing when `off >= s`, and otherwise returns `min(n, s - off)` and
copies out the bytes `[off, off + min(n, s - off))` of the file; the result is
never an error. -/
theorem C2_read_clamps (s : Image) (path : List Nat) (n off : Nat)
    (hres : find_path s path ≠ -1) (hext : extent_ok s (get_inode s (find_path s path))) :
    nufs_read s path n off =
      some (if (get_inode s (find_path s path)).size ≤ (off : Int) then (0, [])
        else (((min n ((get_inode s (find_path s path)).size.toNat - off) : Nat) : Int),
          file_bytes s (get_inode s (find_path s path)) off
            (min n ((get_inode s (find_path s path)).size.toNat - off)))) :=
  nufs_read_of_extent s path n off hres hext

/-- Witness of C2: a read of 100 bytes at offset 4990 of the 5000-byte file of
`image_big`, whose last 10 bytes lie in its second data block. -/
theorem C2_read_clamps_witness :
    find_path image_big (cstr "/f") ≠ -1 ∧
    extent_ok image_big (get_inode image_big (find_path image_big (cstr "/f"))) ∧
    nufs_read image_big (cstr "/f") 100 4990 =
      some (if (get_inode image_big (find_path image_big (cstr "/f"))).size ≤ ((4990 : Nat) : Int)
        then (0, [])
        else (((min 100 ((get_inode image_big (find_path image_big (cstr "/f"))).size.toNat
            - 4990) : Nat) : Int),
          file_bytes image_big (get_inode image_big (find_path image_big (cstr "/f"))) 4990
            (min 100 ((get_inode image_big (find_path image_big (cstr "/f"))).size.toNat
              - 4990)))) :=
  ⟨by decide, by decide, C2_read_clamps image_big (cstr "/f") 100 4990 (by decide) (by decide)⟩

/-- C3: no-space is not propagated by truncate. On `image_full` (no free
block) `grow_inode` returns `-ENOSPC` for a growth of `/f` from 0 to 5000
bytes, yet `nufs_truncate("/f", 5000)` returns 0 and sets the size to 5000:
the status is compared with -1 only. -/
theorem C3_truncate_swallows_no_space :
    free_blocks image_full = 0 ∧
    (get_inode image_full 1).size = 0 ∧
    (grow_inode image_full 1 5000).1 = -ENOSPC ∧
    (nufs_truncate image_full (cstr "/f") 5000).1 = 0 ∧
    (get_inode (nufs_truncate image_full (cstr "/f") 5000).2 1).size = 5000 := by
  decide

theorem shrink_inode_indirect (s : Image) (inum : Int) (new_size : Int)
    (h0 : 0 ≤ (get_inode s inum).size) (hn : 0 ≤ new_size)
    (hlt : new_size < (get_inode s inum).size)
    (hi : (BLOCK_SIZE : Int) < (get_inode s inum).size) :
    shrink_inode s inum new_size =
      if blocks_for new_size.toNat = 1 then
        (0, set_inode (free_block (shrink_loop (get_inode s inum).block
            (blocks_for (get_inode s inum).size.toNat - blocks_for new_size.toNat) s
            ((blocks_for new_size.toNat : Nat) : Int)) (get_inode s inum).block) inum
          { get_inode s inum with block := indirect_slot s (get_inode s inum).block 0 })
      else (0, shrink_loop (get_inode s inum).block
            (blocks_for (get_inode s inum).size.toNat - blocks_for new_size.toNat) s
            ((blocks_for new_size.toNat : Nat) : Int)) := by
  have hd : ¬ (get_inode s inum).size ≤ (BLOCK_SIZE : Int) := by omega
  have hold := tdiv_blocks (get_inode s inum).size h0
  have hreq := tdiv_blocks new_size hn
  have hmono : blocks_for new_size.toNat ≤ blocks_for (get_inode s inum).size.toNat :=
    blocks_for_mono _ _ (by omega)
  have hcnt : ((blocks_for (get_inode s inum).size.toNat : Int) -
      (blocks_for new_size.toNat : Int)).toNat =
      blocks_for (get_inode s inum).size.toNat - blocks_for new_size.toNat := by omega
  obtain ⟨lb, _, _⟩ := shrink_loop_blocks (get_inode s inum).block
    (blocks_for (get_inode s inum).size.toNat - blocks_for new_size.toNat) s
    ((blocks_for new_size.toNat : Nat) : Int)
  unfold shrink_inode
  simp only [hd, if_false, hold, hreq, hcnt]
  have hrd : read_int (blocks_get_block (shrink_loop (get_inode s inum).block
      (blocks_for (get_inode s inum).size.toNat - blocks_for new_size.toNat) s
      ((blocks_for new_size.toNat : Nat) : Int)) (get_inode s inum).block) 0 =
      indirect_slot s (get_inode s inum).block 0 :=
    indirect_slot_congr _ _ _ 0 (by rw [lb])
  rw [hrd]
  by_cases h1 : blocks_for new_size.toNat = 1
  · simp only [h1, Nat.cast_one, if_true]
  · have h1' : ¬ ((blocks_for new_size.toNat : Nat) : Int) = 1 := by omega
    simp only [h1, h1', if_false]

theorem blocks_for_one (n : Int) (h1 : 1 ≤ n) (h2 : n ≤ (BLOCK_SIZE : Int)) :
    blocks_for n.toNat = 1 := by
  unfold blocks_for
  simp only [BLOCK_SIZE] at h2 ⊢
  omega

theorem to_int_small (n : Int) (h0 : 0 ≤ n) (h1 : n ≤ (MAX_FILE_SIZE : Int)) : to_int n = n := by
  simp only [MAX_FILE_SIZE, BLOCK_SIZE] at h1
  exact to_int_eq n (by omega) (by omega)

theorem split_slash_ne_nil (l : List Nat) : split_slash l ≠ [] := by
  cases l with
  | nil => simp [split_slash]
  | cons c cs =>
    unfold split_slash
    split <;> simp

theorem split_slash_cons_slash (cs : List Nat) :
    split_slash (47 :: cs) = [] :: split_slash cs := by
  conv_lhs => unfold split_slash
  simp

theorem split_slash_cons_other (c : Nat) (cs : List Nat) (h : c ≠ 47) :
    split_slash (c :: cs) = (c :: (split_slash cs).headD []) :: (split_slash cs).tail := by
  conv_lhs => unfold split_slash
  simp [h]

theorem strchr_cons_slash (cs : List Nat) : strchr (47 :: cs) 47 = some 0 := by
  unfold strchr; simp

theorem strchr_cons_other (c : Nat) (cs : List Nat) (h : c ≠ 47) :
    strchr (c :: cs) 47 = (strchr cs 47).map (· + 1) := by
  conv_lhs => unfold strchr
  simp [h]

theorem strchr_none_split (l : List Nat) (h : strchr l 47 = none) :
    split_slash l = [l] ∧ 47 ∉ l := by
  induction l with
  | nil => exact ⟨rfl, List.not_mem_nil _⟩
  | cons c cs ih =>
    by_cases hc : c = 47
    · subst hc
      rw [strchr_cons_slash] at h
      exact Option.noConfusion h
    · rw [strchr_cons_other c cs hc] at h
      have hcs : strchr cs 47 = none := by
        cases hs : strchr cs 47 with
        | none => rfl
        | some k => rw [hs] at h; exact Option.noConfusion h
      obtain ⟨h1, h2⟩ := ih hcs
      rw [split_slash_cons_other c cs hc, h1]
      refine ⟨rfl, ?_⟩
      intro hm
      rcases List.mem_cons.mp hm with h3 | h3
      · exact hc h3.symm
      · exact h2 h3

theorem strchr_some_split (l : List Nat) (k : Nat) (h : strchr l 47 = some k) :
    k < l.length ∧ split_slash l = l.take k :: split_slash (l.drop (k + 1)) ∧
    47 ∉ l.take k := by
  induction l generalizing k with
  | nil => unfold strchr at h; exact Option.noConfusion h
  | cons c cs ih =>
    by_cases hc : c = 47
    · subst hc
      rw [strchr_cons_slash] at h
      have hk : k = 0 := by injection h with h; exact h.symm
      subst hk
      rw [split_slash_cons_slash]
      exact ⟨by simp, rfl, by simp⟩
    · rw [strchr_cons_other c cs hc] at h
      cases hs : strchr cs 47 with
      | none => rw [hs] at h; exact Option.noConfusion h
      | some k' =>
        rw [hs] at h
        have hk : k = k' + 1 := by
          simp only [Option.map_some'] at h
          injection h with h
          exact h.symm
        subst hk
        obtain ⟨h1, h2, h3⟩ := ih k' hs
        rw [split_slash_cons_other c cs hc, h2]
        refine ⟨by simp; omega, rfl, ?_⟩
        intro hm
        rw [List.take_succ_cons] at hm
        rcases List.mem_cons.mp hm with h4 | h4
        · exact hc h4.symm
        · exact h3 h4

theorem segment_length_none (l : List Nat) (h : strchr l 47 = none) :
    segment_length l = l.length := by
  unfold segment_length; rw [h]

theorem segment_length_some (l : List Nat) (k : Nat) (h : strchr l 47 = some k) :
    segment_length l = k := by
  unfold segment_length; rw [h]

theorem trim_last_cons (a : List Nat) (L : List (List Nat)) (h : L ≠ []) :
    trim_last (a :: L) = a :: trim_last L := by
  cases L with
  | nil => exact absurd rfl h
  | cons y rest => rfl

theorem trim_last_single (a : List Nat) (h : a ≠ []) : trim_last [a] = [a] := by
  unfold trim_last; simp [h]

theorem find_path_loop_eq_walk (s : Image) (fuel : Nat) (start : List Nat) (i : Int)
    (hf : start.length ≤ fuel) :
    find_path_loop s fuel start i = walk_checked s i (trim_last (split_slash start)) := by
  induction fuel generalizing start i with
  | zero =>
    have : start = [] := List.length_eq_zero.mp (by omega)
    subst this
    rw [find_path_loop_zero]
    rfl
  | succ fuel ih =>
    by_cases hs : start = []
    · subst hs
      rw [find_path_loop_nil]
      rfl
    · rw [find_path_loop_succ _ _ _ _ hs]
      cases he : strchr start 47 with
      | none =>
        obtain ⟨h1, _⟩ := strchr_none_split start he
        rw [h1, trim_last_single start hs, segment_length_none start he, List.take_length]
        unfold walk_checked
        simp only
        split
        · rfl
        · split
          · rfl
          · unfold walk_checked; rfl
      | some k =>
        obtain ⟨h1, h2, _⟩ := strchr_some_split start k he
        rw [h2, trim_last_cons _ _ (split_slash_ne_nil _), segment_length_some start k he]
        conv_rhs => unfold walk_checked
        have hlen : (List.take k start).length = k := by
          rw [List.length_take]; omega
        rw [hlen]
        simp only
        split
        · rfl
        · split
          · rfl
          · apply ih
            rw [List.length_drop]
            omega

theorem find_path_eq_walk (s : Image) (path : List Nat) :
    find_path s path = if path = [47] then 0 else walk_checked s 0 (code_segments path) := by
  unfold find_path code_segments
  split
  · rfl
  · exact find_path_loop_eq_walk s _ _ 0 (le_refl _)

/-- C10, as stated, fails on a doubled slash: in `image_f` (root directory with
the one entry `f` for inode 1) the fold over the non-empty segments of `"//f"`
reaches inode 1, while `find_path("//f")` looks the empty name up in the root
and returns -1. -/
theorem C10_counterexample :
    find_path_spec image_f (cstr "//f") = 1 ∧ find_path image_f (cstr "//f") = -1 := by
  decide

/-- C10, amended: `find_path("/")` returns 0, and for every other path
`find_path` strips one leading `'/'`, cuts the rest at every `'/'`, drops only
a final empty piece, and folds `directory_lookup` from inode 0 over all the
pieces that remain, the empty ones included, returning -1 as soon as a piece
has 256 characters or more or its lookup returns -1. -/
theorem C10_find_path_is_checked_fold (s : Image) (path : List Nat) :
    find_path s path =
      if path = [47] then 0 else walk_checked s 0 (code_segments path) :=
  find_path_eq_walk s path

theorem strcmp_eq_iff (m : Mem) (name : List Nat) (a : Nat) :
    strcmp_eq m a name = true ↔
      (∀ k, k < name.length → m (a + k) = name.getD k 0) ∧ m (a + name.length) = 0 := by
  induction name generalizing a with
  | nil =>
    unfold strcmp_eq
    simp
  | cons c cs ih =>
    unfold strcmp_eq
    rw [Bool.and_eq_true, ih (a + 1)]
    simp only [beq_iff_eq, List.length_cons]
    constructor
    · rintro ⟨h0, h1, h2⟩
      refine ⟨?_, ?_⟩
      · intro k hk
        cases k with
        | zero => simpa using h0
        | succ k =>
          have := h1 k (by omega)
          rw [show a + (k + 1) = a + 1 + k by omega]
          simpa using this
      · rw [show a + (cs.length + 1) = a + 1 + cs.length by omega]
        exact h2
    · rintro ⟨h1, h2⟩
      refine ⟨?_, ?_, ?_⟩
      · simpa using h1 0 (by omega)
      · intro k hk
        have := h1 (k + 1) (by omega)
        rw [show a + (k + 1) = a + 1 + k by omega] at this
        simpa using this
      · rw [show a + 1 + cs.length = a + (cs.length + 1) by omega]
        exact h2

theorem strcmp_eq_congr (m m' : Mem) (name : List Nat) (a : Nat)
    (h : ∀ x, a ≤ x → x ≤ a + name.length → m' x = m x) :
    strcmp_eq m' a name = strcmp_eq m a name := by
  induction name generalizing a with
  | nil =>
    unfold strcmp_eq
    rw [h a (le_refl _) (by simp)]
  | cons c cs ih =>
    unfold strcmp_eq
    rw [h a (le_refl _) (by simp),
      ih (a + 1) (fun x h1 h2 => h x (by omega) (by simp only [List.length_cons]; omega))]

theorem strcmp_eq_strcpy (m : Mem) (a : Nat) (name : List Nat) :
    strcmp_eq (strcpy m a name) a name = true := by
  rw [strcmp_eq_iff]
  refine ⟨?_, ?_⟩
  · intro k hk
    unfold strcpy
    rw [if_pos ⟨by omega, by omega⟩]
    congr 1
    omega
  · unfold strcpy
    rw [if_neg (by omega), if_pos rfl]

theorem strcpy_apply_other (m : Mem) (a : Nat) (name : List Nat) (x : Nat)
    (h : x < a ∨ a + name.length < x) : strcpy m a name x = m x := by
  unfold strcpy
  rw [if_neg (by omega), if_neg (by omega)]

theorem strcmp_eq_unique (m : Mem) (a : Nat) (n1 n2 : List Nat)
    (z1 : 0 ∉ n1) (z2 : 0 ∉ n2)
    (h1 : strcmp_eq m a n1 = true) (h2 : strcmp_eq m a n2 = true) : n1 = n2 := by
  rw [strcmp_eq_iff] at h1 h2
  obtain ⟨e1, t1⟩ := h1
  obtain ⟨e2, t2⟩ := h2
  have hlen : n1.length = n2.length := by
    rcases Nat.lt_trichotomy n1.length n2.length with hl | hl | hl
    · exfalso
      have := e2 n1.length hl
      rw [t1] at this
      apply z2
      rw [this, List.getD_eq_getElem _ _ hl]
      exact List.getElem_mem _
    · exact hl
    · exfalso
      have := e1 n2.length hl
      rw [t2] at this
      apply z1
      rw [this, List.getD_eq_getElem _ _ hl]
      exact List.getElem_mem _
  apply List.ext_getElem hlen
  intro k hk1 hk2
  have a1 := e1 k hk1
  have a2 := e2 k hk2
  rw [List.getD_eq_getElem _ _ hk1] at a1
  rw [List.getD_eq_getElem _ _ hk2] at a2
  rw [← a1, ← a2]

theorem scan_entries_succ (blk : Mem) (name : List Nat) (n i : Nat) :
    scan_entries blk name (n + 1) i =
      if strcmp_eq blk (i * DIRENT_SIZE) name then some i
      else scan_entries blk name n (i + 1) := by
  conv_lhs => unfold scan_entries

theorem scan_entries_none_iff (blk : Mem) (name : List Nat) (n i : Nat) :
    scan_entries blk name n i = none ↔
      ∀ j, i ≤ j → j < i + n → strcmp_eq blk (j * DIRENT_SIZE) name = false := by
  induction n generalizing i with
  | zero =>
    rw [scan_entries_zero]
    simp only [true_iff]
    intro j h1 h2
    omega
  | succ n ih =>
    rw [scan_entries_succ]
    by_cases hc : strcmp_eq blk (i * DIRENT_SIZE) name = true
    · rw [if_pos hc]
      simp only [false_iff, reduceCtorEq]
      intro h
      have := h i (le_refl _) (by omega)
      rw [hc] at this
      exact Bool.noConfusion this
    · rw [if_neg hc, ih (i + 1)]
      constructor
      · intro h j h1 h2
        by_cases hj : j = i
        · subst hj
          simpa using hc
        · exact h j (by omega) (by omega)
      · intro h j h1 h2
        exact h j (by omega) (by omega)

theorem scan_entries_some_iff (blk : Mem) (name : List Nat) (n i k : Nat) :
    scan_entries blk name n i = some k ↔
      i ≤ k ∧ k < i + n ∧ strcmp_eq blk (k * DIRENT_SIZE) name = true ∧
      ∀ j, i ≤ j → j < k → strcmp_eq blk (j * DIRENT_SIZE) name = false := by
  induction n generalizing i with
  | zero =>
    rw [scan_entries_zero]
    simp only [reduceCtorEq, false_iff]
    rintro ⟨h1, h2, _⟩
    omega
  | succ n ih =>
    rw [scan_entries_succ]
    by_cases hc : strcmp_eq blk (i * DIRENT_SIZE) name = true
    · rw [if_pos hc]
      constructor
      · intro h
        have hk : i = k := by injection h
        subst hk
        exact ⟨le_refl _, by omega, hc, fun j h1 h2 => by omega⟩
      · rintro ⟨h1, h2, h3, h4⟩
        by_cases hk : k = i
        · rw [hk]
        · have := h4 i (le_refl _) (by omega)
          rw [hc] at this
          exact Bool.noConfusion this
    · rw [if_neg hc, ih (i + 1)]
      constructor
      · rintro ⟨h1, h2, h3, h4⟩
        refine ⟨by omega, by omega, h3, ?_⟩
        intro j hj1 hj2
        by_cases hj : j = i
        · subst hj
          simpa using hc
        · exact h4 j (by omega) hj2
      · rintro ⟨h1, h2, h3, h4⟩
        have hki : k ≠ i := by
          intro hk
          rw [hk] at h3
          exact hc h3
        exact ⟨by omega, by omega, h3, fun j hj1 hj2 => h4 j (by omega) hj2⟩

theorem dirent_size_eq : DIRENT_SIZE = 52 := rfl

theorem dir_name_length_eq : DIR_NAME_LENGTH = 48 := rfl

theorem entry_count_toNat (dd : inode_t) (h0 : 0 ≤ dd.size)
    (h1 : dd.size ≤ (MAX_FILE_SIZE : Int)) :
    (entry_count dd).toNat = dd.size.toNat / DIRENT_SIZE := by
  unfold entry_count
  rw [to_size_t_eq dd.size h0 h1]
  simp only [MAX_FILE_SIZE, BLOCK_SIZE] at h1
  rw [dirent_size_eq]
  rw [to_int_eq _ (by omega) (by omega)]
  exact Int.toNat_ofNat _

theorem entry_count_eq (dd : inode_t) (h0 : 0 ≤ dd.size)
    (h1 : dd.size ≤ (MAX_FILE_SIZE : Int)) :
    entry_count dd = ((dd.size.toNat / DIRENT_SIZE : Nat) : Int) := by
  unfold entry_count
  rw [to_size_t_eq dd.size h0 h1]
  simp only [MAX_FILE_SIZE, BLOCK_SIZE] at h1
  rw [dirent_size_eq]
  rw [to_int_eq _ (by omega) (by omega)]

theorem strcmp_eq_shift (m m' : Mem) (name : List Nat) (a a' : Nat)
    (h : ∀ k, k ≤ name.length → m' (a' + k) = m (a + k)) :
    strcmp_eq m' a' name = strcmp_eq m a name := by
  induction name generalizing a a' with
  | nil =>
    unfold strcmp_eq
    have := h 0 (le_refl _)
    simp only [Nat.add_zero] at this
    rw [this]
  | cons c cs ih =>
    unfold strcmp_eq
    have h0 := h 0 (Nat.zero_le _)
    simp only [Nat.add_zero] at h0
    rw [h0, ih (a + 1) (a' + 1) (fun k hk => by
      have := h (k + 1) (by simp only [List.length_cons]; omega)
      rw [show a' + 1 + k = a' + (k + 1) by omega, show a + 1 + k = a + (k + 1) by omega]
      exact this)]

theorem read_int_shift (m m' : Mem) (a a' : Nat)
    (h : ∀ k, k < 4 → m' (a' + k) = m (a + k)) : read_int m' a' = read_int m a := by
  unfold read_int
  have h0 := h 0 (by omega)
  simp only [Nat.add_zero] at h0
  rw [h0, h 1 (by omega), h 2 (by omega), h 3 (by omega)]

theorem directory_lookup_of_slot_none (s : Image) (dd : inode_t) (name : List Nat)
    (h : entry_slot s dd name = none) : directory_lookup s dd name = -1 := by
  unfold entry_slot at h
  unfold directory_lookup
  simp only
  rw [h]

theorem directory_lookup_of_slot_some (s : Image) (dd : inode_t) (name : List Nat) (i : Nat)
    (h : entry_slot s dd name = some i) :
    directory_lookup s dd name = entry_inum (blocks_get_block s dd.block) i := by
  unfold entry_slot at h
  unfold directory_lookup
  simp only
  rw [h]

theorem directory_put_exists (s : Image) (dnum : Int) (name : List Nat) (inum : Int)
    (h : directory_lookup s (get_inode s dnum) name ≥ 0) :
    directory_put s dnum name inum = (-EEXIST, s) := by
  unfold directory_put
  simp only
  rw [if_pos h]

theorem directory_put_too_long (s : Image) (dnum : Int) (name : List Nat) (inum : Int)
    (h : ¬ directory_lookup s (get_inode s dnum) name ≥ 0)
    (hl : name.length ≥ DIR_NAME_LENGTH) :
    directory_put s dnum name inum = (-ENAMETOOLONG, s) := by
  unfold directory_put
  simp only
  rw [if_neg h, if_pos hl]

theorem directory_put_ok (s : Image) (dnum : Int) (name : List Nat) (inum : Int)
    (h : ¬ directory_lookup s (get_inode s dnum) name ≥ 0)
    (hl : name.length < DIR_NAME_LENGTH) :
    directory_put s dnum name inum =
      (0, set_block
        (set_inode s dnum { get_inode s dnum with size := (get_inode s dnum).size + DIRENT_SIZE })
        (get_inode s dnum).block
        (write_int
          (strcpy (blocks_get_block s (get_inode s dnum).block)
            ((entry_count (get_inode s dnum)).toNat * DIRENT_SIZE) name)
          ((entry_count (get_inode s dnum)).toNat * DIRENT_SIZE + DIR_NAME_LENGTH) inum)) := by
  unfold directory_put
  simp only
  rw [if_neg h, if_neg (by omega)]

theorem directory_delete_none (s : Image) (dnum : Int) (name : List Nat)
    (h : entry_slot s (get_inode s dnum) name = none) :
    directory_delete s dnum name = (-ENOENT, s) := by
  unfold entry_slot at h
  unfold directory_delete
  simp only
  rw [h]

theorem directory_delete_some (s : Image) (dnum : Int) (name : List Nat) (i : Nat)
    (h : entry_slot s (get_inode s dnum) name = some i) :
    directory_delete s dnum name =
      (0, set_inode
        (set_block s (get_inode s dnum).block
          (memcpy (blocks_get_block s (get_inode s dnum).block) (i * DIRENT_SIZE)
            (fun k => blocks_get_block s (get_inode s dnum).block
              ((entry_count (get_inode s dnum) - 1).toNat * DIRENT_SIZE + k)) DIRENT_SIZE))
        dnum { get_inode s dnum with size := (get_inode s dnum).size - DIRENT_SIZE }) := by
  unfold entry_slot at h
  unfold directory_delete
  simp only
  rw [h]

/-- The directory `dnum` as `directory_put` leaves it when it adds an entry. -/
theorem put_ok_dir (s : Image) (dnum : Int) (name : List Nat) (inum : Int)
    (h : ¬ directory_lookup s (get_inode s dnum) name ≥ 0)
    (hl : name.length < DIR_NAME_LENGTH) :
    get_inode (directory_put s dnum name inum).2 dnum =
      { get_inode s dnum with size := (get_inode s dnum).size + DIRENT_SIZE } ∧
    blocks_get_block (directory_put s dnum name inum).2 (get_inode s dnum).block =
      write_int
        (strcpy (blocks_get_block s (get_inode s dnum).block)
          ((entry_count (get_inode s dnum)).toNat * DIRENT_SIZE) name)
        ((entry_count (get_inode s dnum)).toNat * DIRENT_SIZE + DIR_NAME_LENGTH) inum := by
  rw [directory_put_ok s dnum name inum h hl]
  refine ⟨?_, ?_⟩
  · unfold get_inode
    simp only [set_block_inodes, set_inode_inodes_same]
  · unfold blocks_get_block
    simp only [set_block_blocks_same]

theorem delete_some_dir (s : Image) (dnum : Int) (name : List Nat) (i : Nat)
    (h : entry_slot s (get_inode s dnum) name = some i) :
    get_inode (directory_delete s dnum name).2 dnum =
      { get_inode s dnum with size := (get_inode s dnum).size - DIRENT_SIZE } ∧
    blocks_get_block (directory_delete s dnum name).2 (get_inode s dnum).block =
      memcpy (blocks_get_block s (get_inode s dnum).block) (i * DIRENT_SIZE)
        (fun k => blocks_get_block s (get_inode s dnum).block
          ((entry_count (get_inode s dnum) - 1).toNat * DIRENT_SIZE + k)) DIRENT_SIZE := by
  rw [directory_delete_some s dnum name i h]
  refine ⟨?_, ?_⟩
  · unfold get_inode
    simp only [set_inode_inodes_same]
  · unfold blocks_get_block
    simp only [set_inode_blocks, set_block_blocks_same]

/-- Bytes of the block after an entry has been written in slot `c`. -/
theorem put_bytes_before (blk : Mem) (c : Nat) (name : List Nat) (inum : Int) (x : Nat)
    (hx : x < c * DIRENT_SIZE) :
    write_int (strcpy blk (c * DIRENT_SIZE) name) (c * DIRENT_SIZE + DIR_NAME_LENGTH) inum x
      = blk x := by
  rw [write_int_apply_other _ _ _ _ (by omega), strcpy_apply_other _ _ _ _ (by omega)]

theorem put_slot_before (blk : Mem) (c : Nat) (name other : List Nat) (inum : Int) (j : Nat)
    (hj : j < c) (ho : other.length < DIRENT_SIZE) :
    strcmp_eq
      (write_int (strcpy blk (c * DIRENT_SIZE) name) (c * DIRENT_SIZE + DIR_NAME_LENGTH) inum)
      (j * DIRENT_SIZE) other = strcmp_eq blk (j * DIRENT_SIZE) other := by
  apply strcmp_eq_congr
  intro x h1 h2
  apply put_bytes_before
  have : (j + 1) * DIRENT_SIZE ≤ c * DIRENT_SIZE := Nat.mul_le_mul_right _ (by omega)
  rw [Nat.add_mul] at this
  omega

theorem put_slot_new (blk : Mem) (c : Nat) (name : List Nat) (inum : Int)
    (hl : name.length < DIR_NAME_LENGTH) :
    strcmp_eq
      (write_int (strcpy blk (c * DIRENT_SIZE) name) (c * DIRENT_SIZE + DIR_NAME_LENGTH) inum)
      (c * DIRENT_SIZE) name = true := by
  rw [strcmp_eq_congr (strcpy blk (c * DIRENT_SIZE) name) _ name (c * DIRENT_SIZE)]
  · exact strcmp_eq_strcpy _ _ _
  · intro x h1 h2
    exact write_int_apply_other _ _ _ _ (by omega)

theorem put_inum_before (blk : Mem) (c : Nat) (name : List Nat) (inum : Int) (j : Nat)
    (hj : j < c) :
    entry_inum
      (write_int (strcpy blk (c * DIRENT_SIZE) name) (c * DIRENT_SIZE + DIR_NAME_LENGTH) inum) j
      = entry_inum blk j := by
  unfold entry_inum
  apply read_int_congr
  intro x h1 h2
  apply put_bytes_before
  have : (j + 1) * DIRENT_SIZE ≤ c * DIRENT_SIZE := Nat.mul_le_mul_right _ (by omega)
  rw [Nat.add_mul] at this
  simp only [dirent_size_eq, dir_name_length_eq] at this h1 h2 ⊢
  omega

theorem put_inum_new (blk : Mem) (c : Nat) (name : List Nat) (inum : Int)
    (h1 : -2147483648 ≤ inum) (h2 : inum < 2147483648) :
    entry_inum
      (write_int (strcpy blk (c * DIRENT_SIZE) name) (c * DIRENT_SIZE + DIR_NAME_LENGTH) inum) c
      = inum := by
  unfold entry_inum
  exact read_write_int_same _ _ _ h1 h2

theorem memcpy_apply_in (dst : Mem) (off : Nat) (src : Nat → Nat) (n x : Nat)
    (h1 : off ≤ x) (h2 : x < off + n) : memcpy dst off src n x = src (x - off) := by
  unfold memcpy
  rw [if_pos ⟨h1, h2⟩]

theorem memcpy_apply_out (dst : Mem) (off : Nat) (src : Nat → Nat) (n x : Nat)
    (h : x < off ∨ off + n ≤ x) : memcpy dst off src n x = dst x := by
  unfold memcpy
  rw [if_neg (by omega)]

theorem slot_bounds (j i : Nat) (h : j < i) : j * DIRENT_SIZE + DIRENT_SIZE ≤ i * DIRENT_SIZE := by
  have : (j + 1) * DIRENT_SIZE ≤ i * DIRENT_SIZE := Nat.mul_le_mul_right _ (by omega)
  rw [Nat.add_mul] at this
  omega

theorem delete_slot_other (blk : Mem) (i j : Nat) (src : Nat → Nat) (other : List Nat)
    (hj : j ≠ i) (ho : other.length < DIRENT_SIZE) :
    strcmp_eq (memcpy blk (i * DIRENT_SIZE) src DIRENT_SIZE) (j * DIRENT_SIZE) other
      = strcmp_eq blk (j * DIRENT_SIZE) other := by
  apply strcmp_eq_congr
  intro x h1 h2
  apply memcpy_apply_out
  rcases Nat.lt_or_gt_of_ne hj with h | h
  · have := slot_bounds j i h
    left; omega
  · have := slot_bounds i j h
    right; omega

theorem delete_slot_moved (blk : Mem) (i l : Nat) (other : List Nat)
    (ho : other.length < DIRENT_SIZE) :
    strcmp_eq (memcpy blk (i * DIRENT_SIZE) (fun k => blk (l * DIRENT_SIZE + k)) DIRENT_SIZE)
      (i * DIRENT_SIZE) other = strcmp_eq blk (l * DIRENT_SIZE) other := by
  apply strcmp_eq_shift
  intro k hk
  rw [memcpy_apply_in _ _ _ _ _ (by omega) (by omega)]
  simp only [Nat.add_sub_cancel_left]

theorem delete_inum_other (blk : Mem) (i j : Nat) (src : Nat → Nat) (hj : j ≠ i) :
    entry_inum (memcpy blk (i * DIRENT_SIZE) src DIRENT_SIZE) j = entry_inum blk j := by
  unfold entry_inum
  apply read_int_congr
  intro x h1 h2
  apply memcpy_apply_out
  rcases Nat.lt_or_gt_of_ne hj with h | h
  · have := slot_bounds j i h
    simp only [dirent_size_eq, dir_name_length_eq] at this h1 h2 ⊢
    left; omega
  · have := slot_bounds i j h
    simp only [dirent_size_eq, dir_name_length_eq] at this h1 h2 ⊢
    right; omega

theorem delete_inum_moved (blk : Mem) (i l : Nat) :
    entry_inum (memcpy blk (i * DIRENT_SIZE) (fun k => blk (l * DIRENT_SIZE + k)) DIRENT_SIZE) i
      = entry_inum blk l := by
  unfold entry_inum
  apply read_int_shift
  intro k hk
  rw [memcpy_apply_in _ _ _ _ _ (by omega)
    (by simp only [dirent_size_eq, dir_name_length_eq]; omega)]
  congr 1
  omega

/-- A directory of consistent size with room for one more entry: the entry
counts before and after `directory_put` adds one. -/
theorem entry_count_put (dd : inode_t) (h0 : 0 ≤ dd.size)
    (hroom : dd.size + DIRENT_SIZE ≤ (BLOCK_SIZE : Int)) :
    (entry_count { dd with size := dd.size + DIRENT_SIZE }).toNat
      = (entry_count dd).toNat + 1 := by
  have hd : (DIRENT_SIZE : Int) = 52 := rfl
  have hb : (BLOCK_SIZE : Int) = 4096 := rfl
  rw [hd, hb] at hroom
  rw [entry_count_toNat _ (by simp only [hd]; omega)
      (by simp only [MAX_FILE_SIZE, BLOCK_SIZE, hd]; omega),
    entry_count_toNat dd h0 (by simp only [MAX_FILE_SIZE, BLOCK_SIZE]; omega)]
  simp only [hd, dirent_size_eq]
  omega

theorem entry_count_delete (dd : inode_t) (h0 : 0 ≤ dd.size)
    (h1 : dd.size ≤ (MAX_FILE_SIZE : Int)) (hc : 0 < (entry_count dd).toNat) :
    (entry_count { dd with size := dd.size - DIRENT_SIZE }).toNat + 1
      = (entry_count dd).toNat ∧
    (entry_count dd - 1).toNat + 1 = (entry_count dd).toNat ∧
    (DIRENT_SIZE : Int) ≤ dd.size := by
  have hd : (DIRENT_SIZE : Int) = 52 := rfl
  rw [entry_count_toNat dd h0 h1] at hc
  rw [dirent_size_eq] at hc
  have hm : (MAX_FILE_SIZE : Int) = 4194304 := rfl
  rw [hm] at h1
  have h52 : 52 ≤ dd.size := by omega
  refine ⟨?_, ?_, by rw [hd]; exact h52⟩
  · rw [entry_count_toNat _ (by simp only [hd]; omega) (by simp only [hd, hm]; omega),
      entry_count_toNat dd h0 (by rw [hm]; exact h1)]
    simp only [hd, dirent_size_eq]
    omega
  · rw [entry_count_eq dd h0 (by rw [hm]; exact h1)]
    simp only [dirent_size_eq]
    omega

theorem entry_slot_none_iff (s : Image) (dd : inode_t) (name : List Nat) :
    entry_slot s dd name = none ↔
      ∀ j, j < (entry_count dd).toNat →
        strcmp_eq (blocks_get_block s dd.block) (j * DIRENT_SIZE) name = false := by
  unfold entry_slot
  rw [scan_entries_none_iff]
  constructor
  · intro h j hj
    exact h j (Nat.zero_le _) (by omega)
  · intro h j _ hj
    exact h j (by omega)

theorem entry_slot_some_iff (s : Image) (dd : inode_t) (name : List Nat) (k : Nat) :
    entry_slot s dd name = some k ↔
      k < (entry_count dd).toNat ∧
      strcmp_eq (blocks_get_block s dd.block) (k * DIRENT_SIZE) name = true ∧
      ∀ j, j < k → strcmp_eq (blocks_get_block s dd.block) (j * DIRENT_SIZE) name = false := by
  unfold entry_slot
  rw [scan_entries_some_iff]
  constructor
  · rintro ⟨_, h2, h3, h4⟩
    exact ⟨by omega, h3, fun j hj => h4 j (Nat.zero_le _) hj⟩
  · rintro ⟨h2, h3, h4⟩
    exact ⟨Nat.zero_le _, by omega, h3, fun j _ hj => h4 j hj⟩

theorem lookup_neg_of_absent (s : Image) (dd : inode_t) (name : List Nat)
    (h : entry_slot s dd name = none) : ¬ directory_lookup s dd name ≥ 0 := by
  rw [directory_lookup_of_slot_none s dd name h]
  decide

/-- After `directory_put` has added `name`, the scan finds it in the new slot. -/
theorem put_slot (s : Image) (dnum : Int) (name : List Nat) (inum : Int)
    (h0 : 0 ≤ (get_inode s dnum).size)
    (hroom : (get_inode s dnum).size + DIRENT_SIZE ≤ (BLOCK_SIZE : Int))
    (habs : entry_slot s (get_inode s dnum) name = none)
    (hlen : name.length < DIR_NAME_LENGTH) :
    entry_slot (directory_put s dnum name inum).2
        (get_inode (directory_put s dnum name inum).2 dnum) name
      = some (entry_count (get_inode s dnum)).toNat := by
  obtain ⟨hd, hb⟩ := put_ok_dir s dnum name inum (lookup_neg_of_absent _ _ _ habs) hlen
  rw [entry_slot_some_iff, hd]
  simp only
  rw [hb, entry_count_put _ h0 hroom]
  refine ⟨by omega, put_slot_new _ _ _ _ hlen, ?_⟩
  intro j hj
  rw [put_slot_before _ _ _ _ _ _ hj
    (by rw [dir_name_length_eq] at hlen; rw [dirent_size_eq]; omega)]
  exact (entry_slot_none_iff s _ name).mp habs j hj

theorem put_lookup_new (s : Image) (dnum : Int) (name : List Nat) (inum : Int)
    (h0 : 0 ≤ (get_inode s dnum).size)
    (hroom : (get_inode s dnum).size + DIRENT_SIZE ≤ (BLOCK_SIZE : Int))
    (habs : entry_slot s (get_inode s dnum) name = none)
    (hlen : name.length < DIR_NAME_LENGTH)
    (hi0 : -2147483648 ≤ inum) (hi1 : inum < 2147483648) :
    directory_lookup (directory_put s dnum name inum).2
        (get_inode (directory_put s dnum name inum).2 dnum) name = inum := by
  rw [directory_lookup_of_slot_some _ _ _ _ (put_slot s dnum name inum h0 hroom habs hlen)]
  obtain ⟨hd, hb⟩ := put_ok_dir s dnum name inum (lookup_neg_of_absent _ _ _ habs) hlen
  rw [hd]
  simp only
  rw [hb]
  exact put_inum_new _ _ _ _ hi0 hi1

theorem slot_lt_count (s : Image) (dd : inode_t) (name : List Nat) (i : Nat)
    (h : entry_slot s dd name = some i) : i < (entry_count dd).toNat :=
  ((entry_slot_some_iff s dd name i).mp h).1

/-- After `directory_delete` has removed the entry in slot `i`, the directory
as a scan sees it: one entry fewer, slot `i` holding what the last slot held,
every other slot as before. -/
theorem delete_view (s : Image) (dnum : Int) (name : List Nat) (i : Nat)
    (h0 : 0 ≤ (get_inode s dnum).size)
    (h1 : (get_inode s dnum).size ≤ (MAX_FILE_SIZE : Int))
    (hslot : entry_slot s (get_inode s dnum) name = some i) :
    (entry_count (get_inode (directory_delete s dnum name).2 dnum)).toNat + 1
      = (entry_count (get_inode s dnum)).toNat ∧
    (∀ (other : List Nat) (j : Nat), other.length < DIRENT_SIZE → j ≠ i →
      strcmp_eq (blocks_get_block (directory_delete s dnum name).2
          (get_inode (directory_delete s dnum name).2 dnum).block) (j * DIRENT_SIZE) other
        = strcmp_eq (blocks_get_block s (get_inode s dnum).block) (j * DIRENT_SIZE) other) ∧
    (∀ (other : List Nat), other.length < DIRENT_SIZE →
      strcmp_eq (blocks_get_block (directory_delete s dnum name).2
          (get_inode (directory_delete s dnum name).2 dnum).block) (i * DIRENT_SIZE) other
        = strcmp_eq (blocks_get_block s (get_inode s dnum).block)
            (((entry_count (get_inode s dnum)).toNat - 1) * DIRENT_SIZE) other) ∧
    (∀ (j : Nat), j ≠ i →
      entry_inum (blocks_get_block (directory_delete s dnum name).2
          (get_inode (directory_delete s dnum name).2 dnum).block) j
        = entry_inum (blocks_get_block s (get_inode s dnum).block) j) ∧
    entry_inum (blocks_get_block (directory_delete s dnum name).2
          (get_inode (directory_delete s dnum name).2 dnum).block) i
        = entry_inum (blocks_get_block s (get_inode s dnum).block)
            ((entry_count (get_inode s dnum)).toNat - 1) := by
  obtain ⟨hd, hb⟩ := delete_some_dir s dnum name i hslot
  have hc := slot_lt_count _ _ _ _ hslot
  obtain ⟨c1, c2, _⟩ := entry_count_delete (get_inode s dnum) h0 h1 (by omega)
  have hlast : (entry_count (get_inode s dnum) - 1).toNat
      = (entry_count (get_inode s dnum)).toNat - 1 := by omega
  have hblk : (get_inode (directory_delete s dnum name).2 dnum).block
      = (get_inode s dnum).block := by rw [hd]
  rw [hblk, hb, hlast]
  refine ⟨?_, ?_, ?_, ?_, ?_⟩
  · rw [hd]; exact c1
  · intro other j ho hj
    exact delete_slot_other _ _ _ _ _ hj ho
  · intro other ho
    exact delete_slot_moved _ _ _ _ ho
  · intro j hj
    exact delete_inum_other _ _ _ _ hj
  · exact delete_inum_moved _ _ _

/-- After `directory_put` has added an entry, the directory as a scan sees
it: one entry more, the old slots as before. -/
theorem put_view (s : Image) (dnum : Int) (name : List Nat) (inum : Int)
    (h0 : 0 ≤ (get_inode s dnum).size)
    (hroom : (get_inode s dnum).size + DIRENT_SIZE ≤ (BLOCK_SIZE : Int))
    (habs : entry_slot s (get_inode s dnum) name = none)
    (hlen : name.length < DIR_NAME_LENGTH) :
    (get_inode (directory_put s dnum name inum).2 dnum).size
      = (get_inode s dnum).size + DIRENT_SIZE ∧
    (entry_count (get_inode (directory_put s dnum name inum).2 dnum)).toNat
      = (entry_count (get_inode s dnum)).toNat + 1 ∧
    (∀ (other : List Nat) (j : Nat), other.length < DIRENT_SIZE →
      j < (entry_count (get_inode s dnum)).toNat →
      strcmp_eq (blocks_get_block (directory_put s dnum name inum).2
          (get_inode (directory_put s dnum name inum).2 dnum).block) (j * DIRENT_SIZE) other
        = strcmp_eq (blocks_get_block s (get_inode s dnum).block) (j * DIRENT_SIZE) other) ∧
    strcmp_eq (blocks_get_block (directory_put s dnum name inum).2
          (get_inode (directory_put s dnum name inum).2 dnum).block)
        ((entry_count (get_inode s dnum)).toNat * DIRENT_SIZE) name = true ∧
    (∀ (j : Nat), j < (entry_count (get_inode s dnum)).toNat →
      entry_inum (blocks_get_block (directory_put s dnum name inum).2
          (get_inode (directory_put s dnum name inum).2 dnum).block) j
        = entry_inum (blocks_get_block s (get_inode s dnum).block) j) := by
  obtain ⟨hd, hb⟩ := put_ok_dir s dnum name inum (lookup_neg_of_absent _ _ _ habs) hlen
  have hblk : (get_inode (directory_put s dnum name inum).2 dnum).block
      = (get_inode s dnum).block := by rw [hd]
  rw [hblk, hb]
  refine ⟨by rw [hd], ?_, ?_, put_slot_new _ _ _ _ hlen, ?_⟩
  · rw [hd]; exact entry_count_put _ h0 hroom
  · intro other j ho hj
    exact put_slot_before _ _ _ _ _ _ hj ho
  · intro j hj
    exact put_inum_before _ _ _ _ _ hj

/-- After the entry in slot `i` has been removed, a name that no other live
slot held is no longer found. -/
theorem delete_slot_gone (s : Image) (dnum : Int) (name : List Nat) (i : Nat)
    (h0 : 0 ≤ (get_inode s dnum).size)
    (h1 : (get_inode s dnum).size ≤ (MAX_FILE_SIZE : Int))
    (hslot : entry_slot s (get_inode s dnum) name = some i)
    (hlen : name.length < DIRENT_SIZE)
    (hother : ∀ j, j < (entry_count (get_inode s dnum)).toNat → j ≠ i →
      strcmp_eq (blocks_get_block s (get_inode s dnum).block) (j * DIRENT_SIZE) name = false) :
    entry_slot (directory_delete s dnum name).2
      (get_inode (directory_delete s dnum name).2 dnum) name = none := by
  obtain ⟨v1, v2, v3, _, _⟩ := delete_view s dnum name i h0 h1 hslot
  rw [entry_slot_none_iff]
  intro j hj
  by_cases hji : j = i
  · subst hji
    rw [v3 name hlen]
    exact hother _ (by omega) (by omega)
  · rw [v2 name j hlen hji]
    exact hother j (by omega) hji

theorem bool_eq_false_of_ne_true (b : Bool) (h : ¬ b = true) : b = false := by
  cases b
  · rfl
  · exact absurd rfl h

/-- The swap-remove of `directory_delete` keeps the lookup of every other name
when no name is held by two live entries. -/
theorem delete_lookup_other (s : Image) (dnum : Int) (name other : List Nat) (i : Nat)
    (h0 : 0 ≤ (get_inode s dnum).size)
    (h1 : (get_inode s dnum).size ≤ (MAX_FILE_SIZE : Int))
    (huniq : names_unique s (get_inode s dnum))
    (hslot : entry_slot s (get_inode s dnum) name = some i)
    (hz : 0 ∉ name) (hzo : 0 ∉ other) (hne : other ≠ name)
    (hlo : other.length < DIR_NAME_LENGTH) :
    directory_lookup (directory_delete s dnum name).2
        (get_inode (directory_delete s dnum name).2 dnum) other
      = directory_lookup s (get_inode s dnum) other := by
  obtain ⟨v1, v2, v3, v4, v5⟩ := delete_view s dnum name i h0 h1 hslot
  obtain ⟨s1, s2, s3⟩ := (entry_slot_some_iff _ _ _ _).mp hslot
  have hlo2 : other.length < DIRENT_SIZE := by
    rw [dir_name_length_eq] at hlo; rw [dirent_size_eq]; omega
  cases ho : entry_slot s (get_inode s dnum) other with
  | none =>
    have hn := (entry_slot_none_iff _ _ _).mp ho
    rw [directory_lookup_of_slot_none _ _ _ ho]
    apply directory_lookup_of_slot_none
    rw [entry_slot_none_iff]
    intro j hj
    by_cases hji : j = i
    · subst hji
      rw [v3 other hlo2]
      exact hn _ (by omega)
    · rw [v2 other j hlo2 hji]
      exact hn j (by omega)
  | some j =>
    obtain ⟨o1, o2, o3⟩ := (entry_slot_some_iff _ _ _ _).mp ho
    have hji : j ≠ i := by
      intro hji
      subst hji
      exact hne (strcmp_eq_unique _ _ _ _ hzo hz o2 s2)
    rw [directory_lookup_of_slot_some _ _ _ _ ho]
    by_cases hjl : j = (entry_count (get_inode s dnum)).toNat - 1
    · have hnew : entry_slot (directory_delete s dnum name).2
          (get_inode (directory_delete s dnum name).2 dnum) other = some i := by
        rw [entry_slot_some_iff]
        refine ⟨by omega, ?_, ?_⟩
        · rw [v3 other hlo2, ← hjl]
          exact o2
        · intro k hk
          rw [v2 other k hlo2 (by omega)]
          exact o3 k (by omega)
      rw [directory_lookup_of_slot_some _ _ _ _ hnew, v5, ← hjl]
    · have hnew : entry_slot (directory_delete s dnum name).2
          (get_inode (directory_delete s dnum name).2 dnum) other = some j := by
        rw [entry_slot_some_iff]
        refine ⟨by omega, ?_, ?_⟩
        · rw [v2 other j hlo2 hji]
          exact o2
        · intro k hk
          by_cases hki : k = i
          · subst hki
            rw [v3 other hlo2]
            apply bool_eq_false_of_ne_true
            intro hm
            exact hjl (huniq other j _ hzo hlo o1 (by omega) o2 hm)
          · rw [v2 other k hlo2 hki]
            exact o3 k hk
      rw [directory_lookup_of_slot_some _ _ _ _ hnew, v4 j hji]

/-- C8, as stated, fails on a directory whose entry for the name holds a
negative index: in `image_neg` the root has the live entry `a` with index -2,
and `directory_put(root, "a", 1)` returns 0 and appends a second entry `a`
(the size goes from 52 to 104) instead of returning `-EEXIST`. -/
theorem C8_counterexample :
    entry_slot image_neg (get_inode image_neg 0) (cstr "a") = some 0 ∧
    (get_inode image_neg 0).size = 52 ∧
    (directory_put image_neg 0 (cstr "a") 1).1 = 0 ∧
    (get_inode (directory_put image_neg 0 (cstr "a") 1).2 0).size = 104 := by
  decide

/-- C8, amended: `directory_put(dd, name, inum)` returns `-EEXIST` when the
first live entry of `dd` named `name` holds a non-negative inode index; when no
live entry is named `name` it returns `-ENAMETOOLONG` exactly when
`strlen(name) >= DIR_NAME_LENGTH` and 0 otherwise; on either failure the image,
and with it `dd.size` and every entry, is unchanged. -/
theorem C8_put_rejects_bad_names (s : Image) (dnum : Int) (name : List Nat) (inum : Int) :
    (∀ i, entry_slot s (get_inode s dnum) name = some i →
      0 ≤ entry_inum (blocks_get_block s (get_inode s dnum).block) i →
      directory_put s dnum name inum = (-EEXIST, s)) ∧
    (entry_slot s (get_inode s dnum) name = none →
      ((directory_put s dnum name inum).1 = -ENAMETOOLONG ↔ name.length ≥ DIR_NAME_LENGTH) ∧
      (name.length ≥ DIR_NAME_LENGTH → directory_put s dnum name inum = (-ENAMETOOLONG, s)) ∧
      (name.length < DIR_NAME_LENGTH → (directory_put s dnum name inum).1 = 0)) := by
  refine ⟨?_, ?_⟩
  · intro i hi hnn
    apply directory_put_exists
    rw [directory_lookup_of_slot_some _ _ _ _ hi]
    exact hnn
  · intro habs
    have hneg := lookup_neg_of_absent _ _ _ habs
    refine ⟨?_, ?_, ?_⟩
    · constructor
      · intro h
        by_contra hl
        rw [directory_put_ok s dnum name inum hneg (by omega)] at h
        have h2 : (0 : Int) = -ENAMETOOLONG := h
        exact absurd h2 (by decide)
      · intro hl
        rw [directory_put_too_long s dnum name inum hneg hl]
    · intro hl
      exact directory_put_too_long s dnum name inum hneg hl
    · intro hl
      rw [directory_put_ok s dnum name inum hneg hl]

/-- C8, amended, on the image with `/f`: the name `f` is refused as existing, a
name of `DIR_NAME_LENGTH` letters as too long, and one of `DIR_NAME_LENGTH - 1`
letters is accepted. -/
theorem C8_put_rejects_bad_names_witness :
    directory_put image_f 0 (cstr "f") 7 = (-EEXIST, image_f) ∧
    directory_put image_f 0 (long_name 48) 7 = (-ENAMETOOLONG, image_f) ∧
    (directory_put image_f 0 (long_name 47) 7).1 = 0 :=
  ⟨(C8_put_rejects_bad_names image_f 0 (cstr "f") 7).1 0 (by decide) (by decide),
   ((C8_put_rejects_bad_names image_f 0 (long_name 48) 7).2 (by decide)).2.1 (by decide),
   ((C8_put_rejects_bad_names image_f 0 (long_name 47) 7).2 (by decide)).2.2 (by decide)⟩

theorem strrchr_some (l : List Nat) (c k : Nat) (h : strrchr l c = some k) :
    k < l.length ∧ l = l.take k ++ c :: l.drop (k + 1) ∧ c ∉ l.drop (k + 1) := by
  induction l generalizing k with
  | nil => unfold strrchr at h; exact Option.noConfusion h
  | cons x xs ih =>
    unfold strrchr at h
    cases hs : strrchr xs c with
    | some k' =>
      rw [hs] at h
      simp only [Option.some.injEq] at h
      subst h
      obtain ⟨h1, h2, h3⟩ := ih k' hs
      refine ⟨by simp only [List.length_cons]; omega, ?_, ?_⟩
      · rw [List.take_succ_cons, List.drop_succ_cons, List.cons_append, ← h2]
      · rw [List.drop_succ_cons]; exact h3
    | none =>
      rw [hs] at h
      simp only at h
      by_cases hx : x = c
      · rw [if_pos hx] at h
        simp only [Option.some.injEq] at h
        subst h
        subst hx
        refine ⟨by simp, by simp, ?_⟩
        simp only [zero_add, List.drop_succ_cons, List.drop_zero]
        clear ih
        induction xs with
        | nil => exact List.not_mem_nil _
        | cons y ys ih2 =>
          unfold strrchr at hs
          cases hy : strrchr ys x with
          | some k2 => rw [hy] at hs; exact Option.noConfusion hs
          | none =>
            rw [hy] at hs
            simp only at hs
            by_cases hyx : y = x
            · rw [if_pos hyx] at hs; exact Option.noConfusion hs
            · intro hm
              rcases List.mem_cons.mp hm with h4 | h4
              · exact hyx h4.symm
              · exact ih2 hy h4
      · rw [if_neg hx] at h
        exact Option.noConfusion h

theorem split_slash_nil : split_slash [] = [[]] := rfl

theorem split_slash_no_slash (b : List Nat) (h : 47 ∉ b) : split_slash b = [b] := by
  induction b with
  | nil => rfl
  | cons c cs ih =>
    have hc : c ≠ 47 := fun hc => h (by rw [hc]; exact List.mem_cons_self _ _)
    rw [split_slash_cons_other c cs hc, ih (fun hm => h (List.mem_cons_of_mem _ hm))]
    rfl

theorem split_slash_append (a b : List Nat) :
    split_slash (a ++ 47 :: b) = split_slash a ++ split_slash b := by
  induction a with
  | nil =>
    rw [List.nil_append, split_slash_cons_slash, split_slash_nil]
    rfl
  | cons c cs ih =>
    rw [List.cons_append]
    by_cases hc : c = 47
    · subst hc
      rw [split_slash_cons_slash, split_slash_cons_slash, ih]
      rfl
    · rw [split_slash_cons_other c _ hc, split_slash_cons_other c cs hc, ih]
      have hne := split_slash_ne_nil cs
      cases hsp : split_slash cs with
      | nil => exact absurd hsp hne
      | cons h t => rfl

theorem trim_last_append_single (L : List (List Nat)) (x : List Nat) (hx : x ≠ []) :
    trim_last (L ++ [x]) = L ++ [x] := by
  induction L with
  | nil => exact trim_last_single x hx
  | cons a L ih =>
    rw [List.cons_append, trim_last_cons _ _ (by simp), ih]

theorem trim_last_split (l : List Nat) (h1 : l ≠ []) (h2 : l.getLast? ≠ some 47) :
    trim_last (split_slash l) = split_slash l := by
  induction l with
  | nil => exact absurd rfl h1
  | cons c cs ih =>
    by_cases hcs : cs = []
    · subst hcs
      have hc : c ≠ 47 := by
        intro hc
        apply h2
        rw [hc]
        rfl
      rw [split_slash_cons_other c [] hc, split_slash_nil]
      exact trim_last_single _ (by simp)
    · have h3 : cs.getLast? ≠ some 47 := by
        intro h3
        apply h2
        cases cs with
        | nil => exact absurd rfl hcs
        | cons y ys =>
          rw [List.getLast?_cons_cons]
          exact h3
      have ih2 := ih hcs h3
      by_cases hc : c = 47
      · subst hc
        rw [split_slash_cons_slash, trim_last_cons _ _ (split_slash_ne_nil cs), ih2]
      · rw [split_slash_cons_other c cs hc]
        have hne := split_slash_ne_nil cs
        cases hsp : split_slash cs with
        | nil => exact absurd hsp hne
        | cons h t =>
          rw [hsp] at ih2
          cases t with
          | nil => exact trim_last_single _ (by simp)
          | cons y rest =>
            rw [trim_last_cons _ _ (by simp)] at ih2
            simp only [List.headD_cons, List.tail_cons]
            rw [trim_last_cons _ _ (by simp)]
            have : trim_last (y :: rest) = y :: rest := by
              injection ih2
            rw [this]

theorem code_segments_nil : code_segments [] = [] := rfl

theorem code_segments_cons_slash (rest : List Nat) :
    code_segments (47 :: rest) = trim_last (split_slash rest) := rfl

theorem code_segments_cons_other (c : Nat) (rest : List Nat) (h : c ≠ 47) :
    code_segments (c :: rest) = trim_last (split_slash (c :: rest)) := by
  unfold code_segments
  split
  · rename_i heq
    injection heq with h1 h2
    exact absurd h1 h
  · rfl

/-- The segments of `dir ++ "/" ++ name` are those of `dir` followed by
`name`, when `name` is not empty and has no `'/'` and `dir` does not end in
`'/'`. -/
theorem code_segments_append (dir name : List Nat) (hn : name ≠ []) (hs : 47 ∉ name)
    (hd : dir.getLast? ≠ some 47) :
    code_segments (dir ++ 47 :: name) = code_segments dir ++ [name] := by
  cases dir with
  | nil =>
    rw [List.nil_append, code_segments_cons_slash, split_slash_no_slash name hs,
      trim_last_single name hn, code_segments_nil]
    rfl
  | cons c rest =>
    by_cases hc : c = 47
    · subst hc
      have hrest : rest ≠ [] := by
        intro hr
        subst hr
        exact hd rfl
      have hlast : rest.getLast? ≠ some 47 := by
        intro hl
        apply hd
        cases rest with
        | nil => exact absurd rfl hrest
        | cons y ys =>
          rw [List.getLast?_cons_cons]
          exact hl
      rw [List.cons_append, code_segments_cons_slash, code_segments_cons_slash,
        split_slash_append, split_slash_no_slash name hs, trim_last_append_single _ _ hn,
        trim_last_split rest hrest hlast]
    · rw [List.cons_append, code_segments_cons_other c _ hc, code_segments_cons_other c _ hc,
        ← List.cons_append, split_slash_append, split_slash_no_slash name hs,
        trim_last_append_single _ _ hn, trim_last_split (c :: rest) (by simp) hd]

theorem walk_checked_nil (s : Image) (i : Int) : walk_checked s i [] = i := rfl

theorem walk_checked_cons (s : Image) (i : Int) (seg : List Nat) (segs : List (List Nat)) :
    walk_checked s i (seg :: segs) =
      if seg.length ≥ 256 then -1
      else if directory_lookup s (get_inode s i) seg = -1 then -1
      else walk_checked s (directory_lookup s (get_inode s i) seg) segs := by
  conv_lhs => unfold walk_checked

theorem walk_checked_append (s : Image) (i : Int) (A B : List (List Nat))
    (h : walk_checked s i A ≠ -1) :
    walk_checked s i (A ++ B) = walk_checked s (walk_checked s i A) B := by
  induction A generalizing i with
  | nil => rfl
  | cons seg segs ih =>
    rw [List.cons_append, walk_checked_cons]
    rw [walk_checked_cons] at h ⊢
    by_cases h1 : seg.length ≥ 256
    · rw [if_pos h1] at h
      exact absurd rfl h
    · simp only [if_neg h1] at h ⊢
      by_cases h2 : directory_lookup s (get_inode s i) seg = -1
      · rw [if_pos h2] at h
        exact absurd rfl h
      · simp only [if_neg h2] at h ⊢
        exact ih _ h

/-- Resolution of `dir ++ "/" ++ name` is resolution of `dir` followed by one
lookup of `name`. -/
theorem find_path_append (s : Image) (dir name : List Nat) (hn : name ≠ []) (hs : 47 ∉ name)
    (hd : dir.getLast? ≠ some 47) (hl : name.length < 256)
    (hp : find_path s dir ≠ -1) :
    find_path s (dir ++ 47 :: name) =
      directory_lookup s (get_inode s (find_path s dir)) name := by
  have hdir : dir ≠ [47] := by
    intro h
    subst h
    exact hd rfl
  have hpath : dir ++ 47 :: name ≠ [47] := by
    intro h
    have := congrArg List.length h
    simp only [List.length_append, List.length_cons, List.length_nil] at this
    have : name.length = 0 := by omega
    exact hn (List.length_eq_zero.mp this)
  rw [find_path_eq_walk s dir, if_neg hdir] at hp
  rw [find_path_eq_walk s (dir ++ 47 :: name), if_neg hpath, find_path_eq_walk s dir,
    if_neg hdir, code_segments_append dir name hn hs hd, walk_checked_append _ _ _ _ hp,
    walk_checked_cons, if_neg (by omega), walk_checked_nil]
  split
  · rename_i h
    exact h.symm
  · rfl

theorem path_split (path : List Nat) (hn : base_name path ≠ []) :
    path = get_directory_from_path path ++ 47 :: base_name path ∧ 47 ∉ base_name path := by
  unfold base_name get_directory_from_path at *
  cases hk : strrchr path 47 with
  | none =>
    rw [hk] at hn
    exact absurd rfl hn
  | some k =>
    obtain ⟨_, h2, h3⟩ := strrchr_some path 47 k hk
    exact ⟨h2, h3⟩

/-! ### What `directory_put` leaves alone -/

theorem directory_put_bitmaps (s : Image) (d : Int) (name : List Nat) (inum : Int) :
    (directory_put s d name inum).2.block_bitmap = s.block_bitmap ∧
    (directory_put s d name inum).2.inode_bitmap = s.inode_bitmap := by
  unfold directory_put
  simp only
  split
  · exact ⟨rfl, rfl⟩
  · split
    · exact ⟨rfl, rfl⟩
    · exact ⟨rfl, rfl⟩

theorem directory_put_inodes_other (s : Image) (d : Int) (name : List Nat) (inum : Int) (j : Int)
    (h : j ≠ d) : (directory_put s d name inum).2.inodes j = s.inodes j := by
  unfold directory_put
  simp only
  split
  · rfl
  · split
    · rfl
    · simp only [set_block_inodes]
      exact set_inode_inodes_other _ _ _ _ h

theorem directory_put_block_field (s : Image) (d : Int) (name : List Nat) (inum : Int) (j : Int) :
    ((directory_put s d name inum).2.inodes j).block = (s.inodes j).block ∧
    ((directory_put s d name inum).2.inodes j).refs = (s.inodes j).refs := by
  unfold directory_put
  simp only
  split
  · exact ⟨rfl, rfl⟩
  · split
    · exact ⟨rfl, rfl⟩
    · simp only [set_block_inodes]
      by_cases h : j = d
      · subst h
        rw [set_inode_inodes_same]
        exact ⟨rfl, rfl⟩
      · rw [set_inode_inodes_other _ _ _ _ h]
        exact ⟨rfl, rfl⟩

theorem directory_put_blocks_other (s : Image) (d : Int) (name : List Nat) (inum : Int) (b : Int)
    (h : b ≠ (get_inode s d).block) : (directory_put s d name inum).2.blocks b = s.blocks b := by
  unfold directory_put
  simp only
  split
  · rfl
  · split
    · rfl
    · rw [set_block_blocks_other _ _ _ _ h]
      rfl

theorem directory_delete_bitmaps (s : Image) (d : Int) (name : List Nat) :
    (directory_delete s d name).2.block_bitmap = s.block_bitmap ∧
    (directory_delete s d name).2.inode_bitmap = s.inode_bitmap := by
  unfold directory_delete
  simp only
  split
  · exact ⟨rfl, rfl⟩
  · exact ⟨rfl, rfl⟩

theorem alloc_inode_ok (s : Image)
    (h : ∃ i, i < INODE_COUNT ∧ bitmap_get s.inode_bitmap i = 0) :
    ∃ k : Nat, k < INODE_COUNT ∧ bitmap_get s.inode_bitmap k = 0 ∧
      alloc_inode s = ((k : Int), { s with inode_bitmap := bitmap_put s.inode_bitmap k 1 }) := by
  unfold alloc_inode
  rw [alloc_inode_scan_eq_first_free]
  cases hf : first_free s.inode_bitmap INODE_COUNT 0 with
  | none =>
    obtain ⟨i, hi1, hi2⟩ := h
    exact absurd hi2 (first_free_none _ _ _ hf i (Nat.zero_le _) (by omega))
  | some k =>
    obtain ⟨_, h2, h3, _⟩ := first_free_some _ _ _ _ hf
    exact ⟨k, by omega, h3, rfl⟩

theorem mknod_unfold (s : Image) (path : List Nat) (mode : Nat) (k b : Nat)
    (hA : alloc_inode s = ((k : Int), { s with inode_bitmap := bitmap_put s.inode_bitmap k 1 }))
    (hB : (alloc_block (alloc_inode s).2) =
      ((b : Int), { (alloc_inode s).2 with
        block_bitmap := bitmap_put (alloc_inode s).2.block_bitmap b 1 })) :
    nufs_mknod s path mode =
      if find_path (mknod_image s k b mode) (get_directory_from_path path) = -1
      then (-ENOENT, mknod_image s k b mode)
      else directory_put (mknod_image s k b mode)
        (find_path (mknod_image s k b mode) (get_directory_from_path path)) (base_name path) k := by
  unfold nufs_mknod
  simp only
  rw [hB, hA]
  simp only
  have hk : ¬ ((k : Int) = -1 ∨ (b : Int) = -1) := by omega
  rw [if_neg hk]
  rfl

theorem mknod_image_inodes_other (s : Image) (k b mode : Nat) (j : Int) (h : j ≠ (k : Int)) :
    (mknod_image s k b mode).inodes j = s.inodes j := by
  unfold mknod_image
  exact set_inode_inodes_other _ _ _ _ h

theorem mknod_image_inodes_same (s : Image) (k b mode : Nat) :
    (mknod_image s k b mode).inodes (k : Int) =
      { refs := 1, mode := to_int mode, size := 0, block := b } := by
  unfold mknod_image
  exact set_inode_inodes_same _ _ _

theorem mknod_image_blocks (s : Image) (k b mode : Nat) :
    (mknod_image s k b mode).blocks = s.blocks := rfl

theorem mknod_image_block_bitmap (s : Image) (k b mode : Nat) :
    (mknod_image s k b mode).block_bitmap = bitmap_put s.block_bitmap b 1 := rfl

theorem mknod_image_inode_bitmap (s : Image) (k b mode : Nat) :
    (mknod_image s k b mode).inode_bitmap = bitmap_put s.inode_bitmap k 1 := rfl

theorem alloc_inode_block_bitmap (s : Image) :
    (alloc_inode s).2.block_bitmap = s.block_bitmap := by
  unfold alloc_inode
  split
  · rfl
  · rfl

theorem entry_slot_congr (s s' : Image) (dd dd' : inode_t) (name : List Nat)
    (h1 : dd' = dd) (h2 : s'.blocks dd.block = s.blocks dd.block) :
    entry_slot s' dd' name = entry_slot s dd name := by
  unfold entry_slot blocks_get_block
  rw [h1, h2]

/-- What `nufs_mknod` does when both allocations succeed, the parent resolves
apart from the new inode, has room and does not hold the name. -/
theorem mknod_post (s : Image) (path : List Nat) (mode : Nat)
    (hino : ∃ i, i < INODE_COUNT ∧ bitmap_get s.inode_bitmap i = 0)
    (hblk : 0 < free_blocks s)
    (hn : base_name path ≠ [])
    (hlen : (base_name path).length < DIR_NAME_LENGTH)
    (hd : (get_directory_from_path path).getLast? ≠ some 47)
    (hp : find_path s (get_directory_from_path path) ≠ -1)
    (hpi : find_path s (get_directory_from_path path) ≠ (alloc_inode s).1)
    (hfr : ∀ d ∈ path_dirs s (get_directory_from_path path),
      d ≠ (alloc_inode s).1 ∧ d ≠ find_path s (get_directory_from_path path) ∧
      (get_inode s d).block
        ≠ (get_inode s (find_path s (get_directory_from_path path))).block)
    (h0 : 0 ≤ (get_inode s (find_path s (get_directory_from_path path))).size)
    (hroom : (get_inode s (find_path s (get_directory_from_path path))).size + DIRENT_SIZE
      ≤ (BLOCK_SIZE : Int))
    (habs : entry_slot s (get_inode s (find_path s (get_directory_from_path path)))
      (base_name path) = none) :
    (nufs_mknod s path mode).1 = 0 ∧
    find_path (nufs_mknod s path mode).2 path = (alloc_inode s).1 ∧
    0 ≤ (alloc_inode s).1 ∧
    bitmap_get s.inode_bitmap (alloc_inode s).1.toNat = 0 ∧
    bitmap_get (nufs_mknod s path mode).2.inode_bitmap (alloc_inode s).1.toNat = 1 ∧
    get_inode (nufs_mknod s path mode).2 (alloc_inode s).1 =
      { refs := 1, mode := to_int mode, size := 0, block := (alloc_block (alloc_inode s).2).1 } ∧
    0 ≤ (alloc_block (alloc_inode s).2).1 ∧
    bitmap_get s.block_bitmap (alloc_block (alloc_inode s).2).1.toNat = 0 ∧
    bitmap_get (nufs_mknod s path mode).2.block_bitmap
      (alloc_block (alloc_inode s).2).1.toNat = 1 := by
  obtain ⟨k, hk1, hk0, hA⟩ := alloc_inode_ok s hino
  obtain ⟨b, hb1, hb0, hB, _⟩ := alloc_block_ok (alloc_inode s).2
    (by rw [free_blocks_congr s _ (alloc_inode_block_bitmap s)]; exact hblk)
  rw [alloc_inode_block_bitmap] at hb0
  have hun := mknod_unfold s path mode k b hA hB
  have hi : (alloc_inode s).1 = (k : Int) := by rw [hA]
  have hbl : (alloc_block (alloc_inode s).2).1 = (b : Int) := by rw [hB]
  rw [hi] at hpi hfr
  rw [hi, hbl]
  generalize hdir : get_directory_from_path path = dir at *
  generalize hname : base_name path = name at *
  generalize hpp : find_path s dir = p at *
  -- resolution of the parent in the image with the new record
  have hc1 := find_path_congr s (mknod_image s k b mode) dir (fun d hd2 =>
    ⟨mknod_image_inodes_other s k b mode d (hfr d hd2).1, rfl⟩)
  rw [hpp] at hc1
  have hgp : get_inode (mknod_image s k b mode) p = get_inode s p :=
    mknod_image_inodes_other s k b mode p hpi
  have hslot : entry_slot (mknod_image s k b mode) (get_inode (mknod_image s k b mode) p) name
      = none := by
    rw [entry_slot_congr s (mknod_image s k b mode) (get_inode s p) _ name hgp rfl]
    exact habs
  rw [hc1.1, if_neg hp] at hun
  rw [hun]
  have hneg := lookup_neg_of_absent _ _ _ hslot
  -- resolution of the parent after the entry has been put
  have hc2 := find_path_congr (mknod_image s k b mode)
    (directory_put (mknod_image s k b mode) p name k).2 dir (fun d hd2 => by
      rw [hc1.2] at hd2
      obtain ⟨f1, f2, f3⟩ := hfr d hd2
      refine ⟨directory_put_inodes_other _ _ _ _ _ f2, ?_⟩
      apply directory_put_blocks_other
      rw [hgp]
      show ((mknod_image s k b mode).inodes d).block ≠ _
      rw [mknod_image_inodes_other s k b mode d f1]
      exact f3)
  rw [hc1.1] at hc2
  obtain ⟨hsplit, hslash⟩ := path_split path (by rw [hname]; exact hn)
  rw [hdir, hname] at hsplit
  rw [hname] at hslash
  have hbm := directory_put_bitmaps (mknod_image s k b mode) p name k
  refine ⟨?_, ?_, Int.ofNat_nonneg _, ?_, ?_, ?_, Int.ofNat_nonneg _, ?_, ?_⟩
  · rw [directory_put_ok _ p name k hneg hlen]
  · have hfp : find_path (directory_put (mknod_image s k b mode) p name k).2 path
        = directory_lookup (directory_put (mknod_image s k b mode) p name k).2
            (get_inode (directory_put (mknod_image s k b mode) p name k).2 p) name := by
      have := find_path_append (directory_put (mknod_image s k b mode) p name k).2 dir name
        hn hslash hd (by rw [dir_name_length_eq] at hlen; omega) (by rw [hc2.1]; exact hp)
      rw [hc2.1, ← hsplit] at this
      exact this
    rw [hfp]
    exact put_lookup_new _ p name k (by rw [hgp]; exact h0) (by rw [hgp]; exact hroom) hslot hlen
      (by omega) (by unfold INODE_COUNT INODES_PER_BLOCK NUM_BLOCKS BLOCK_SIZE INODE_SIZE at hk1;
                      omega)
  · rw [Int.toNat_ofNat]; exact hk0
  · rw [hbm.2, Int.toNat_ofNat, mknod_image_inode_bitmap, bitmap_get_put_same]
    rfl
  · unfold get_inode
    rw [directory_put_inodes_other _ _ _ _ _ (Ne.symm hpi), mknod_image_inodes_same]
  · rw [Int.toNat_ofNat]; exact hb0
  · rw [hbm.1, Int.toNat_ofNat, mknod_image_block_bitmap, bitmap_get_put_same]
    rfl

theorem bitmap_put_cancel (bm : Mem) (i : Nat) (h : bitmap_get bm i = 0) :
    bitmap_put (bitmap_put bm i 1) i 0 = bm := by
  funext k
  unfold bitmap_get at h
  have hj : i % 8 < 8 := Nat.mod_lt _ (by decide)
  have hs := bit_set_same (bm (i / 8)) (i % 8) hj
  rw [if_pos h] at hs
  unfold bitmap_put
  by_cases hk : k = i / 8
  · subst hk
    simp only [if_true, if_pos h]
    have h10 : (1 : Nat) ≠ 0 := by decide
    simp only [if_neg h10, if_pos h]
    have hne : ¬ ((bm (i / 8) + 2 ^ (i % 8)) / 2 ^ (i % 8) % 2 = 0) := by omega
    rw [if_neg hne]
    omega
  · simp only [if_neg hk]

theorem alloc_inode_cases (s : Image) :
    alloc_inode s = (-1, s) ∨
    ∃ k : Nat, k < INODE_COUNT ∧ bitmap_get s.inode_bitmap k = 0 ∧
      alloc_inode s = ((k : Int), { s with inode_bitmap := bitmap_put s.inode_bitmap k 1 }) := by
  unfold alloc_inode
  rw [alloc_inode_scan_eq_first_free]
  cases hf : first_free s.inode_bitmap INODE_COUNT 0 with
  | none => exact Or.inl rfl
  | some k =>
    obtain ⟨_, h2, h3, _⟩ := first_free_some _ _ _ _ hf
    exact Or.inr ⟨k, by omega, h3, rfl⟩

theorem alloc_block_cases (s : Image) :
    alloc_block s = (-1, s) ∨
    ∃ k : Nat, k < BLOCK_COUNT ∧ bitmap_get s.block_bitmap k = 0 ∧
      alloc_block s = ((k : Int), { s with block_bitmap := bitmap_put s.block_bitmap k 1 }) := by
  unfold alloc_block
  cases hf : first_free s.block_bitmap BLOCK_COUNT 0 with
  | none => exact Or.inl rfl
  | some k =>
    obtain ⟨_, h2, h3, _⟩ := first_free_some _ _ _ _ hf
    exact Or.inr ⟨k, by omega, h3, rfl⟩

/-- A `nufs_mknod` that returns 0 has allocated an inode `k` and a block `b`,
both free before, and its image is that of a `directory_put` on `mknod_image`. -/
theorem mknod_zero (s : Image) (path : List Nat) (mode : Nat)
    (h : (nufs_mknod s path mode).1 = 0) :
    ∃ k b : Nat, bitmap_get s.inode_bitmap k = 0 ∧ bitmap_get s.block_bitmap b = 0 ∧
      (alloc_inode s).1 = (k : Int) ∧
      (alloc_block (alloc_inode s).2).1 = (b : Int) ∧
      ∃ p : Int, (nufs_mknod s path mode).2 =
        (directory_put (mknod_image s k b mode) p (base_name path) k).2 := by
  rcases alloc_inode_cases s with hA | ⟨k, _, hk0, hA⟩
  · exfalso
    unfold nufs_mknod at h
    simp only at h
    rw [hA] at h
    simp only [true_or, if_true] at h
    exact absurd h (by decide)
  · rcases alloc_block_cases (alloc_inode s).2 with hB | ⟨b, _, hb0, hB⟩
    · exfalso
      unfold nufs_mknod at h
      simp only at h
      rw [hB] at h
      simp only [or_true, if_true] at h
      exact absurd h (by decide)
    · rw [alloc_inode_block_bitmap] at hb0
      have hun := mknod_unfold s path mode k b hA hB
      refine ⟨k, b, hk0, hb0, by rw [hA], by rw [hB], ?_⟩
      by_cases hp : find_path (mknod_image s k b mode) (get_directory_from_path path) = -1
      · exfalso
        rw [hun, if_pos hp] at h
        have h2 : (-ENOENT : Int) = 0 := h
        exact absurd h2 (by decide)
      · rw [hun, if_neg hp]
        exact ⟨_, rfl⟩

/-- C12, as stated, fails on the fresh image with the path `"//b"`:
`mknod("//b")` returns 0 (it puts `b` into the root), the following
`unlink("//b")` returns `-ENOENT` because `"//b"` does not resolve, and bit 1
of the inode bitmap and bit 4 of the block bitmap, clear before the mknod,
stay set. -/
theorem C12_counterexample :
    (nufs_mknod fresh_image (cstr "//b") 33188).1 = 0 ∧
    (nufs_unlink (nufs_mknod fresh_image (cstr "//b") 33188).2 (cstr "//b")).1 = -ENOENT ∧
    bitmap_get fresh_image.inode_bitmap 1 = 0 ∧
    bitmap_get
      (nufs_unlink (nufs_mknod fresh_image (cstr "//b") 33188).2 (cstr "//b")).2.inode_bitmap 1
      = 1 ∧
    bitmap_get fresh_image.block_bitmap 4 = 0 ∧
    bitmap_get
      (nufs_unlink (nufs_mknod fresh_image (cstr "//b") 33188).2 (cstr "//b")).2.block_bitmap 4
      = 1 := by
  decide

/-- C12, amended: for every state and every absolute path that fits the
buffer `parent_path` on which `nufs_mknod(path, mode)` returns 0 and `path`
then resolves to the inode the mknod allocated, with the record of that inode
in the inode table and the directories involved (the one that receives the
entry, the root, those searched on the way) with their records in the table
and data blocks as their blocks (`mknod_unlink_in_layout`), the immediately
following `nufs_unlink(path)` returns 0 and leaves the block bitmap and the
inode bitmap equal, byte for byte, to what they were before the mknod. -/
theorem C12_mknod_unlink_bitmaps (s : Image) (path : List Nat) (mode : Nat)
    (_hlay : mknod_unlink_in_layout s path mode)
    (hret : (nufs_mknod s path mode).1 = 0)
    (hres : find_path (nufs_mknod s path mode).2 path = (alloc_inode s).1) :
    (nufs_unlink (nufs_mknod s path mode).2 path).1 = 0 ∧
    (nufs_unlink (nufs_mknod s path mode).2 path).2.block_bitmap = s.block_bitmap ∧
    (nufs_unlink (nufs_mknod s path mode).2 path).2.inode_bitmap = s.inode_bitmap := by
  obtain ⟨k, b, hk0, hb0, hi, _, p, hs⟩ := mknod_zero s path mode hret
  rw [hi] at hres
  generalize nufs_mknod s path mode = r at *
  have hbm := directory_put_bitmaps (mknod_image s k b mode) p (base_name path) k
  have hblock : (get_inode r.2 (k : Int)).block = (b : Int) := by
    unfold get_inode
    rw [hs, (directory_put_block_field _ _ _ _ _).1, mknod_image_inodes_same]
  have hne : ¬ ((k : Int) = -1) := by omega
  unfold nufs_unlink
  simp only
  rw [hres, if_neg hne, hblock]
  refine ⟨rfl, ?_, ?_⟩
  · rw [(directory_delete_bitmaps _ _ _).1]
    show bitmap_put r.2.block_bitmap (b : Int).toNat 0 = s.block_bitmap
    rw [hs, hbm.1, mknod_image_block_bitmap, Int.toNat_ofNat]
    exact bitmap_put_cancel _ _ hb0
  · rw [(directory_delete_bitmaps _ _ _).2]
    show bitmap_put r.2.inode_bitmap (k : Int).toNat 0 = s.inode_bitmap
    rw [hs, hbm.2, mknod_image_inode_bitmap, Int.toNat_ofNat]
    exact bitmap_put_cancel _ _ hk0

/-- C12, amended, on the image with `/f`: `mknod("/g")`, then `unlink("/g")`. -/
theorem C12_mknod_unlink_bitmaps_witness :
    (nufs_unlink (nufs_mknod image_f (cstr "/g") 33188).2 (cstr "/g")).1 = 0 ∧
    (nufs_unlink (nufs_mknod image_f (cstr "/g") 33188).2 (cstr "/g")).2.block_bitmap
      = image_f.block_bitmap ∧
    (nufs_unlink (nufs_mknod image_f (cstr "/g") 33188).2 (cstr "/g")).2.inode_bitmap
      = image_f.inode_bitmap :=
  C12_mknod_unlink_bitmaps image_f (cstr "/g") 33188 (by decide) (by decide) (by decide)

/-! ### Lookups of other names, and uniqueness, across `directory_put` and `directory_delete` -/

theorem put_lookup_other (s : Image) (dnum : Int) (name other : List Nat) (inum : Int)
    (h0 : 0 ≤ (get_inode s dnum).size)
    (hroom : (get_inode s dnum).size + DIRENT_SIZE ≤ (BLOCK_SIZE : Int))
    (habs : entry_slot s (get_inode s dnum) name = none)
    (hlen : name.length < DIR_NAME_LENGTH)
    (hz : 0 ∉ name) (hzo : 0 ∉ other) (hne : other ≠ name)
    (hlo : other.length < DIR_NAME_LENGTH) :
    directory_lookup (directory_put s dnum name inum).2
        (get_inode (directory_put s dnum name inum).2 dnum) other
      = directory_lookup s (get_inode s dnum) other := by
  obtain ⟨p1, p2, p3, p4, p5⟩ := put_view s dnum name inum h0 hroom habs hlen
  have hlo2 : other.length < DIRENT_SIZE := by
    rw [dir_name_length_eq] at hlo; rw [dirent_size_eq]; omega
  cases ho : entry_slot s (get_inode s dnum) other with
  | none =>
    have hn := (entry_slot_none_iff _ _ _).mp ho
    rw [directory_lookup_of_slot_none _ _ _ ho]
    apply directory_lookup_of_slot_none
    rw [entry_slot_none_iff]
    intro j hj
    rw [p2] at hj
    by_cases hjc : j = (entry_count (get_inode s dnum)).toNat
    · subst hjc
      apply bool_eq_false_of_ne_true
      intro hm
      exact hne (strcmp_eq_unique _ _ _ _ hzo hz hm p4)
    · rw [p3 other j hlo2 (by omega)]
      exact hn j (by omega)
  | some j =>
    obtain ⟨o1, o2, o3⟩ := (entry_slot_some_iff _ _ _ _).mp ho
    have hnew : entry_slot (directory_put s dnum name inum).2
        (get_inode (directory_put s dnum name inum).2 dnum) other = some j := by
      rw [entry_slot_some_iff]
      refine ⟨by omega, ?_, ?_⟩
      · rw [p3 other j hlo2 o1]; exact o2
      · intro k hk
        rw [p3 other k hlo2 (by omega)]
        exact o3 k hk
    rw [directory_lookup_of_slot_some _ _ _ _ hnew, directory_lookup_of_slot_some _ _ _ _ ho,
      p5 j o1]

theorem unique_put (s : Image) (dnum : Int) (name : List Nat) (inum : Int)
    (h0 : 0 ≤ (get_inode s dnum).size)
    (hroom : (get_inode s dnum).size + DIRENT_SIZE ≤ (BLOCK_SIZE : Int))
    (habs : entry_slot s (get_inode s dnum) name = none)
    (hlen : name.length < DIR_NAME_LENGTH) (hz : 0 ∉ name)
    (huniq : names_unique s (get_inode s dnum)) :
    names_unique (directory_put s dnum name inum).2
      (get_inode (directory_put s dnum name inum).2 dnum) := by
  obtain ⟨p1, p2, p3, p4, p5⟩ := put_view s dnum name inum h0 hroom habs hlen
  have hn := (entry_slot_none_iff _ _ _).mp habs
  intro o j k hzo hlo hj hk mj mk
  rw [p2] at hj hk
  have hlo2 : o.length < DIRENT_SIZE := by
    rw [dir_name_length_eq] at hlo; rw [dirent_size_eq]; omega
  by_cases hjc : j = (entry_count (get_inode s dnum)).toNat
  · by_cases hkc : k = (entry_count (get_inode s dnum)).toNat
    · rw [hjc, hkc]
    · exfalso
      subst hjc
      have hon : o = name := strcmp_eq_unique _ _ _ _ hzo hz mj p4
      subst hon
      rw [p3 o k hlo2 (by omega)] at mk
      rw [hn k (by omega)] at mk
      exact Bool.noConfusion mk
  · by_cases hkc : k = (entry_count (get_inode s dnum)).toNat
    · exfalso
      subst hkc
      have hon : o = name := strcmp_eq_unique _ _ _ _ hzo hz mk p4
      subst hon
      rw [p3 o j hlo2 (by omega)] at mj
      rw [hn j (by omega)] at mj
      exact Bool.noConfusion mj
    · rw [p3 o j hlo2 (by omega)] at mj
      rw [p3 o k hlo2 (by omega)] at mk
      exact huniq o j k hzo hlo (by omega) (by omega) mj mk

theorem unique_delete (s : Image) (dnum : Int) (name : List Nat)
    (h0 : 0 ≤ (get_inode s dnum).size)
    (h1 : (get_inode s dnum).size ≤ (MAX_FILE_SIZE : Int))
    (huniq : names_unique s (get_inode s dnum)) :
    names_unique (directory_delete s dnum name).2
      (get_inode (directory_delete s dnum name).2 dnum) := by
  cases hslot : entry_slot s (get_inode s dnum) name with
  | none =>
    rw [directory_delete_none s dnum name hslot]
    exact huniq
  | some i =>
    obtain ⟨v1, v2, v3, _, _⟩ := delete_view s dnum name i h0 h1 hslot
    have hi := slot_lt_count _ _ _ _ hslot
    intro o j k hzo hlo hj hk mj mk
    have hlo2 : o.length < DIRENT_SIZE := by
      rw [dir_name_length_eq] at hlo; rw [dirent_size_eq]; omega
    by_cases hji : j = i
    · by_cases hki : k = i
      · rw [hji, hki]
      · exfalso
        subst hji
        rw [v3 o hlo2] at mj
        rw [v2 o k hlo2 hki] at mk
        have := huniq o _ k hzo hlo (by omega) (by omega) mj mk
        omega
    · by_cases hki : k = i
      · exfalso
        subst hki
        rw [v3 o hlo2] at mk
        rw [v2 o j hlo2 hji] at mj
        have := huniq o _ j hzo hlo (by omega) (by omega) mk mj
        omega
      · rw [v2 o j hlo2 hji] at mj
        rw [v2 o k hlo2 hki] at mk
        exact huniq o j k hzo hlo (by omega) (by omega) mj mk

/-- After `directory_delete(dd, name)` in a directory without repeated names,
`name` is no longer found, whether or not it was there. -/
theorem delete_lookup_gone (s : Image) (dnum : Int) (name : List Nat)
    (h0 : 0 ≤ (get_inode s dnum).size)
    (h1 : (get_inode s dnum).size ≤ (MAX_FILE_SIZE : Int))
    (huniq : names_unique s (get_inode s dnum))
    (hz : 0 ∉ name) (hlen : name.length < DIR_NAME_LENGTH) :
    entry_slot (directory_delete s dnum name).2
      (get_inode (directory_delete s dnum name).2 dnum) name = none := by
  cases hslot : entry_slot s (get_inode s dnum) name with
  | none =>
    rw [directory_delete_none s dnum name hslot]
    exact hslot
  | some i =>
    obtain ⟨s1, s2, _⟩ := (entry_slot_some_iff _ _ _ _).mp hslot
    apply delete_slot_gone s dnum name i h0 h1 hslot
      (by rw [dir_name_length_eq] at hlen; rw [dirent_size_eq]; omega)
    intro j hj hji
    apply bool_eq_false_of_ne_true
    intro hm
    exact hji (huniq name j i hz hlen hj s1 hm s2)

theorem directory_delete_inodes_other (s : Image) (d : Int) (name : List Nat) (j : Int)
    (h : j ≠ d) : (directory_delete s d name).2.inodes j = s.inodes j := by
  unfold directory_delete
  simp only
  split
  · exact set_inode_inodes_other _ _ _ _ h
  · rfl

theorem directory_delete_blocks_other (s : Image) (d : Int) (name : List Nat) (b : Int)
    (h : b ≠ (get_inode s d).block) : (directory_delete s d name).2.blocks b = s.blocks b := by
  unfold directory_delete
  simp only
  split
  · simp only [set_inode_blocks]
    exact set_block_blocks_other _ _ _ _ h
  · rfl

theorem delete_size (s : Image) (dnum : Int) (name : List Nat) :
    (get_inode (directory_delete s dnum name).2 dnum).size = (get_inode s dnum).size ∨
    (get_inode (directory_delete s dnum name).2 dnum).size
      = (get_inode s dnum).size - DIRENT_SIZE ∧ (DIRENT_SIZE : Int) ≤ (get_inode s dnum).size ∨
    ¬ (0 ≤ (get_inode s dnum).size ∧ (get_inode s dnum).size ≤ (MAX_FILE_SIZE : Int)) := by
  by_cases hw : 0 ≤ (get_inode s dnum).size ∧ (get_inode s dnum).size ≤ (MAX_FILE_SIZE : Int)
  · cases hslot : entry_slot s (get_inode s dnum) name with
    | none =>
      left
      rw [directory_delete_none s dnum name hslot]
    | some i =>
      right; left
      have hi := slot_lt_count _ _ _ _ hslot
      obtain ⟨_, _, c3⟩ := entry_count_delete (get_inode s dnum) hw.1 hw.2 (by omega)
      exact ⟨by rw [(delete_some_dir s dnum name i hslot).1], c3⟩
  · right; right; exact hw

theorem directory_delete_block_field (s : Image) (d : Int) (name : List Nat) (j : Int) :
    ((directory_delete s d name).2.inodes j).block = (s.inodes j).block := by
  unfold directory_delete
  simp only
  split
  · by_cases h : j = d
    · subst h
      rw [set_inode_inodes_same]
      rfl
    · rw [set_inode_inodes_other _ _ _ _ h]
      rfl
  · rfl

theorem block_le_max : (BLOCK_SIZE : Int) ≤ (MAX_FILE_SIZE : Int) := by decide

/-- The step of a `directory_delete` in a well-formed directory. -/
theorem dirstep_delete (s : Image) (dnum : Int) (name : List Nat)
    (h0 : 0 ≤ (get_inode s dnum).size)
    (h1 : (get_inode s dnum).size ≤ (BLOCK_SIZE : Int))
    (huniq : names_unique s (get_inode s dnum))
    (hz : 0 ∉ name) (hlen : name.length < DIR_NAME_LENGTH) :
    DirStep s (directory_delete s dnum name).2 dnum name (-1) := by
  have hM : (get_inode s dnum).size ≤ (MAX_FILE_SIZE : Int) := le_trans h1 block_le_max
  have hsz := delete_size s dnum name
  have hD : (DIRENT_SIZE : Int) = 52 := rfl
  refine ⟨directory_delete_block_field s dnum name, ?_, ?_, ?_, ?_, ?_,
    unique_delete s dnum name h0 hM huniq⟩
  · intro d hd hb
    exact ⟨directory_delete_inodes_other s dnum name d hd,
      directory_delete_blocks_other s dnum name _ hb⟩
  · exact directory_lookup_of_slot_none _ _ _
      (delete_lookup_gone s dnum name h0 hM huniq hz hlen)
  · intro o hzo hlo hne
    cases hslot : entry_slot s (get_inode s dnum) name with
    | none => rw [directory_delete_none s dnum name hslot]
    | some i => exact delete_lookup_other s dnum name o i h0 hM huniq hslot hz hzo hne hlo
  · rcases hsz with h | ⟨h, h52⟩ | h
    · rw [h]; exact h0
    · rw [h]; omega
    · exact absurd ⟨h0, hM⟩ h
  · rcases hsz with h | ⟨h, h52⟩ | h
    · rw [h]; exact h1
    · rw [h, hD]; omega
    · exact absurd ⟨h0, hM⟩ h

/-- The step of a `directory_put` of an absent name in a well-formed directory
with room. -/
theorem dirstep_put (s : Image) (dnum : Int) (name : List Nat) (inum : Int)
    (h0 : 0 ≤ (get_inode s dnum).size)
    (hroom : (get_inode s dnum).size + DIRENT_SIZE ≤ (BLOCK_SIZE : Int))
    (huniq : names_unique s (get_inode s dnum))
    (habs : entry_slot s (get_inode s dnum) name = none)
    (hz : 0 ∉ name) (hlen : name.length < DIR_NAME_LENGTH)
    (hi0 : -2147483648 ≤ inum) (hi1 : inum < 2147483648) :
    DirStep s (directory_put s dnum name inum).2 dnum name inum := by
  obtain ⟨p1, _, _, _, _⟩ := put_view s dnum name inum h0 hroom habs hlen
  have hD : (DIRENT_SIZE : Int) = 52 := rfl
  refine ⟨fun j => (directory_put_block_field s dnum name inum j).1, ?_,
    put_lookup_new s dnum name inum h0 hroom habs hlen hi0 hi1, ?_, ?_, ?_,
    unique_put s dnum name inum h0 hroom habs hlen hz huniq⟩
  · intro d hd hb
    exact ⟨directory_put_inodes_other s dnum name inum d hd,
      directory_put_blocks_other s dnum name inum _ hb⟩
  · intro o hzo hlo hne
    exact put_lookup_other s dnum name o inum h0 hroom habs hlen hz hzo hne hlo
  · rw [p1, hD]; omega
  · rw [p1]; exact hroom

/-- A lookup apart from the changed entry gives the same result after the step. -/
theorem dirstep_lookup (s s' : Image) (dnum : Int) (name : List Nat) (r : Int)
    (F : DirStep s s' dnum name r) (st : Int × List Nat) (h : step_apart s dnum name st) :
    directory_lookup s' (get_inode s' st.1) st.2 = directory_lookup s (get_inode s st.1) st.2 := by
  obtain ⟨a1, a2, a3, a4⟩ := h
  by_cases hd : st.1 = dnum
  · rw [hd]
    exact F.other_name st.2 a3 a4 (a1 hd)
  · obtain ⟨f1, f2⟩ := F.other_dir st.1 hd (a2 hd)
    exact directory_lookup_congr s s' st.1 st.2 f1 f2

theorem names_unique_congr (s s' : Image) (d : Int)
    (h1 : s'.inodes d = s.inodes d)
    (h2 : s'.blocks (s.inodes d).block = s.blocks (s.inodes d).block)
    (hu : names_unique s (get_inode s d)) : names_unique s' (get_inode s' d) := by
  unfold names_unique get_inode blocks_get_block at *
  rw [h1, h2]
  exact hu

/-- The step keeps the apartness of every lookup from any entry. -/
theorem step_apart_step (s s' : Image) (dnum : Int) (name : List Nat) (r : Int)
    (F : DirStep s s' dnum name r) (E : Int) (n : List Nat) (st : Int × List Nat)
    (h : step_apart s E n st) : step_apart s' E n st := by
  obtain ⟨a1, a2, a3, a4⟩ := h
  refine ⟨a1, ?_, a3, a4⟩
  intro hne
  unfold get_inode
  rw [F.block_field, F.block_field]
  exact a2 hne

theorem walk_steps_cons (s : Image) (i : Int) (seg : List Nat) (segs : List (List Nat)) :
    walk_steps s i (seg :: segs) =
      if seg.length ≥ 256 then []
      else (i, seg) ::
        (if directory_lookup s (get_inode s i) seg = -1 then []
         else walk_steps s (directory_lookup s (get_inode s i) seg) segs) := by
  conv_lhs => unfold walk_steps

theorem walk_congr (s s' : Image) (i : Int) (segs : List (List Nat))
    (h : ∀ st ∈ walk_steps s i segs,
      directory_lookup s' (get_inode s' st.1) st.2 = directory_lookup s (get_inode s st.1) st.2) :
    walk_checked s' i segs = walk_checked s i segs ∧ walk_steps s' i segs = walk_steps s i segs := by
  induction segs generalizing i with
  | nil => exact ⟨rfl, rfl⟩
  | cons seg segs ih =>
    rw [walk_steps_cons] at h
    rw [walk_checked_cons, walk_checked_cons, walk_steps_cons, walk_steps_cons]
    by_cases h1 : seg.length ≥ 256
    · simp only [if_pos h1, and_self]
    · simp only [if_neg h1] at h ⊢
      have hl := h (i, seg) (List.mem_cons_self _ _)
      simp only at hl
      rw [hl]
      by_cases h2 : directory_lookup s (get_inode s i) seg = -1
      · simp only [if_pos h2, and_self]
      · simp only [if_neg h2] at h ⊢
        have := ih _ (fun st hst => h st (List.mem_cons_of_mem _ hst))
        rw [this.1, this.2]
        exact ⟨rfl, rfl⟩

theorem find_path_steps_congr (s s' : Image) (path : List Nat)
    (h : ∀ st ∈ path_steps s path,
      directory_lookup s' (get_inode s' st.1) st.2 = directory_lookup s (get_inode s st.1) st.2) :
    find_path s' path = find_path s path ∧ path_steps s' path = path_steps s path := by
  unfold path_steps at *
  rw [find_path_eq_walk, find_path_eq_walk]
  by_cases hp : path = [47]
  · simp only [if_pos hp, and_self]
  · simp only [if_neg hp] at h ⊢
    exact walk_congr s s' 0 _ h

/-- A step apart from every lookup of a path keeps its resolution. -/
theorem find_path_dirstep (s s' : Image) (dnum : Int) (name : List Nat) (r : Int)
    (F : DirStep s s' dnum name r) (path : List Nat)
    (h : ∀ st ∈ path_steps s path, step_apart s dnum name st) :
    find_path s' path = find_path s path ∧ path_steps s' path = path_steps s path :=
  find_path_steps_congr s s' path (fun st hst => dirstep_lookup s s' dnum name r F st (h st hst))

theorem to_int_range (x : Int) : -2147483648 ≤ to_int x ∧ to_int x < 2147483648 := by
  unfold to_int
  omega

theorem directory_lookup_range (s : Image) (dd : inode_t) (name : List Nat) :
    -2147483648 ≤ directory_lookup s dd name ∧ directory_lookup s dd name < 2147483648 := by
  unfold directory_lookup
  simp only
  split
  · unfold entry_inum read_int
    exact to_int_range _
  · exact ⟨by decide, by decide⟩

theorem walk_prefix (s : Image) (i : Int) (A B : List (List Nat)) (hi : i ≠ -1)
    (h : walk_checked s i (A ++ B) ≠ -1) : walk_checked s i A ≠ -1 := by
  induction A generalizing i with
  | nil => exact hi
  | cons seg segs ih =>
    rw [List.cons_append, walk_checked_cons] at h
    rw [walk_checked_cons]
    by_cases h1 : seg.length ≥ 256
    · rw [if_pos h1] at h
      exact absurd rfl h
    · simp only [if_neg h1] at h ⊢
      by_cases h2 : directory_lookup s (get_inode s i) seg = -1
      · rw [if_pos h2] at h
        exact absurd rfl h
      · simp only [if_neg h2] at h ⊢
        exact ih _ h2 h

/-- A path of the form `dir ++ "/" ++ name` that resolves has a `dir` that resolves. -/
theorem find_path_parent (s : Image) (dir name : List Nat) (hn : name ≠ []) (hs : 47 ∉ name)
    (hd : dir.getLast? ≠ some 47) (h : find_path s (dir ++ 47 :: name) ≠ -1) :
    find_path s dir ≠ -1 := by
  have hdir : dir ≠ [47] := by
    intro h
    subst h
    exact hd rfl
  have hpath : dir ++ 47 :: name ≠ [47] := by
    intro h
    have := congrArg List.length h
    simp only [List.length_append, List.length_cons, List.length_nil] at this
    have : name.length = 0 := by omega
    exact hn (List.length_eq_zero.mp this)
  rw [find_path_eq_walk, if_neg hpath, code_segments_append dir name hn hs hd] at h
  rw [find_path_eq_walk, if_neg hdir]
  exact walk_prefix s 0 _ _ (by decide) h

theorem dirstep_refl (s : Image) (dnum : Int) (name : List Nat)
    (h0 : 0 ≤ (get_inode s dnum).size)
    (h1 : (get_inode s dnum).size ≤ (BLOCK_SIZE : Int))
    (huniq : names_unique s (get_inode s dnum))
    (habs : entry_slot s (get_inode s dnum) name = none) :
    DirStep s s dnum name (-1) :=
  ⟨fun _ => rfl, fun _ _ _ => ⟨rfl, rfl⟩, directory_lookup_of_slot_none _ _ _ habs,
    fun _ _ _ _ => rfl, h0, h1, huniq⟩

theorem slot_some_of_lookup (s : Image) (dd : inode_t) (name : List Nat)
    (h : directory_lookup s dd name ≠ -1) : ∃ i, entry_slot s dd name = some i := by
  cases hs : entry_slot s dd name with
  | none => exact absurd (directory_lookup_of_slot_none s dd name hs) h
  | some i => exact ⟨i, rfl⟩

/-- The first step of `nufs_rename`: the destination name is removed from its
parent when the destination exists. Afterwards the name is absent and the
parent has room for it. -/
theorem rename_first (s : Image) (pd : Int) (new : List Nat)
    (h0 : 0 ≤ (get_inode s pd).size)
    (h1 : (get_inode s pd).size ≤ (BLOCK_SIZE : Int))
    (huniq : names_unique s (get_inode s pd))
    (hz : 0 ∉ new) (hlen : new.length < DIR_NAME_LENGTH)
    (hroom : 0 ≤ directory_lookup s (get_inode s pd) new ∨
      (get_inode s pd).size + DIRENT_SIZE ≤ (BLOCK_SIZE : Int))
    (hnn : entry_slot s (get_inode s pd) new = none ∨
      0 ≤ directory_lookup s (get_inode s pd) new) :
    DirStep s
      (if directory_lookup s (get_inode s pd) new ≥ 0 then (directory_delete s pd new).2 else s)
      pd new (-1) ∧
    entry_slot
      (if directory_lookup s (get_inode s pd) new ≥ 0 then (directory_delete s pd new).2 else s)
      (get_inode
        (if directory_lookup s (get_inode s pd) new ≥ 0 then (directory_delete s pd new).2 else s)
        pd) new = none ∧
    (get_inode
        (if directory_lookup s (get_inode s pd) new ≥ 0 then (directory_delete s pd new).2 else s)
        pd).size + DIRENT_SIZE ≤ (BLOCK_SIZE : Int) := by
  have hM : (get_inode s pd).size ≤ (MAX_FILE_SIZE : Int) := le_trans h1 block_le_max
  by_cases hex : directory_lookup s (get_inode s pd) new ≥ 0
  · simp only [if_pos hex]
    refine ⟨dirstep_delete s pd new h0 h1 huniq hz hlen,
      delete_lookup_gone s pd new h0 hM huniq hz hlen, ?_⟩
    obtain ⟨j, hj⟩ := slot_some_of_lookup s (get_inode s pd) new (by omega)
    rw [(delete_some_dir s pd new j hj).1]
    simp only
    omega
  · simp only [if_neg hex]
    have habs : entry_slot s (get_inode s pd) new = none := by
      rcases hnn with h | h
      · exact h
      · exact absurd h hex
    refine ⟨dirstep_refl s pd new h0 h1 huniq habs, habs, ?_⟩
    rcases hroom with h | h
    · exact absurd h hex
    · exact h

theorem rename_unfold (s : Image) (src dst : List Nat) (h : find_path s src ≠ -1) :
    nufs_rename s src dst =
      (0, (directory_delete
        (directory_put
          (if find_path s dst ≥ 0 then
            (directory_delete s (find_path s (get_directory_from_path dst)) (base_name dst)).2
           else s)
          (find_path s (get_directory_from_path dst)) (base_name dst) (find_path s src)).2
        (find_path s (get_directory_from_path src)) (base_name src)).2) := by
  unfold nufs_rename
  simp only
  rw [if_neg h]

/-- Three steps in a row, each apart from every lookup of `path`, keep its
resolution. -/
theorem find_path_three_steps (s s1 s2 s3 : Image) (pd ps : Int) (new old : List Nat)
    (r1 r2 r3 : Int)
    (F1 : DirStep s s1 pd new r1) (F2 : DirStep s1 s2 pd new r2) (F3 : DirStep s2 s3 ps old r3)
    (path : List Nat)
    (h : ∀ st ∈ path_steps s path, step_apart s ps old st ∧ step_apart s pd new st) :
    find_path s3 path = find_path s path := by
  have c1 := find_path_dirstep s s1 pd new r1 F1 path (fun st hst => (h st hst).2)
  have c2 := find_path_dirstep s1 s2 pd new r2 F2 path (fun st hst =>
    step_apart_step s s1 pd new r1 F1 pd new st (h st (by rw [← c1.2]; exact hst)).2)
  have c3 := find_path_dirstep s2 s3 ps old r3 F3 path (fun st hst =>
    step_apart_step s1 s2 pd new r2 F2 ps old st
      (step_apart_step s s1 pd new r1 F1 ps old st
        (h st (by rw [← c1.2, ← c2.2]; exact hst)).1))
  rw [c3.1, c2.1, c1.1]

/-- What `nufs_rename` does between well-formed directories. -/
theorem rename_post (s : Image) (src dst : List Nat)
    (hi : find_path s src ≠ -1)
    (hsn : base_name src ≠ []) (hdn : base_name dst ≠ [])
    (hsd : (get_directory_from_path src).getLast? ≠ some 47)
    (hdd : (get_directory_from_path dst).getLast? ≠ some 47)
    (hzo : 0 ∉ base_name src) (hzn : 0 ∉ base_name dst)
    (hlo : (base_name src).length < DIR_NAME_LENGTH)
    (hln : (base_name dst).length < DIR_NAME_LENGTH)
    (hpd : find_path s (get_directory_from_path dst) ≠ -1)
    (hs0 : 0 ≤ (get_inode s (find_path s (get_directory_from_path src))).size)
    (hs1 : (get_inode s (find_path s (get_directory_from_path src))).size ≤ (BLOCK_SIZE : Int))
    (hsu : names_unique s (get_inode s (find_path s (get_directory_from_path src))))
    (hd0 : 0 ≤ (get_inode s (find_path s (get_directory_from_path dst))).size)
    (hd1 : (get_inode s (find_path s (get_directory_from_path dst))).size ≤ (BLOCK_SIZE : Int))
    (hdu : names_unique s (get_inode s (find_path s (get_directory_from_path dst))))
    (hroom : 0 ≤ find_path s dst ∨
      (get_inode s (find_path s (get_directory_from_path dst))).size + DIRENT_SIZE
        ≤ (BLOCK_SIZE : Int))
    (hnn : entry_slot s (get_inode s (find_path s (get_directory_from_path dst)))
        (base_name dst) = none ∨ 0 ≤ find_path s dst)
    (hdiff : find_path s (get_directory_from_path src) = find_path s (get_directory_from_path dst)
      → base_name src ≠ base_name dst)
    (hblk : find_path s (get_directory_from_path src) ≠ find_path s (get_directory_from_path dst)
      → (get_inode s (find_path s (get_directory_from_path src))).block
        ≠ (get_inode s (find_path s (get_directory_from_path dst))).block)
    (hst : ∀ st ∈ path_steps s (get_directory_from_path src)
        ++ path_steps s (get_directory_from_path dst),
      step_apart s (find_path s (get_directory_from_path src)) (base_name src) st ∧
      step_apart s (find_path s (get_directory_from_path dst)) (base_name dst) st) :
    (nufs_rename s src dst).1 = 0 ∧
    find_path (nufs_rename s src dst).2 src = -1 ∧
    find_path (nufs_rename s src dst).2 dst = find_path s src := by
  obtain ⟨hsplit_s, hslash_s⟩ := path_split src hsn
  obtain ⟨hsplit_d, hslash_d⟩ := path_split dst hdn
  have hun := rename_unfold s src dst hi
  generalize hsdir : get_directory_from_path src = sdir at *
  generalize hold : base_name src = old at *
  generalize hddir : get_directory_from_path dst = ddir at *
  generalize hnew : base_name dst = new at *
  have hlo256 : old.length < 256 := by rw [dir_name_length_eq] at hlo; omega
  have hln256 : new.length < 256 := by rw [dir_name_length_eq] at hln; omega
  have hps : find_path s sdir ≠ -1 :=
    find_path_parent s sdir old hsn hslash_s hsd (by rw [← hsplit_s]; exact hi)
  have hi_eq : find_path s src = directory_lookup s (get_inode s (find_path s sdir)) old := by
    have := find_path_append s sdir old hsn hslash_s hsd hlo256 hps
    rw [← hsplit_s] at this
    exact this
  have hd_eq : find_path s dst = directory_lookup s (get_inode s (find_path s ddir)) new := by
    have := find_path_append s ddir new hdn hslash_d hdd hln256 hpd
    rw [← hsplit_d] at this
    exact this
  generalize hpsv : find_path s sdir = ps at *
  generalize hpdv : find_path s ddir = pd at *
  have hrange := directory_lookup_range s (get_inode s ps) old
  rw [← hi_eq] at hrange
  rw [hd_eq] at hroom hnn hun
  -- first step
  obtain ⟨F1, habs1, hroom1⟩ := rename_first s pd new hd0 hd1 hdu hzn hln hroom hnn
  generalize hs1v : (if directory_lookup s (get_inode s pd) new ≥ 0
    then (directory_delete s pd new).2 else s) = s1 at *
  -- second step
  have F2 := dirstep_put s1 pd new (find_path s src) F1.size_nonneg hroom1 F1.unique habs1
    hzn hln hrange.1 hrange.2
  generalize hs2v : (directory_put s1 pd new (find_path s src)).2 = s2 at *
  -- the source directory before the third step
  have hb2 : ∀ j, (s2.inodes j).block = (s.inodes j).block := fun j => by
    rw [F2.block_field, F1.block_field]
  have wf2 : 0 ≤ (get_inode s2 ps).size ∧ (get_inode s2 ps).size ≤ (BLOCK_SIZE : Int) ∧
      names_unique s2 (get_inode s2 ps) := by
    by_cases hpp : ps = pd
    · rw [hpp]
      exact ⟨F2.size_nonneg, F2.size_le, F2.unique⟩
    · obtain ⟨a1, a2⟩ := F1.other_dir ps hpp (hblk hpp)
      obtain ⟨b1, b2⟩ := F2.other_dir ps hpp (by
        show (s1.inodes ps).block ≠ (s1.inodes pd).block
        rw [F1.block_field, F1.block_field]
        exact hblk hpp)
      have e1 : s2.inodes ps = s.inodes ps := by rw [b1, a1]
      have e2 : s2.blocks (s.inodes ps).block = s.blocks (s.inodes ps).block := by
        rw [a1] at b2
        rw [b2, a2]
      have e3 : get_inode s2 ps = get_inode s ps := e1
      refine ⟨by rw [e3]; exact hs0, by rw [e3]; exact hs1, ?_⟩
      exact names_unique_congr s s2 ps e1 e2 hsu
  have F3 := dirstep_delete s2 ps old wf2.1 wf2.2.1 wf2.2.2 hzo hlo
  generalize hs3v : (directory_delete s2 ps old).2 = s3 at *
  rw [hun]
  -- resolution of both parents after the three steps
  have hsdir3 : find_path s3 sdir = ps := by
    rw [find_path_three_steps s s1 s2 s3 pd ps new old _ _ _ F1 F2 F3 sdir
      (fun st h => hst st (List.mem_append_left _ h))]
    exact hpsv
  have hddir3 : find_path s3 ddir = pd := by
    rw [find_path_three_steps s s1 s2 s3 pd ps new old _ _ _ F1 F2 F3 ddir
      (fun st h => hst st (List.mem_append_right _ h))]
    exact hpdv
  refine ⟨rfl, ?_, ?_⟩
  · show find_path s3 src = -1
    have := find_path_append s3 sdir old hsn hslash_s hsd hlo256 (by rw [hsdir3]; exact hps)
    rw [← hsplit_s, hsdir3] at this
    rw [this]
    exact F3.this_name
  · show find_path s3 dst = find_path s src
    have := find_path_append s3 ddir new hdn hslash_d hdd hln256 (by rw [hddir3]; exact hpd)
    rw [← hsplit_d, hddir3] at this
    rw [this]
    by_cases hpp : ps = pd
    · rw [← hpp, F3.other_name new hzn hln (Ne.symm (hdiff hpp)), hpp]
      exact F2.this_name
    · obtain ⟨c1, c2⟩ := F3.other_dir pd (Ne.symm hpp) (by
        show (s2.inodes pd).block ≠ (s2.inodes ps).block
        rw [hb2, hb2]
        exact Ne.symm (hblk hpp))
      rw [directory_lookup_congr s2 s3 pd new c1 c2]
      exact F2.this_name

/-- C15: `nufs_rename` drops the status of `directory_put`. On the image with
`/f` (inode 1), for `dst` a `'/'` followed by 48 letters, whose parent is the
root, `directory_put` refuses the name with `-ENAMETOOLONG`, the status that
`nufs_mknod` returns for the same path; `rename("/f", dst)` goes on, deletes
the entry of `/f` and returns 0, and afterwards neither `/f` nor `dst`
resolves: the inode has lost its name. -/
theorem C15_rename_drops_put_status :
    find_path image_f (cstr "/f") = 1 ∧
    find_path image_f (get_directory_from_path (47 :: long_name 48)) = 0 ∧
    base_name (47 :: long_name 48) = long_name 48 ∧
    (directory_put image_f 0 (long_name 48) 1).1 = -ENAMETOOLONG ∧
    (nufs_mknod image_f (47 :: long_name 48) 33188).1 = -ENAMETOOLONG ∧
    (nufs_rename image_f (cstr "/f") (47 :: long_name 48)).1 = 0 ∧
    nufs_access (nufs_rename image_f (cstr "/f") (47 :: long_name 48)).2 (cstr "/f") = -ENOENT ∧
    nufs_access (nufs_rename image_f (cstr "/f") (47 :: long_name 48)).2 (47 :: long_name 48)
      = -ENOENT ∧
    find_path (nufs_rename image_f (cstr "/f") (47 :: long_name 48)).2 (47 :: long_name 48)
      = -1 := by
  decide

theorem fileStep_mono (s s2 : Image) (inum : Int) (new_size : Int) (keep keep2 : Nat)
    (F : FileStep s s2 inum new_size keep) (h : keep2 ≤ keep) :
    FileStep s s2 inum new_size keep2 :=
  ⟨F.size_eq, F.ext, F.inodes_other, F.outside, fun k hk => F.bytes k (by omega)⟩

theorem growth_blocks_shrink (size new_size : Nat) (h : new_size ≤ size) :
    growth_blocks size new_size = 0 := by
  unfold growth_blocks
  rw [if_pos (blocks_for_mono _ _ h)]

/-- A `nufs_truncate` on a file with a consistent extent, with enough free
blocks for the growth, returns 0 and changes the extent of the file only; the
bytes below both sizes stay. -/
theorem nufs_truncate_ok (s : Image) (path : List Nat) (n : Int)
    (hres : find_path s path ≠ -1)
    (hext : extent_ok s (get_inode s (find_path s path)))
    (h0 : 0 ≤ n) (hmax : n ≤ (MAX_FILE_SIZE : Int))
    (hfree : growth_blocks (get_inode s (find_path s path)).size.toNat n.toNat ≤ free_blocks s) :
    ∃ s2, nufs_truncate s path n = (0, s2) ∧
      FileStep s s2 (find_path s path) n (min n (get_inode s (find_path s path)).size).toNat := by
  have hto : to_int n = n := to_int_small n h0 hmax
  generalize hinum : find_path s path = inum at *
  unfold nufs_truncate
  simp only
  rw [hinum, if_neg hres, hto]
  by_cases hgt : n > (get_inode s inum).size
  · rw [if_pos hgt]
    obtain ⟨s1, hg, F⟩ := grow_inode_ok s inum n hext hgt hmax hfree
    rw [hg]
    simp only
    have h01 : ¬ ((0 : Int) = -1) := by decide
    rw [if_neg h01]
    refine ⟨_, rfl, fileStep_mono _ _ _ _ _ _ F ?_⟩
    rw [min_eq_right (le_of_lt hgt)]
  · rw [if_neg hgt]
    by_cases hlt : n < (get_inode s inum).size
    · rw [if_pos hlt]
      refine ⟨_, rfl, fileStep_mono _ _ _ _ _ _ (shrink_inode_ok s inum n hext h0 hlt) ?_⟩
      rw [min_eq_left (le_of_lt hlt)]
    · rw [if_neg hlt]
      have heq : n = (get_inode s inum).size := by omega
      refine ⟨_, rfl, fileStep_mono _ _ _ _ _ _
        (grow_noalloc s inum n hext (by omega) hmax ?_) ?_⟩
      · by_cases hd : n ≤ (BLOCK_SIZE : Int)
        · exact Or.inl hd
        · exact Or.inr ⟨by omega, by rw [heq]⟩
      · rw [heq, min_self]

/-- A consistent indirect extent has at most `BLOCK_COUNT` data blocks: its
slots name different blocks of the image. -/
theorem extent_blocks_le (s : Image) (node : inode_t) (hext : extent_ok s node)
    (hind : (BLOCK_SIZE : Int) < node.size) : blocks_for node.size.toNat ≤ BLOCK_COUNT := by
  have h := hext.2.2.2 hind
  have hc := Finset.card_le_card_of_injOn
    (s := Finset.range (blocks_for node.size.toNat)) (t := Finset.range BLOCK_COUNT)
    (fun i => (indirect_slot s node.block i).toNat)
    (by
      intro i hi
      have hi2 := Finset.mem_range.mp hi
      have ha := (h i hi2).1
      unfold allocated at ha
      simp only [Finset.mem_range]
      omega)
    (by
      intro i hi j hj hij
      have hi2 : i < blocks_for node.size.toNat := Finset.mem_range.mp hi
      have hj2 : j < blocks_for node.size.toNat := Finset.mem_range.mp hj
      have hai := (h i hi2).1
      have haj := (h j hj2).1
      unfold allocated at hai haj
      simp only at hij
      have heq : indirect_slot s node.block i = indirect_slot s node.block j := by omega
      by_contra hne
      rcases Nat.lt_or_gt_of_ne hne with hlt | hgt
      · exact (h j hj2).2.2 i hlt heq
      · exact (h i hi2).2.2 j hgt heq.symm)
  simpa using hc

/-- A growth from a consistent extent that the free blocks cover ends within
the largest size the extent map describes. -/
theorem growth_within_max (s : Image) (node : inode_t) (new_size : Nat)
    (hext : extent_ok s node)
    (hfree : growth_blocks node.size.toNat new_size ≤ free_blocks s) :
    new_size ≤ MAX_FILE_SIZE := by
  have hf := free_blocks_le s
  have h0 := hext.1
  have h1 := hext.2.1
  by_cases hind : (BLOCK_SIZE : Int) < node.size
  · have hb := extent_blocks_le s node hext hind
    unfold growth_blocks at hfree
    unfold blocks_for at hfree hb
    unfold MAX_FILE_SIZE BLOCK_SIZE at *
    unfold BLOCK_COUNT at hf hb
    split_ifs at hfree <;> omega
  · unfold growth_blocks at hfree
    unfold blocks_for at hfree
    unfold MAX_FILE_SIZE BLOCK_SIZE at *
    unfold BLOCK_COUNT at hf
    split_ifs at hfree <;> omega

/-- The records inside the inode table are those of the indices 0 to 507. -/
theorem record_in_table_iff (inum : Int) : record_in_table inum ↔ 0 ≤ inum ∧ inum < 508 := by
  unfold record_in_table inode_offset INODE_BITMAP_SIZE INODE_COUNT INODES_PER_BLOCK NUM_BLOCKS
    INODE_SIZE BLOCK_SIZE
  omega

/-- A path of `PATH_BUFFER` bytes or more does not fit the buffers. -/
theorem path_fits_length (path : List Nat) (h : path_fits path) : path.length + 1 ≤ 512 := by
  have := h.2
  unfold PATH_BUFFER at this
  omega

/-- The four records past the table are the first 64 bytes of the block that
follows it: record 508 starts where the `NUM_BLOCKS` blocks end, and the four
of them cover the name buffer of entry 0 of a directory kept in that block
and the first 12 bytes of its entry 1. -/
theorem records_past_table :
    inode_offset 508 = NUM_BLOCKS * BLOCK_SIZE ∧
    inode_offset 511 + INODE_SIZE = NUM_BLOCKS * BLOCK_SIZE + 64 ∧
    DIRENT_SIZE + 12 = 64 := by
  decide

theorem bnum_congr (s s' : Image) (node : inode_t) (j : Int)
    (h : (BLOCK_SIZE : Int) < node.size → s'.blocks node.block = s.blocks node.block) :
    inode_get_bnum s' node j = inode_get_bnum s node j := by
  unfold inode_get_bnum blocks_get_block
  by_cases hd : node.size ≤ (BLOCK_SIZE : Int)
  · simp only [if_pos hd]
  · simp only [if_neg hd]
    rw [h (by omega)]

theorem allocated_congr (s s' : Image) (b : Int) (h : s'.block_bitmap = s.block_bitmap)
    (ha : allocated s b) : allocated s' b := by
  unfold allocated at *
  rw [h]
  exact ha

theorem extent_ok_congr (s s' : Image) (node : inode_t)
    (hbm : s'.block_bitmap = s.block_bitmap)
    (h : (BLOCK_SIZE : Int) < node.size → s'.blocks node.block = s.blocks node.block)
    (hext : extent_ok s node) : extent_ok s' node := by
  obtain ⟨e0, e1, e2, e3⟩ := hext
  refine ⟨e0, e1, allocated_congr s s' _ hbm e2, ?_⟩
  intro hi i hlt
  have hs : ∀ j, indirect_slot s' node.block j = indirect_slot s node.block j :=
    fun j => indirect_slot_congr s s' node.block j (h hi)
  obtain ⟨a1, a2, a3⟩ := e3 hi i hlt
  rw [hs i]
  refine ⟨allocated_congr s s' _ hbm a1, a2, ?_⟩
  intro j hj
  rw [hs j]
  exact a3 j hj

theorem in_extent_congr (s s' : Image) (node : inode_t) (b : Int)
    (h : (BLOCK_SIZE : Int) < node.size → s'.blocks node.block = s.blocks node.block) :
    in_extent s' node b ↔ in_extent s node b := by
  unfold in_extent
  by_cases hi : (BLOCK_SIZE : Int) < node.size
  · have hs : ∀ j, indirect_slot s' node.block j = indirect_slot s node.block j :=
      fun j => indirect_slot_congr s s' node.block j (h hi)
    simp only [hs]
  · simp only [hi, false_and, or_false]

theorem block_index_lt (node : inode_t) (k : Nat) (_ : (BLOCK_SIZE : Int) < node.size)
    (hk : k < node.size.toNat) : k / BLOCK_SIZE < blocks_for node.size.toNat := by
  unfold blocks_for
  simp only [BLOCK_SIZE]
  omega

/-- The data block of a byte of the file is in the extent. -/
theorem bnum_in_extent (s : Image) (node : inode_t) (k : Nat) (h0 : 0 ≤ node.size)
    (hk : k < node.size.toNat) :
    in_extent s node (inode_get_bnum s node ((k / BLOCK_SIZE : Nat) : Int)) := by
  unfold in_extent
  by_cases hd : node.size ≤ (BLOCK_SIZE : Int)
  · left
    have : k / BLOCK_SIZE = 0 := by
      simp only [BLOCK_SIZE] at hd ⊢
      omega
    rw [this]
    exact bnum_direct s node hd
  · right
    have hi : (BLOCK_SIZE : Int) < node.size := by omega
    refine ⟨hi, k / BLOCK_SIZE, block_index_lt node k hi hk, ?_⟩
    rw [bnum_indirect s node hi]

/-- In an indirect file no data block is the indirect block. -/
theorem bnum_ne_block (s : Image) (node : inode_t) (hext : extent_ok s node) (k : Nat)
    (hi : (BLOCK_SIZE : Int) < node.size) (hk : k < node.size.toNat) :
    inode_get_bnum s node ((k / BLOCK_SIZE : Nat) : Int) ≠ node.block := by
  rw [bnum_indirect s node hi]
  exact (hext.2.2.2 hi _ (block_index_lt node k hi hk)).2.1

/-- Two bytes of the file in the same data block are in the same logical block. -/
theorem bnum_inj (s : Image) (node : inode_t) (hext : extent_ok s node) (k1 k2 : Nat)
    (h1 : k1 < node.size.toNat) (h2 : k2 < node.size.toNat)
    (h : inode_get_bnum s node ((k1 / BLOCK_SIZE : Nat) : Int)
      = inode_get_bnum s node ((k2 / BLOCK_SIZE : Nat) : Int)) :
    k1 / BLOCK_SIZE = k2 / BLOCK_SIZE := by
  by_cases hd : node.size ≤ (BLOCK_SIZE : Int)
  · simp only [BLOCK_SIZE] at hd ⊢
    omega
  · have hi : (BLOCK_SIZE : Int) < node.size := by omega
    rw [bnum_indirect s node hi, bnum_indirect s node hi] at h
    have l1 := block_index_lt node k1 hi h1
    have l2 := block_index_lt node k2 hi h2
    rcases Nat.lt_trichotomy (k1 / BLOCK_SIZE) (k2 / BLOCK_SIZE) with hlt | heq | hgt
    · exact absurd h ((hext.2.2.2 hi _ l2).2.2 _ hlt)
    · exact heq
    · exact absurd h.symm ((hext.2.2.2 hi _ l1).2.2 _ hgt)

/-- One turn of the write loop: the bytes `[co, co + amt)` of the file, all in
one block, take the values of `src`; every other byte of the file stays. -/
theorem write_chunk_byte (s : Image) (node : inode_t) (co amt : Nat) (src : Nat → Nat) (k : Nat)
    (hext : extent_ok s node) (hco : co < node.size.toNat) (hk : k < node.size.toNat)
    (hamt : co % BLOCK_SIZE + amt ≤ BLOCK_SIZE) :
    file_byte
      (set_block s (inode_get_bnum s node ((co / BLOCK_SIZE : Nat) : Int))
        (memcpy (blocks_get_block s (inode_get_bnum s node ((co / BLOCK_SIZE : Nat) : Int)))
          (co % BLOCK_SIZE) src amt)) node k
      = if co ≤ k ∧ k < co + amt then src (k - co) else file_byte s node k := by
  have hind : (BLOCK_SIZE : Int) < node.size →
      (set_block s (inode_get_bnum s node ((co / BLOCK_SIZE : Nat) : Int))
        (memcpy (blocks_get_block s (inode_get_bnum s node ((co / BLOCK_SIZE : Nat) : Int)))
          (co % BLOCK_SIZE) src amt)).blocks node.block = s.blocks node.block := by
    intro hi
    exact set_block_blocks_other _ _ _ _ (Ne.symm (bnum_ne_block s node hext co hi hco))
  unfold file_byte blocks_get_block
  unfold blocks_get_block at hind
  rw [bnum_congr s _ node _ hind]
  by_cases hb : inode_get_bnum s node ((k / BLOCK_SIZE : Nat) : Int)
      = inode_get_bnum s node ((co / BLOCK_SIZE : Nat) : Int)
  · have hq := bnum_inj s node hext k co hk hco hb
    rw [hb, set_block_blocks_same]
    simp only [BLOCK_SIZE] at hq hamt ⊢
    by_cases hin : co ≤ k ∧ k < co + amt
    · rw [if_pos hin, memcpy_apply_in _ _ _ _ _ (by omega) (by omega)]
      congr 1
      omega
    · rw [if_neg hin, memcpy_apply_out _ _ _ _ _ (by omega)]
  · rw [set_block_blocks_other _ _ _ _ hb]
    have hin : ¬ (co ≤ k ∧ k < co + amt) := by
      intro hin
      apply hb
      have : k / BLOCK_SIZE = co / BLOCK_SIZE := by
        simp only [BLOCK_SIZE] at hamt ⊢
        omega
      rw [this]
    rw [if_neg hin]

theorem write_loop_zero (inum : Int) (data : List Nat) (fuel : Nat) (s : Image) (co bw : Nat) :
    write_loop inum data fuel s 0 co bw = some (bw, s) := by
  cases fuel with
  | zero => rfl
  | succ n => rfl

theorem write_loop_succ (inum : Int) (data : List Nat) (fuel : Nat) (s : Image)
    (remaining co bw : Nat) (hr : remaining ≠ 0)
    (hne : inode_get_bnum s (get_inode s inum) (to_int ((co / BLOCK_SIZE : Nat) : Int)) ≠ -1) :
    write_loop inum data (fuel + 1) s remaining co bw =
      write_loop inum data fuel
        (set_block s (inode_get_bnum s (get_inode s inum) (to_int ((co / BLOCK_SIZE : Nat) : Int)))
          (memcpy
            (blocks_get_block s
              (inode_get_bnum s (get_inode s inum) (to_int ((co / BLOCK_SIZE : Nat) : Int))))
            (co % BLOCK_SIZE) (fun i => data.getD (bw + i) 0)
            (if remaining < BLOCK_SIZE - co % BLOCK_SIZE then remaining
              else BLOCK_SIZE - co % BLOCK_SIZE)))
        (remaining - (if remaining < BLOCK_SIZE - co % BLOCK_SIZE then remaining
              else BLOCK_SIZE - co % BLOCK_SIZE))
        (co + (if remaining < BLOCK_SIZE - co % BLOCK_SIZE then remaining
              else BLOCK_SIZE - co % BLOCK_SIZE))
        (bw + (if remaining < BLOCK_SIZE - co % BLOCK_SIZE then remaining
              else BLOCK_SIZE - co % BLOCK_SIZE)) := by
  conv_lhs => unfold write_loop
  simp only
  rw [if_neg hr, if_neg hne]

/-- The write loop on a file with a consistent extent, within the size of the
file: it writes every byte, changes blocks of the extent only, never the
indirect block, and leaves the bytes `[co, co + remaining)` of the file equal
to the data. -/
theorem write_loop_ok (inum : Int) (data : List Nat) (fuel : Nat) (s : Image)
    (remaining co bw : Nat) (hfuel : remaining ≤ fuel)
    (hext : extent_ok s (get_inode s inum))
    (hin : co + remaining ≤ (get_inode s inum).size.toNat) :
    ∃ s', write_loop inum data fuel s remaining co bw = some (bw + remaining, s') ∧
      s'.inodes = s.inodes ∧ s'.block_bitmap = s.block_bitmap ∧
      (∀ b, ¬ in_extent s (get_inode s inum) b → s'.blocks b = s.blocks b) ∧
      ((BLOCK_SIZE : Int) < (get_inode s inum).size →
        s'.blocks (get_inode s inum).block = s.blocks (get_inode s inum).block) ∧
      ∀ k, k < (get_inode s inum).size.toNat →
        file_byte s' (get_inode s inum) k =
          if co ≤ k ∧ k < co + remaining then data.getD (bw + (k - co)) 0
          else file_byte s (get_inode s inum) k := by
  induction fuel generalizing s remaining co bw with
  | zero =>
    have hr : remaining = 0 := by omega
    subst hr
    refine ⟨s, write_loop_zero _ _ _ _ _ _, rfl, rfl, fun _ _ => rfl, fun _ => rfl, ?_⟩
    intro k hk
    rw [if_neg (by omega)]
  | succ fuel ih =>
    by_cases hr : remaining = 0
    · subst hr
      refine ⟨s, write_loop_zero _ _ _ _ _ _, rfl, rfl, fun _ _ => rfl, fun _ => rfl, ?_⟩
      intro k hk
      rw [if_neg (by omega)]
    · generalize hnode : get_inode s inum = node at *
      have hsz0 := hext.1
      have hsz1 := hext.2.1
      have hcolt : co < node.size.toNat := by omega
      have hidx : to_int ((co / BLOCK_SIZE : Nat) : Int) = ((co / BLOCK_SIZE : Nat) : Int) := by
        simp only [MAX_FILE_SIZE, BLOCK_SIZE] at hsz1 ⊢
        apply to_int_eq <;> omega
      have hne : inode_get_bnum s node ((co / BLOCK_SIZE : Nat) : Int) ≠ -1 :=
        extent_bnum_ne s node hext co (by omega)
      rw [write_loop_succ inum data fuel s remaining co bw hr (by rw [hnode, hidx]; exact hne),
        hnode, hidx]
      have hmod : co % BLOCK_SIZE < BLOCK_SIZE := Nat.mod_lt _ (by decide)
      generalize hamt : (if remaining < BLOCK_SIZE - co % BLOCK_SIZE then remaining
        else BLOCK_SIZE - co % BLOCK_SIZE) = amt
      have hamt1 : 0 < amt := by rw [← hamt]; split <;> omega
      have hamt2 : amt ≤ remaining := by rw [← hamt]; split <;> omega
      have hamt3 : co % BLOCK_SIZE + amt ≤ BLOCK_SIZE := by rw [← hamt]; split <;> omega
      generalize hs1 : set_block s (inode_get_bnum s node ((co / BLOCK_SIZE : Nat) : Int))
        (memcpy (blocks_get_block s (inode_get_bnum s node ((co / BLOCK_SIZE : Nat) : Int)))
          (co % BLOCK_SIZE) (fun i => data.getD (bw + i) 0) amt) = s1
      have hn1 : get_inode s1 inum = node := by rw [← hs1, ← hnode]; rfl
      have hbm1 : s1.block_bitmap = s.block_bitmap := by rw [← hs1]; rfl
      have hin1 : s1.inodes = s.inodes := by rw [← hs1]; rfl
      have hind1 : (BLOCK_SIZE : Int) < node.size → s1.blocks node.block = s.blocks node.block := by
        intro hi
        rw [← hs1]
        exact set_block_blocks_other _ _ _ _ (Ne.symm (bnum_ne_block s node hext co hi hcolt))
      have hext1 : extent_ok s1 node := extent_ok_congr s s1 node hbm1 hind1 hext
      have hbyte1 : ∀ k, k < node.size.toNat → file_byte s1 node k =
          if co ≤ k ∧ k < co + amt then data.getD (bw + (k - co)) 0 else file_byte s node k := by
        intro k hk
        rw [← hs1]
        exact write_chunk_byte s node co amt (fun i => data.getD (bw + i) 0) k hext hcolt hk hamt3
      have hout1 : ∀ b, ¬ in_extent s node b → s1.blocks b = s.blocks b := by
        intro b hb
        rw [← hs1]
        apply set_block_blocks_other
        intro hbb
        apply hb
        rw [hbb]
        exact bnum_in_extent s node co hsz0 hcolt
      obtain ⟨s', r1, r2, r3, r4, r5, r6⟩ := ih s1 (remaining - amt) (co + amt) (bw + amt)
        (by omega) (by rw [hn1]; exact hext1) (by rw [hn1]; omega)
      rw [hn1] at r4 r5 r6
      refine ⟨s', ?_, ?_, ?_, ?_, ?_, ?_⟩
      · rw [r1]
        have : bw + amt + (remaining - amt) = bw + remaining := by omega
        rw [this]
      · rw [r2, hin1]
      · rw [r3, hbm1]
      · intro b hb
        rw [r4 b (fun h => hb ((in_extent_congr s s1 node b hind1).mp h)), hout1 b hb]
      · intro hi
        rw [r5 hi, hind1 hi]
      · intro k hk
        rw [r6 k hk, hbyte1 k hk]
        by_cases h1 : co + amt ≤ k ∧ k < co + amt + (remaining - amt)
        · rw [if_pos h1, if_pos (by omega)]
          congr 1
          omega
        · rw [if_neg h1]
          by_cases h2 : co ≤ k ∧ k < co + amt
          · rw [if_pos h2, if_pos (by omega)]
          · rw [if_neg h2, if_neg (by omega)]

theorem getD_range_eq (data : List Nat) :
    (List.range data.length).map (fun i => data.getD i 0) = data := by
  apply List.ext_getElem
  · simp
  · intro i h1 h2
    simp only [List.getElem_map, List.getElem_range]
    exact List.getD_eq_getElem _ _ h2

/-- The write loop followed by a read of the same range, on a file with a
consistent extent that holds the range. -/
theorem write_then_read (t : Image) (path : List Nat) (data : List Nat) (o : Nat)
    (hres : find_path t path ≠ -1)
    (hext : extent_ok t (get_inode t (find_path t path)))
    (hap : path_apart t path (find_path t path))
    (hin : o + data.length ≤ (get_inode t (find_path t path)).size.toNat) :
    ∃ s', write_loop (find_path t path) data data.length t data.length o 0
        = some (data.length, s') ∧
      nufs_read s' path data.length o = some ((data.length : Int), data) := by
  generalize hinum : find_path t path = inum at *
  obtain ⟨s', w1, w2, w3, w4, w5, w6⟩ :=
    write_loop_ok inum data data.length t data.length o 0 (le_refl _) hext hin
  rw [Nat.zero_add] at w1
  refine ⟨s', w1, ?_⟩
  have hn : get_inode s' inum = get_inode t inum := by
    unfold get_inode
    rw [w2]
  have hext' : extent_ok s' (get_inode t inum) := extent_ok_congr t s' _ w3 w5 hext
  have F : FileStep t s' inum (get_inode t inum).size 0 :=
    fileStep_intro t s' inum _ 0 (get_inode t inum) hn rfl hext'
      (fun d _ => by rw [w2])
      (fun b hb hnb => ⟨w4 b hnb, allocated_congr t s' b w3 hb,
        fun h => hnb ((in_extent_congr t s' _ b w5).mp h)⟩)
      (fun k hk => absurd hk (Nat.not_lt_zero _))
  have hfp : find_path s' path = inum := by
    rw [(find_path_step t s' path inum _ 0 (by rw [← hinum] at hap ⊢; exact hap) F).1]
    exact hinum
  have hsz0 := hext.1
  rw [nufs_read_of_extent s' path data.length o (by rw [hfp]; exact hres)
    (by rw [hfp, hn]; exact hext'), hfp, hn]
  by_cases hz : (get_inode t inum).size ≤ (o : Int)
  · rw [if_pos hz]
    have hl : data.length = 0 := by omega
    rw [List.length_eq_zero.mp hl]
    rfl
  · rw [if_neg hz]
    have hmin : min data.length ((get_inode t inum).size.toNat - o) = data.length := by omega
    rw [hmin]
    have hb : file_bytes s' (get_inode t inum) o data.length = data := by
      unfold file_bytes
      have : (List.range data.length).map (fun i => file_byte s' (get_inode t inum) (o + i))
          = (List.range data.length).map (fun i => data.getD i 0) := by
        apply List.map_congr_left
        intro i hi
        rw [List.mem_range] at hi
        rw [w6 (o + i) (by omega), if_pos ⟨by omega, by omega⟩]
        congr 1
        omega
      rw [this, getD_range_eq]
    rw [hb]

theorem to_off_t_small (x : Int) (h0 : 0 ≤ x) (h1 : x ≤ (MAX_FILE_SIZE : Int)) :
    to_off_t x = x := by
  unfold to_off_t
  simp only [MAX_FILE_SIZE, BLOCK_SIZE] at h1
  omega

theorem cstring_at_succ (m : Mem) (a n : Nat) :
    cstring_at m a (n + 1) = if m a = 0 then [] else m a :: cstring_at m (a + 1) n := by
  conv_lhs => unfold cstring_at

theorem strcmp_eq_nil (m : Mem) (a : Nat) : strcmp_eq m a [] = (m a == 0) := by
  unfold strcmp_eq; rfl

theorem strcmp_eq_cons (m : Mem) (a c : Nat) (cs : List Nat) :
    strcmp_eq m a (c :: cs) = (m a == c && strcmp_eq m (a + 1) cs) := by
  conv_lhs => unfold strcmp_eq

/-- A terminated buffer compares equal to the string it holds, which has no
zero byte. -/
theorem cstring_match (m : Mem) (a n : Nat) (h : (cstring_at m a n).length < n) :
    strcmp_eq m a (cstring_at m a n) = true ∧ 0 ∉ cstring_at m a n := by
  induction n generalizing a with
  | zero => exact absurd h (Nat.not_lt_zero _)
  | succ n ih =>
    rw [cstring_at_succ] at h ⊢
    by_cases hz : m a = 0
    · rw [if_pos hz]
      refine ⟨?_, List.not_mem_nil _⟩
      rw [strcmp_eq_nil, hz]
      rfl
    · rw [if_neg hz] at h ⊢
      have hl : (cstring_at m (a + 1) n).length < n := by
        simp only [List.length_cons] at h
        omega
      obtain ⟨i1, i2⟩ := ih (a + 1) hl
      refine ⟨?_, ?_⟩
      · rw [strcmp_eq_cons, i1]
        simp
      · intro hm
        rcases List.mem_cons.mp hm with h0 | h0
        · exact hz h0.symm
        · exact i2 h0

/-- A C string that compares equal to a terminated buffer is the string the
buffer holds. -/
theorem cstring_of_terminated (m : Mem) (a n : Nat) (name : List Nat)
    (h : (cstring_at m a n).length < n) (hz : 0 ∉ name)
    (hm : strcmp_eq m a name = true) : cstring_at m a n = name := by
  obtain ⟨c1, c2⟩ := cstring_match m a n h
  exact strcmp_eq_unique m a _ _ c2 hz c1 hm

/-- A buffer that compares equal to a C string shorter than the buffer holds
that string. -/
theorem cstring_of_match (m : Mem) (a n : Nat) (name : List Nat)
    (hz : 0 ∉ name) (hl : name.length < n)
    (hm : strcmp_eq m a name = true) : cstring_at m a n = name := by
  induction name generalizing a n with
  | nil =>
    cases n with
    | zero => rfl
    | succ n =>
      rw [strcmp_eq_nil] at hm
      rw [cstring_at_succ, if_pos (by simpa using hm)]
  | cons c cs ih =>
    cases n with
    | zero => exact absurd hl (Nat.not_lt_zero _)
    | succ n =>
      rw [strcmp_eq_cons, Bool.and_eq_true, beq_iff_eq] at hm
      have hc : c ≠ 0 := fun hc => hz (by rw [hc]; exact List.mem_cons_self _ _)
      have hma : ¬ m a = 0 := by rw [hm.1]; exact hc
      rw [cstring_at_succ, if_neg hma, hm.1,
        ih (a + 1) n (fun h0 => hz (List.mem_cons_of_mem _ h0))
          (by simp only [List.length_cons] at hl; omega) hm.2]

theorem entry_name_match (blk : Mem) (j : Nat)
    (h : (entry_name blk j).length < DIR_NAME_LENGTH) :
    strcmp_eq blk (j * DIRENT_SIZE) (entry_name blk j) = true ∧ 0 ∉ entry_name blk j :=
  cstring_match blk _ _ h

theorem entry_name_of_terminated (blk : Mem) (j : Nat) (name : List Nat)
    (h : (entry_name blk j).length < DIR_NAME_LENGTH) (hz : 0 ∉ name)
    (hm : strcmp_eq blk (j * DIRENT_SIZE) name = true) : entry_name blk j = name :=
  cstring_of_terminated blk _ _ name h hz hm

theorem entry_name_of_match (blk : Mem) (j : Nat) (name : List Nat)
    (hz : 0 ∉ name) (hl : name.length < DIR_NAME_LENGTH)
    (hm : strcmp_eq blk (j * DIRENT_SIZE) name = true) : entry_name blk j = name :=
  cstring_of_match blk _ _ name hz hl hm

/-- In a directory of terminated names, distinct names mean that no C string
compares equal to two live entries. -/
theorem unique_of_distinct (s : Image) (dd : inode_t)
    (ht : names_terminated s dd) (hd : names_distinct s dd) : names_unique s dd := by
  intro name j k hz _ hj hk mj mk
  by_contra hne
  apply hd j hj k hk hne
  rw [entry_name_of_terminated _ j name (ht j hj) hz mj,
    entry_name_of_terminated _ k name (ht k hk) hz mk]

theorem distinct_of_unique (s : Image) (dd : inode_t)
    (ht : names_terminated s dd) (hu : names_unique s dd) : names_distinct s dd := by
  intro j hj k hk hne heq
  obtain ⟨m1, z1⟩ := entry_name_match _ j (ht j hj)
  obtain ⟨m2, _⟩ := entry_name_match _ k (ht k hk)
  rw [← heq] at m2
  exact hne (hu _ j k z1 (ht j hj) hj hk m1 m2)

theorem first_match_of_distinct (s : Image) (dd : inode_t)
    (ht : names_terminated s dd) (hd : names_distinct s dd) : first_match_only s dd := by
  intro name i j hz hslot hj mj
  obtain ⟨hi, mi, _⟩ := (entry_slot_some_iff s dd name i).mp hslot
  by_contra hne
  apply hd j hj i hi hne
  rw [entry_name_of_terminated _ j name (ht j hj) hz mj,
    entry_name_of_terminated _ i name (ht i hi) hz mi]

/-! ### `directory_put` on any directory of consistent size, a full one included -/

theorem entry_count_put_full (dd : inode_t) (h0 : 0 ≤ dd.size)
    (h1 : dd.size ≤ (BLOCK_SIZE : Int)) :
    (entry_count { dd with size := dd.size + DIRENT_SIZE }).toNat
      = (entry_count dd).toNat + 1 := by
  have hd : (DIRENT_SIZE : Int) = 52 := rfl
  have hb : (BLOCK_SIZE : Int) = 4096 := rfl
  rw [hb] at h1
  rw [entry_count_toNat _ (by simp only [hd]; omega)
      (by simp only [MAX_FILE_SIZE, BLOCK_SIZE, hd]; omega),
    entry_count_toNat dd h0 (by simp only [MAX_FILE_SIZE, BLOCK_SIZE]; omega)]
  simp only [hd, dirent_size_eq]
  omega

theorem put_view_full (s : Image) (dnum : Int) (name : List Nat) (inum : Int)
    (h0 : 0 ≤ (get_inode s dnum).size)
    (h1 : (get_inode s dnum).size ≤ (BLOCK_SIZE : Int))
    (habs : entry_slot s (get_inode s dnum) name = none)
    (hlen : name.length < DIR_NAME_LENGTH) :
    (entry_count (get_inode (directory_put s dnum name inum).2 dnum)).toNat
      = (entry_count (get_inode s dnum)).toNat + 1 ∧
    (∀ (other : List Nat) (j : Nat), other.length < DIRENT_SIZE →
      j < (entry_count (get_inode s dnum)).toNat →
      strcmp_eq (blocks_get_block (directory_put s dnum name inum).2
          (get_inode (directory_put s dnum name inum).2 dnum).block) (j * DIRENT_SIZE) other
        = strcmp_eq (blocks_get_block s (get_inode s dnum).block) (j * DIRENT_SIZE) other) ∧
    strcmp_eq (blocks_get_block (directory_put s dnum name inum).2
          (get_inode (directory_put s dnum name inum).2 dnum).block)
        ((entry_count (get_inode s dnum)).toNat * DIRENT_SIZE) name = true := by
  obtain ⟨hd, hb⟩ := put_ok_dir s dnum name inum (lookup_neg_of_absent _ _ _ habs) hlen
  have hblk : (get_inode (directory_put s dnum name inum).2 dnum).block
      = (get_inode s dnum).block := by rw [hd]
  rw [hblk, hb]
  refine ⟨?_, ?_, put_slot_new _ _ _ _ hlen⟩
  · rw [hd]; exact entry_count_put_full _ h0 h1
  · intro other j ho hj
    exact put_slot_before _ _ _ _ _ _ hj ho

theorem short_name (name : List Nat) (h : name.length < DIR_NAME_LENGTH) :
    name.length < DIRENT_SIZE := by
  rw [dir_name_length_eq] at h
  rw [dirent_size_eq]
  omega

theorem unique_put_full (s : Image) (dnum : Int) (name : List Nat) (inum : Int)
    (h0 : 0 ≤ (get_inode s dnum).size)
    (h1 : (get_inode s dnum).size ≤ (BLOCK_SIZE : Int))
    (habs : entry_slot s (get_inode s dnum) name = none)
    (hlen : name.length < DIR_NAME_LENGTH) (hz : 0 ∉ name)
    (huniq : names_unique s (get_inode s dnum)) :
    names_unique (directory_put s dnum name inum).2
      (get_inode (directory_put s dnum name inum).2 dnum) := by
  obtain ⟨p2, p3, p4⟩ := put_view_full s dnum name inum h0 h1 habs hlen
  have hn := (entry_slot_none_iff _ _ _).mp habs
  intro o j k hzo hlo hj hk mj mk
  rw [p2] at hj hk
  have hlo2 := short_name o hlo
  by_cases hjc : j = (entry_count (get_inode s dnum)).toNat
  · by_cases hkc : k = (entry_count (get_inode s dnum)).toNat
    · rw [hjc, hkc]
    · exfalso
      subst hjc
      have hon : o = name := strcmp_eq_unique _ _ _ _ hzo hz mj p4
      subst hon
      rw [p3 o k hlo2 (by omega), hn k (by omega)] at mk
      exact Bool.noConfusion mk
  · by_cases hkc : k = (entry_count (get_inode s dnum)).toNat
    · exfalso
      subst hkc
      have hon : o = name := strcmp_eq_unique _ _ _ _ hzo hz mk p4
      subst hon
      rw [p3 o j hlo2 (by omega), hn j (by omega)] at mj
      exact Bool.noConfusion mj
    · rw [p3 o j hlo2 (by omega)] at mj
      rw [p3 o k hlo2 (by omega)] at mk
      exact huniq o j k hzo hlo (by omega) (by omega) mj mk

theorem terminated_put (s : Image) (dnum : Int) (name : List Nat) (inum : Int)
    (h0 : 0 ≤ (get_inode s dnum).size)
    (h1 : (get_inode s dnum).size ≤ (BLOCK_SIZE : Int))
    (habs : entry_slot s (get_inode s dnum) name = none)
    (hlen : name.length < DIR_NAME_LENGTH) (hz : 0 ∉ name)
    (ht : names_terminated s (get_inode s dnum)) :
    names_terminated (directory_put s dnum name inum).2
      (get_inode (directory_put s dnum name inum).2 dnum) := by
  obtain ⟨p2, p3, p4⟩ := put_view_full s dnum name inum h0 h1 habs hlen
  intro j hj
  rw [p2] at hj
  by_cases hjc : j = (entry_count (get_inode s dnum)).toNat
  · rw [hjc, entry_name_of_match _ _ name hz hlen p4]
    exact hlen
  · have hjo : j < (entry_count (get_inode s dnum)).toNat := by omega
    obtain ⟨m1, z1⟩ := entry_name_match _ j (ht j hjo)
    rw [← p3 _ j (short_name _ (ht j hjo)) hjo] at m1
    rw [entry_name_of_match _ j _ z1 (ht j hjo) m1]
    exact ht j hjo

theorem terminated_delete (s : Image) (dnum : Int) (name : List Nat)
    (h0 : 0 ≤ (get_inode s dnum).size)
    (h1 : (get_inode s dnum).size ≤ (MAX_FILE_SIZE : Int))
    (ht : names_terminated s (get_inode s dnum)) :
    names_terminated (directory_delete s dnum name).2
      (get_inode (directory_delete s dnum name).2 dnum) := by
  cases hslot : entry_slot s (get_inode s dnum) name with
  | none =>
    rw [directory_delete_none s dnum name hslot]
    exact ht
  | some i =>
    obtain ⟨v1, v2, v3, _, _⟩ := delete_view s dnum name i h0 h1 hslot
    intro j hj
    by_cases hji : j = i
    · have hl : (entry_count (get_inode s dnum)).toNat - 1 < (entry_count (get_inode s dnum)).toNat := by
        omega
      obtain ⟨m1, z1⟩ := entry_name_match _ _ (ht _ hl)
      rw [← v3 _ (short_name _ (ht _ hl))] at m1
      rw [hji, entry_name_of_match _ i _ z1 (ht _ hl) m1]
      exact ht _ hl
    · have hjo : j < (entry_count (get_inode s dnum)).toNat := by omega
      obtain ⟨m1, z1⟩ := entry_name_match _ j (ht j hjo)
      rw [← v2 _ j (short_name _ (ht j hjo)) hji] at m1
      rw [entry_name_of_match _ j _ z1 (ht j hjo) m1]
      exact ht j hjo

/-- A name that `directory_put` does not find with a non-negative index is not
in a directory whose entries hold non-negative indices. -/
theorem absent_of_lookup_neg (s : Image) (dd : inode_t) (name : List Nat)
    (hnn : indices_nonneg s dd) (h : ¬ directory_lookup s dd name ≥ 0) :
    entry_slot s dd name = none := by
  cases hs : entry_slot s dd name with
  | none => rfl
  | some i =>
    exfalso
    apply h
    rw [directory_lookup_of_slot_some s dd name i hs]
    exact hnn i (slot_lt_count s dd name i hs)

end Nufs
